import Mathlib

/-! # Azure publishing pipeline (`lib/azure.js`)

A shallow embedding of the publishing module, in two styles.

* The stages that wait for one answer at a time (`_setToken`,
  `_checkResources`, `_deployResourceGroup` and its tasks,
  `_getPublishingCredentials`, `cleanup`) are embedded in continuation-passing
  style: a function that takes a Node-style callback takes a Lean continuation,
  and its value is the trace of the calls it makes on its collaborators, in
  program order.  A callback that is never invoked contributes nothing to the
  trace; a callback invoked twice contributes twice.
* The stages that keep several calls in flight (`_ftpWalk`, and
  `_createFTPDirectories` with `_uploadFTPFiles`) are embedded as machines: a
  state holds the calls issued and not yet answered, and a step delivers one
  answer, chosen by the environment, and runs the callbacks hung on it.
  Statements about these stages quantify over every order of answers.

Collaborators that are not part of the module (the SDK clients, Node's `fs`,
`path` and `url`, the `async` helpers) appear as explicit parameters or as
models of their library code.  Logging (`sails.log.verbose`) is left out.
-/

namespace Azure

/-! ## JavaScript values the module inspects -/

/-- An `Error` object as far as the module looks at it: `err.code` and
`err.statusCode` may be absent. -/
structure JsError where
  message : String
  code : Option String
  statusCode : Option Nat
deriving DecidableEq, Repr

/-- A value passed in the error position of a callback: the module passes
plain strings for its own failures and forwards `Error` objects of its
collaborators. -/
inductive ErrVal where
  | text (s : String)
  | object (e : JsError)
deriving DecidableEq, Repr

/-- The pair `(err, result)` a Node-style collaborator hands to its callback. -/
structure Reply (α : Type) where
  err : Option JsError
  result : Option α
deriving DecidableEq, Repr

/-- JavaScript truthiness of a configuration value that is either `undefined`
or a string: `undefined` and the empty string are falsy. -/
def truthy : Option String → Bool
  | none => false
  | some s => !(s == "")

/-- The merged publish configuration `azurePublishConfig`; a field that was not
supplied is `undefined`, here `none`. -/
structure PublishConfig where
  authorityUrl : Option String
  username : Option String
  password : Option String
  clientId : Option String
  subscriptionId : Option String
  rgName : Option String
  region : Option String
  webAppName : Option String
  directory : Option String
  rgTemplatePath : Option String
  rgDeploymentName : Option String
  appHostingPlanName : Option String
deriving DecidableEq, Repr

/-! ## Credential acquisition: `_setToken` -/

/-- The token response of the identity provider, as far as it is read. -/
structure TokenResponse where
  accessToken : Option String
deriving DecidableEq, Repr

/-- What `_setToken` does that can be observed from outside. -/
inductive TokenEvent where
  | newAuthenticationContext (authorityUrl : Option String)
  | acquireTokenWithUsernamePassword (resource : String)
      (username password clientId : Option String)
  | newTokenCloudCredentials (subscriptionId : Option String) (token : Option String)
  | createResourceManagementClient
  | createWebSiteManagementClient
  | callback (err : Option ErrVal) (result : Option String)
  | thrown (what : String)
deriving DecidableEq, Repr

/-- The identity-provider library `adal-node`: whether constructing an
`AuthenticationContext` for an authority throws, and what the token endpoint
answers. -/
structure IdentityProvider where
  contextThrows : Option String → Option String
  acquire : Option String → Option String → Option String → Reply TokenResponse

/-- The configuration error string of `_setToken`. -/
def missingConfigMessage : String :=
  "Missing Azure configuration properties. Check to ensure appropriate environment variables have been set"

/-- Embedding of `_setToken` (azure.js 59-91). -/
def _setToken (idp : IdentityProvider) (azurePublishConfig : PublishConfig)
    (callback : Option ErrVal → Option String → List TokenEvent) : List TokenEvent :=
  let authorityUrl := azurePublishConfig.authorityUrl
  -- var service = new AuthenticationContext(authorityUrl);
  TokenEvent.newAuthenticationContext authorityUrl ::
  match idp.contextThrows authorityUrl with
  | some what => [TokenEvent.thrown what]
  | none =>
    let username := azurePublishConfig.username
    let password := azurePublishConfig.password
    let clientId := azurePublishConfig.clientId
    let subscriptionId := azurePublishConfig.subscriptionId
    if !truthy username || !truthy password || !truthy clientId || !truthy subscriptionId then
      callback (some (ErrVal.text missingConfigMessage)) none
    else
      TokenEvent.acquireTokenWithUsernamePassword "https://management.core.windows.net/"
          username password clientId ::
      let r := idp.acquire username password clientId
      match r.err with
      | some e => callback (some (ErrVal.object e)) none
      | none =>
        match r.result with
        | none => [TokenEvent.thrown "TypeError: Cannot read property accessToken of undefined"]
        | some tokenResponse =>
          TokenEvent.newTokenCloudCredentials subscriptionId tokenResponse.accessToken ::
          TokenEvent.createResourceManagementClient ::
          TokenEvent.createWebSiteManagementClient ::
          callback none (some "Token set")

/-- The caller of a stage, recording each invocation of the callback. -/
def recordToken (err : Option ErrVal) (result : Option String) : List TokenEvent :=
  [TokenEvent.callback err result]

/-- An event that reaches the network or builds a credential or client. -/
def TokenEvent.isNetworkOrClient : TokenEvent → Bool
  | .acquireTokenWithUsernamePassword _ _ _ _ => true
  | .newTokenCloudCredentials _ _ => true
  | .createResourceManagementClient => true
  | .createWebSiteManagementClient => true
  | _ => false

/-- A configuration value is missing when it is `undefined`. -/
def missing (v : Option String) : Bool := v.isNone

/-- A configuration with every field set. -/
def fullConfig : PublishConfig :=
  { authorityUrl := some "https://login.windows.net/contoso.example"
    username := some "deployer"
    password := some "secret"
    clientId := some "client-1"
    subscriptionId := some "sub-1"
    rgName := some "rg"
    region := some "West US"
    webAppName := some "app"
    directory := some "site"
    rgTemplatePath := some "template.json"
    rgDeploymentName := some "deployment"
    appHostingPlanName := some "plan" }

/-- The full configuration without `authorityUrl`. -/
def configWithoutAuthority : PublishConfig :=
  { fullConfig with authorityUrl := none }

/-- The full configuration without `password`. -/
def configWithoutPassword : PublishConfig :=
  { fullConfig with password := none }

/-- An identity provider whose context constructor accepts any authority and
whose token endpoint answers with a token. -/
def lenientProvider : IdentityProvider :=
  { contextThrows := fun _ => none
    acquire := fun _ _ _ => { err := none, result := some { accessToken := some "tok" } } }

/-- An identity provider whose context constructor throws on an absent
authority, as `adal-node` does. -/
def strictProvider : IdentityProvider :=
  { contextThrows := fun a => if a.isNone then some "TypeError: authority" else none
    acquire := fun _ _ _ => { err := none, result := some { accessToken := some "tok" } } }

/-! ## Management-API stages -/

/-- JavaScript truthiness of a value in the error position. -/
def errTruthy : Option ErrVal → Bool
  | none => false
  | some (ErrVal.text s) => !(s == "")
  | some (ErrVal.object _) => true

/-- The property `err.code` of an error value; a string has none. -/
def errCode : Option ErrVal → Option String
  | some (ErrVal.object e) => e.code
  | _ => none

/-- The property `err.statusCode` of an error value; a string has none. -/
def errStatusCode : Option ErrVal → Option Nat
  | some (ErrVal.object e) => e.statusCode
  | _ => none

/-- String concatenation of a possibly undefined value. -/
def jsToString : Option String → String
  | none => "undefined"
  | some s => s

/-- The result of `resourceGroups.checkExistence`. -/
structure ExistenceResult where
  existsFlag : Bool
deriving DecidableEq, Repr

/-- The result of `deployments.get`, reduced to
`result.deployment.properties.provisioningState`. -/
structure Deployment where
  provisioningState : Option String
deriving DecidableEq, Repr

/-- One entry of `result.publishProfiles`. -/
structure PublishProfile where
  publishMethod : String
  publishUrl : String
  userName : Option String
  userPassword : Option String
deriving DecidableEq, Repr

/-- Calls on the management clients and on the caller, in program order.
`enterDeployResourceGroup` marks each invocation of `_deployResourceGroup`;
`clearInterval` marks the cancellation of the polling timer. -/
inductive MgmtEvent where
  | webSpacesGet (webSpace : String)
  | webSitesGet (webSpace : String) (siteName : Option String)
  | getPublishProfile (webSpace : String) (siteName : Option String)
  | enterDeployResourceGroup
  | checkExistence (rgName : Option String)
  | resourceGroupsCreateOrUpdate (rgName : Option String) (location : Option String)
  | readTemplate (templatePath : Option String)
  | deploymentsCreateOrUpdate (rgName deploymentName : Option String)
  | deploymentsGet (rgName deploymentName : Option String)
  | clearInterval
  | deleteMethod (rgName : Option String)
  | callback (err : Option ErrVal) (result : Option String)
  | thrown (what : String)
deriving DecidableEq, Repr

/-- The web-site management client (`webSiteManagementClient`), as a mock that
fixes what each call hands to its callback. -/
structure WebSiteClient where
  webSpacesGet : String → Reply Unit
  webSitesGet : String → Option String → Reply Unit
  getPublishProfile : String → Option String → Reply (List PublishProfile)

/-- The resource management client (`resourceManagementClient`) together with
the template file: what each call hands to its callback.  `deploymentsGet`
lists the replies to the successive status polls, each arriving before the
next tick of the timer. -/
structure ResourceClient where
  checkExistence : Option String → Reply ExistenceResult
  resourceGroupsCreateOrUpdate : Option String → Option String → Reply String
  readTemplate : Option String → Option JsError
  deploymentsCreateOrUpdate : Option String → Option String → Reply String
  deploymentsGet : List (Reply Deployment)
  deleteMethod : Option String → Reply String

/-- A stage in callback style: given its callback, the trace it produces. -/
abbrev Task (E : Type) := (Option ErrVal → Option String → List E) → List E

/-- Model of `async.series(tasks, final)`: the tasks run one after the other,
each started when the previous one calls back without error; the first error
goes to `final` at once, as does the list of results after the last task. -/
def series {E : Type} : List (Task E) → List (Option String) →
    (Option ErrVal → List (Option String) → List E) → List E
  | [], results, final => final none results
  | task :: rest, results, final =>
    task (fun err result =>
      if errTruthy err then final err (results ++ [result])
      else series rest (results ++ [result]) final)

/-- Embedding of `_checkRGExistence` (azure.js 262-280); `done` receives
`(err, exists, result)`. -/
def _checkRGExistence (rm : ResourceClient) (azurePublishConfig : PublishConfig)
    (done : Option ErrVal → Bool → Option ExistenceResult → List MgmtEvent) : List MgmtEvent :=
  let rgName := azurePublishConfig.rgName
  MgmtEvent.checkExistence rgName ::
  let r := rm.checkExistence rgName
  let err := r.err.map ErrVal.object
  let result := r.result
  if errTruthy err && errStatusCode err == some 404 && errCode err == some "NotFound" then
    done none false result
  else if errTruthy err then
    done err false none
  else
    done none true result

/-- Embedding of `_createResourceGroup` (azure.js 287-304). -/
def _createResourceGroup (rm : ResourceClient) (azurePublishConfig : PublishConfig) :
    Task MgmtEvent := fun callback =>
  let rgName := azurePublishConfig.rgName
  let location := azurePublishConfig.region
  MgmtEvent.resourceGroupsCreateOrUpdate rgName location ::
  let r := rm.resourceGroupsCreateOrUpdate rgName location
  match r.err with
  | some e => callback (some (ErrVal.object e)) none
  | none => callback none r.result

/-- Embedding of `_deployTemplate` (azure.js 311-353). -/
def _deployTemplate (rm : ResourceClient) (azurePublishConfig : PublishConfig) :
    Task MgmtEvent := fun callback =>
  let templatePath := azurePublishConfig.rgTemplatePath
  let rgName := azurePublishConfig.rgName
  let deploymentName := azurePublishConfig.rgDeploymentName
  MgmtEvent.readTemplate templatePath ::
  match rm.readTemplate templatePath with
  | some e => callback (some (ErrVal.object e)) none
  | none =>
    MgmtEvent.deploymentsCreateOrUpdate rgName deploymentName ::
    let r := rm.deploymentsCreateOrUpdate rgName deploymentName
    match r.err with
    | some e => callback (some (ErrVal.object e)) none
    | none => callback none r.result

/-- The body of `onDeploymentGet` (azure.js 369-385): what one status reply
makes the stage do, and whether the timer was cleared. -/
def onDeploymentGet (callback : Option ErrVal → Option String → List MgmtEvent)
    (r : Reply Deployment) : List MgmtEvent × Bool :=
  let first : List MgmtEvent × Bool :=
    match r.err with
    | some e => (callback (some (ErrVal.object e)) none ++ [MgmtEvent.clearInterval], true)
    | none => ([], false)
  let state := r.result.bind (fun d => d.provisioningState)
  let second : List MgmtEvent × Bool :=
    if r.result.isSome && state == some "Succeeded" then
      (callback none (some "Template deployment succeeded") ++ [MgmtEvent.clearInterval], true)
    else if r.result.isSome && state == some "Failed" then
      (callback (some (ErrVal.text "Template deployment failed")) none
        ++ [MgmtEvent.clearInterval], true)
    else ([], false)
  (first.1 ++ second.1, first.2 || second.2)

/-- The timer of `checkStatus`: one poll per tick, for as long as the interval
has not been cleared.  When the replies run out the timer is still armed and
nothing more has happened. -/
def checkStatus (rgName deploymentName : Option String)
    (callback : Option ErrVal → Option String → List MgmtEvent) :
    List (Reply Deployment) → List MgmtEvent
  | [] => []
  | r :: rest =>
    MgmtEvent.deploymentsGet rgName deploymentName ::
    let step := onDeploymentGet callback r
    step.1 ++ (if step.2 then [] else checkStatus rgName deploymentName callback rest)

/-- Embedding of `_checkDeploymentStatus` (azure.js 360-392). -/
def _checkDeploymentStatus (rm : ResourceClient) (azurePublishConfig : PublishConfig) :
    Task MgmtEvent := fun callback =>
  let rgName := azurePublishConfig.rgName
  let deploymentName := azurePublishConfig.rgDeploymentName
  checkStatus rgName deploymentName callback rm.deploymentsGet

/-- Embedding of `_deployResourceGroup` (azure.js 231-255). -/
def _deployResourceGroup (rm : ResourceClient) (azurePublishConfig : PublishConfig)
    (done : Option ErrVal → List (Option String) → List MgmtEvent) : List MgmtEvent :=
  MgmtEvent.enterDeployResourceGroup ::
  _checkRGExistence rm azurePublishConfig (fun err existsFlag _result =>
    if errTruthy err then done err []
    else if existsFlag then
      series [_deployTemplate rm azurePublishConfig,
              _checkDeploymentStatus rm azurePublishConfig] []
        (fun err results => if errTruthy err then done err [] else done none results)
    else
      series [_createResourceGroup rm azurePublishConfig,
              _deployTemplate rm azurePublishConfig,
              _checkDeploymentStatus rm azurePublishConfig] []
        (fun err results => if errTruthy err then done err [] else done none results))

/-- The name of the hosting namespace, `rgName + '-' + region.replace(/ /g, '')
+ 'webspace'`. -/
def webSpaceName (rgName : Option String) (region : String) : String :=
  jsToString rgName ++ "-" ++ region.replace " " "" ++ "webspace"

/-- Embedding of `_checkResources` (azure.js 98-148). -/
def _checkResources (web : WebSiteClient) (rm : ResourceClient)
    (azurePublishConfig : PublishConfig) : Task MgmtEvent := fun callback =>
  match azurePublishConfig.region with
  | none => [MgmtEvent.thrown "TypeError: Cannot read property replace of undefined"]
  | some region =>
    let webSpace := webSpaceName azurePublishConfig.rgName region
    let siteName := azurePublishConfig.webAppName
    let getWebSpace : Task MgmtEvent := fun cb =>
      MgmtEvent.webSpacesGet webSpace ::
      let r := web.webSpacesGet webSpace
      match r.err with
      | some e => cb (some (ErrVal.object e)) none
      | none => if r.result.isSome then cb none (some "Web Space exists") else []
    let getWebSite : Task MgmtEvent := fun cb =>
      MgmtEvent.webSitesGet webSpace siteName ::
      let r := web.webSitesGet webSpace siteName
      match r.err with
      | some e => cb (some (ErrVal.object e)) none
      | none => if r.result.isSome then cb none (some "Web App already exists") else []
    series [getWebSpace, getWebSite] [] (fun err _results =>
      if errTruthy err && errCode err == some "NotFound" then
        _deployResourceGroup rm azurePublishConfig (fun rgErr _result =>
          if errTruthy rgErr then callback rgErr none
          else callback none (some "Resource Group deployed"))
      else if errTruthy err then callback err none
      else callback none (some "Resources checked"))

/-- The module variables `ftpHost`, `ftpUser`, `ftpPass`. -/
structure FtpVars where
  ftpHost : Option String
  ftpUser : Option String
  ftpPass : Option String
deriving DecidableEq, Repr

/-- The loop of `onWebSiteGet` (azure.js 165-177) over the profiles from
index `i` on: the first profile whose method is FTP sets the three variables
and calls back; running off the end does nothing. -/
def scanProfiles (hostname : String → Option String)
    (callback : Option ErrVal → Option String → List MgmtEvent) (vars : FtpVars) :
    List PublishProfile → FtpVars × List MgmtEvent
  | [] => (vars, [])
  | profile :: rest =>
    if profile.publishMethod == "FTP" then
      ({ ftpHost := hostname profile.publishUrl
         ftpUser := profile.userName
         ftpPass := profile.userPassword },
       callback none (some "FTPS Publish Profile retrieved"))
    else scanProfiles hostname callback vars rest

/-- Embedding of `_getPublishingCredentials` (azure.js 155-179).  `hostname`
stands for `url.parse(u).hostname`. -/
def _getPublishingCredentials (web : WebSiteClient) (hostname : String → Option String)
    (azurePublishConfig : PublishConfig) (vars : FtpVars)
    (callback : Option ErrVal → Option String → List MgmtEvent) : FtpVars × List MgmtEvent :=
  match azurePublishConfig.region with
  | none => (vars, [MgmtEvent.thrown "TypeError: Cannot read property replace of undefined"])
  | some region =>
    let webSpace := webSpaceName azurePublishConfig.rgName region
    let siteName := azurePublishConfig.webAppName
    let r := web.getPublishProfile webSpace siteName
    match r.err with
    | some e =>
      (vars, MgmtEvent.getPublishProfile webSpace siteName ::
        callback (some (ErrVal.object e)) none)
    | none =>
      match r.result with
      | none =>
        (vars, [MgmtEvent.getPublishProfile webSpace siteName,
          MgmtEvent.thrown "TypeError: Cannot read property publishProfiles of undefined"])
      | some publishProfiles =>
        let scan := scanProfiles hostname callback vars publishProfiles
        (scan.1, MgmtEvent.getPublishProfile webSpace siteName :: scan.2)

/-- An argument of a JavaScript call: a string or a callback function. -/
inductive JsArg where
  | str (s : String)
  | fn (f : Option ErrVal → Option String → List MgmtEvent)

/-- Calling the value bound to a callback parameter: a function is invoked,
anything else (a string, or `undefined` when the argument is absent) throws. -/
def callArg (done : Option JsArg) (err : Option ErrVal) (result : Option String) :
    List MgmtEvent :=
  match done with
  | some (JsArg.fn f) => f err result
  | _ => [MgmtEvent.thrown "TypeError: done is not a function"]

/-- Embedding of `cleanup` (azure.js 523-536), applied to the argument list of
a call: its one parameter `done` is bound to the first argument. -/
def cleanup (rm : ResourceClient) (azurePublishConfig : PublishConfig)
    (args : List JsArg) : List MgmtEvent :=
  let done := args.head?
  let rgName := azurePublishConfig.rgName
  MgmtEvent.deleteMethod rgName ::
  let r := rm.deleteMethod rgName
  match r.err with
  | some e => callArg done (some (ErrVal.object e)) none
  | none => callArg done none r.result

/-- The caller of a management stage, recording each invocation. -/
def record (err : Option ErrVal) (result : Option String) : List MgmtEvent :=
  [MgmtEvent.callback err result]

/-! ### Vocabulary for the statements about the management stages -/

/-- Marks an invocation of `_deployResourceGroup`. -/
def MgmtEvent.isEnterDeploy : MgmtEvent → Bool
  | .enterDeployResourceGroup => true
  | _ => false

/-- Marks a `resourceGroups.createOrUpdate` call. -/
def MgmtEvent.isGroupCreate : MgmtEvent → Bool
  | .resourceGroupsCreateOrUpdate _ _ => true
  | _ => false

/-- Marks an invocation of the caller's callback. -/
def MgmtEvent.isCallback : MgmtEvent → Bool
  | .callback _ _ => true
  | _ => false

/-- Marks a `deployments.get` status poll. -/
def MgmtEvent.isPoll : MgmtEvent → Bool
  | .deploymentsGet _ _ => true
  | _ => false

/-- Marks a `resourceGroups.deleteMethod` call. -/
def MgmtEvent.isDelete : MgmtEvent → Bool
  | .deleteMethod _ => true
  | _ => false

/-- Both existence probes report an object: no error and a result. -/
def BothExist (web : WebSiteClient) (webSpace : String) (siteName : Option String) : Prop :=
  (web.webSpacesGet webSpace).err = none ∧ (web.webSpacesGet webSpace).result.isSome = true ∧
  (web.webSitesGet webSpace siteName).err = none ∧
  (web.webSitesGet webSpace siteName).result.isSome = true

/-- The error `e` is the error of the first failing probe: of the namespace
probe, or of the application probe after the namespace probe reported an
object. -/
def FirstFailure (web : WebSiteClient) (webSpace : String) (siteName : Option String)
    (e : JsError) : Prop :=
  (web.webSpacesGet webSpace).err = some e ∨
  ((web.webSpacesGet webSpace).err = none ∧ (web.webSpacesGet webSpace).result.isSome = true ∧
    (web.webSitesGet webSpace siteName).err = some e)

/-- The probes issued up to and including the first failing one. -/
def probesUntilFailure (web : WebSiteClient) (webSpace : String) (siteName : Option String) :
    List MgmtEvent :=
  match (web.webSpacesGet webSpace).err with
  | some _ => [MgmtEvent.webSpacesGet webSpace]
  | none => [MgmtEvent.webSpacesGet webSpace, MgmtEvent.webSitesGet webSpace siteName]

/-- An error object with a code and a status. -/
def mkError (code : String) (status : Nat) : JsError :=
  { message := code, code := some code, statusCode := some status }

/-- A resource client on which the group does not exist (reported as the 404
error), every call succeeds and the deployment runs for two polls. -/
def freshClient : ResourceClient :=
  { checkExistence := fun _ => { err := some (mkError "NotFound" 404), result := none }
    resourceGroupsCreateOrUpdate := fun _ _ => { err := none, result := some "created" }
    readTemplate := fun _ => none
    deploymentsCreateOrUpdate := fun _ _ => { err := none, result := some "started" }
    deploymentsGet :=
      [ { err := none, result := some { provisioningState := some "Running" } },
        { err := none, result := some { provisioningState := some "Running" } },
        { err := none, result := some { provisioningState := some "Succeeded" } } ]
    deleteMethod := fun _ => { err := none, result := some "deleted" } }

/-- A web client on which namespace and application exist. -/
def existingSite : WebSiteClient :=
  { webSpacesGet := fun _ => { err := none, result := some () }
    webSitesGet := fun _ _ => { err := none, result := some () }
    getPublishProfile := fun _ _ => { err := none, result := some [] } }

/-- A web client on which the namespace exists and the application is not
found. -/
def missingSite : WebSiteClient :=
  { existingSite with
    webSitesGet := fun _ _ => { err := some (mkError "NotFound" 404), result := none } }

/-- A web client whose namespace probe is refused. -/
def forbiddenSite : WebSiteClient :=
  { existingSite with
    webSpacesGet := fun _ => { err := some (mkError "Forbidden" 403), result := none } }

/-- The caller of `_checkRGExistence`, recording `(err, exists)`. -/
def recordExistence (err : Option ErrVal) (existsFlag : Bool) (_result : Option ExistenceResult) :
    List MgmtEvent :=
  [MgmtEvent.callback err (some (if existsFlag then "exists: true" else "exists: false"))]

/-- The caller of `_deployResourceGroup`, recording the error and the last
result. -/
def recordDone (err : Option ErrVal) (results : List (Option String)) : List MgmtEvent :=
  [MgmtEvent.callback err (results.getLastD none)]

/-- A resource client whose existence check succeeds with `exists: false`, the
documented shape of a missing resource group. -/
def negativeResultClient : ResourceClient :=
  { freshClient with
    checkExistence := fun _ => { err := none, result := some { existsFlag := false } } }

/-- The provisioning state a status reply carries, if it carries a result. -/
def Reply.state (r : Reply Deployment) : Option String :=
  r.result.bind (fun d => d.provisioningState)

/-- A status reply that ends the polling: a transport error, or a result whose
provisioning state is Succeeded or Failed. -/
def terminalReply (r : Reply Deployment) : Bool :=
  r.err.isSome || r.state == some "Succeeded" || r.state == some "Failed"

/-- A status reply is a transport error or a result, not both: the management
client hands its callback either `(err)` or `(null, result)`. -/
def ErrorOrResult (r : Reply Deployment) : Prop :=
  r.err.isSome = true → r.result = none

/-- The resolution the stage owes its caller for a terminal reply: success for
Succeeded, the deployment-failure error for Failed, the transport error
otherwise. -/
def resolution (r : Reply Deployment) : MgmtEvent :=
  if r.state == some "Succeeded" then
    MgmtEvent.callback none (some "Template deployment succeeded")
  else if r.state == some "Failed" then
    MgmtEvent.callback (some (ErrVal.text "Template deployment failed")) none
  else MgmtEvent.callback (r.err.map ErrVal.object) none

/-- A status reply reporting a provisioning state. -/
def stateReply (s : String) : Reply Deployment :=
  { err := none, result := some { provisioningState := some s } }

/-- A publish profile with the given method, endpoint and user. -/
def mkProfile (method url user : String) : PublishProfile :=
  { publishMethod := method, publishUrl := url, userName := some user,
    userPassword := some (user ++ "-pw") }

/-- A web client that answers the profile query with a Web Deploy profile
followed by two FTP profiles. -/
def profiledSite : WebSiteClient :=
  { existingSite with
    getPublishProfile := fun _ _ =>
      { err := none
        result := some
          [ mkProfile "MSDeploy" "app.scm.example:443" "deploy",
            mkProfile "FTP" "ftp://waws-1.ftp.example/site/wwwroot" "first",
            mkProfile "FTP" "ftp://waws-2.ftp.example/site/wwwroot" "second" ] } }

/-- A stand-in for `url.parse(u).hostname` on the example endpoints. -/
def exampleHostname (u : String) : Option String :=
  if u == "ftp://waws-1.ftp.example/site/wwwroot" then some "waws-1.ftp.example"
  else if u == "ftp://waws-2.ftp.example/site/wwwroot" then some "waws-2.ftp.example"
  else none

/-- Module variables before any publish run. -/
def noFtpVars : FtpVars := { ftpHost := none, ftpUser := none, ftpPass := none }

/-- The resource group name of the full configuration is "rg"; a second name. -/
def otherGroupName : String := "rg-other"

/-! ## Node's `path` module

The module computes remote paths with `path.join` and `path.relative`.  The
definitions below follow `lib/path.js` of Node 0.10 (the version the module
requires, azure.js 185), in its POSIX and its Windows variant, on strings as lists of
characters.  What the functions read from the process is a parameter: the
working directory `process.cwd()` and, for the Windows variant, the
environment `process.env`, which holds the working directory of each drive
under the name `=C:`.  `toLowerCase` is taken on the letters `A` to `Z`. -/

/-- The two variants of Node's `path` module. -/
inductive Platform where
  | posix
  | win32
deriving DecidableEq, Repr

namespace NodePath

/-- The characters the variant treats as separators. -/
def isSep : Platform → Char → Bool
  | .posix, c => c == '/'
  | .win32, c => c == '/' || c == '\\'

/-- The separator the variant writes. -/
def sep : Platform → Char
  | .posix => '/'
  | .win32 => '\\'

/-- JavaScript `s.split(c)` for separators given by a test: an empty piece
between two adjacent separators, one piece for the empty string. -/
def splitOn (p : Char → Bool) : List Char → List (List Char)
  | [] => [[]]
  | c :: cs =>
    if p c then [] :: splitOn p cs
    else
      match splitOn p cs with
      | [] => [[c]]
      | w :: ws => (c :: w) :: ws

/-- JavaScript `parts.join(c)`. -/
def joinWith (c : Char) (parts : List (List Char)) : List Char :=
  List.intercalate [c] parts

/-- The pieces of a path between separators, empty pieces dropped:
`path.split(...).filter(function(p) { return !!p; })`. -/
def pieces (P : Platform) (s : List Char) : List (List Char) :=
  (splitOn (isSep P) s).filter (fun w => !w.isEmpty)

/-- The loop of `normalizeArray`, from the last part to the first: `.` is
dropped, `..` is dropped and counted in `up`, any other part is dropped while
`up` is positive and kept otherwise.  Takes the parts in reverse order. -/
def normalizeScan : List (List Char) → Nat → List (List Char) → List (List Char) × Nat
  | [], up, kept => (kept, up)
  | last :: earlier, up, kept =>
    if last = ['.'] then normalizeScan earlier up kept
    else if last = ['.', '.'] then normalizeScan earlier (up + 1) kept
    else if up ≠ 0 then normalizeScan earlier (up - 1) kept
    else normalizeScan earlier up (last :: kept)

/-- Transcription of `normalizeArray(parts, allowAboveRoot)`. -/
def normalizeArray (parts : List (List Char)) (allowAboveRoot : Bool) : List (List Char) :=
  let scan := normalizeScan parts.reverse 0 []
  if allowAboveRoot then List.replicate scan.2 ['.', '.'] ++ scan.1 else scan.1

/-- A path taken apart as the variant does at the start of `normalize` and in
the loop of `resolve`: the device (`result[1] || ''`), `isUnc`, `isAbsolute`
and the tail (`result[3]`).  The POSIX variant has no device. -/
structure Split where
  device : List Char
  unc : Bool
  absolute : Bool
  tail : List Char
deriving DecidableEq, Repr

/-- The second alternative of the first group of `splitDeviceRe`,
`[\\\/]{2}[^\\\/]+[\\\/]+[^\\\/]+`: two separators, a server name, separators,
a share name.  Every quantifier is greedy and what follows the group matches
anything, so the match, if there is one, takes each run whole.  Gives the
matched text and what follows it. -/
def splitUnc : List Char → Option (List Char × List Char)
  | c1 :: c2 :: r =>
    if isSep .win32 c1 && isSep .win32 c2 then
      let server := r.takeWhile (fun c => !isSep .win32 c)
      let r1 := r.dropWhile (fun c => !isSep .win32 c)
      let seps := r1.takeWhile (isSep .win32)
      let r2 := r1.dropWhile (isSep .win32)
      let share := r2.takeWhile (fun c => !isSep .win32 c)
      let r3 := r2.dropWhile (fun c => !isSep .win32 c)
      if server.isEmpty || seps.isEmpty || share.isEmpty then none
      else some (c1 :: c2 :: (server ++ seps ++ share), r3)
    else none
  | _ => none

/-- The first group of `splitDeviceRe`,
`([a-zA-Z]:|[\\\/]{2}[^\\\/]+[\\\/]+[^\\\/]+)?`: a drive letter with a colon,
or a UNC root, or nothing.  Gives the device and what follows it. -/
def splitDevice : List Char → List Char × List Char
  | a :: ':' :: rest =>
    if a.isAlpha then ([a, ':'], rest) else ([], a :: ':' :: rest)
  | s =>
    match splitUnc s with
    | some found => found
    | none => ([], s)

/-- JavaScript `device && device.charAt(1) !== ':'`, as a truth value. -/
def isUncDevice (device : List Char) : Bool :=
  !device.isEmpty && device[1]? != some ':'

/-- Device, `isUnc`, `isAbsolute` and tail of a path.  Windows:
`splitDeviceRe.exec(path)`, with `isAbsolute = !!result[2] || isUnc`.  POSIX:
no device, `isAbsolute = path.charAt(0) === '/'`, and the tail is the path
itself, whose leading slash splitting drops. -/
def splitPath : Platform → List Char → Split
  | .posix, s => { device := [], unc := false, absolute := s.head? == some '/', tail := s }
  | .win32, s =>
    let d := splitDevice s
    let unc := isUncDevice d.1
    match d.2 with
    | c :: tail =>
      if isSep .win32 c then { device := d.1, unc := unc, absolute := true, tail := tail }
      else { device := d.1, unc := unc, absolute := unc, tail := c :: tail }
    | [] => { device := d.1, unc := unc, absolute := unc, tail := [] }

/-- JavaScript `device[0].toLowerCase() + device.substr(1)`. -/
def lowerDrive : List Char → List Char
  | a :: rest => a.toLower :: rest
  | [] => []

/-- JavaScript `s.replace(/[\\\/]+/g, '\\')`: every run of separators becomes
one backslash.  The flag says that the character before was a separator. -/
def squashSeps : Bool → List Char → List Char
  | _, [] => []
  | inRun, c :: cs =>
    if isSep .win32 c then
      if inRun then squashSeps true cs else '\\' :: squashSeps true cs
    else c :: squashSeps false cs

/-- Transcription of `normalizeUNCRoot`:
`'\\\\' + device.replace(/^[\\\/]+/, '').replace(/[\\\/]+/g, '\\')`. -/
def normalizeUNCRoot (device : List Char) : List Char :=
  '\\' :: '\\' :: squashSeps false (device.dropWhile (isSep .win32))

/-- Whether the last character is a separator. -/
def trailingSlash (P : Platform) (s : List Char) : Bool :=
  match s.getLast? with
  | some c => isSep P c
  | none => false

/-- Transcription of `path.normalize`.  The two steps on the device are those
of the Windows variant; with the POSIX variant there is no device and they do
nothing. -/
def normalize (P : Platform) (path : List Char) : List Char :=
  let sp := splitPath P path
  let trailing := trailingSlash P sp.tail
  let device := if sp.device[1]? == some ':' then lowerDrive sp.device else sp.device
  let tail := joinWith (sep P) (normalizeArray (pieces P sp.tail) (!sp.absolute))
  let tail := if tail.isEmpty && !sp.absolute then ['.'] else tail
  let tail := if !tail.isEmpty && trailing then tail ++ [sep P] else tail
  let device := if sp.unc then normalizeUNCRoot device else device
  device ++ (if sp.absolute then [sep P] else []) ++ tail

/-- The test `/^[\\\/]{2}[^\\\/]/.test(paths[0])` of the Windows `path.join`:
the first argument starts with exactly two separators. -/
def startsUnc : Option (List Char) → Bool
  | some (c1 :: c2 :: c3 :: _) => isSep .win32 c1 && isSep .win32 c2 && !isSep .win32 c3
  | _ => false

/-- JavaScript `joined.replace(/^[\\\/]{2,}/, '\\')`: two or more separators
at the start become one backslash. -/
def squashLeading (joined : List Char) : List Char :=
  if 2 ≤ (joined.takeWhile (isSep .win32)).length then
    '\\' :: joined.dropWhile (isSep .win32)
  else joined

/-- Transcription of `path.join`: the non-empty arguments joined by the
separator, then normalised.  The Windows variant first takes two or more
separators off the start of the joined string, unless the first argument
starts with exactly two. -/
def join (P : Platform) (paths : List (List Char)) : List Char :=
  let paths := paths.filter (fun p => !p.isEmpty)
  let joined := joinWith (sep P) paths
  match P with
  | .posix => normalize P joined
  | .win32 => normalize P (if startsUnc paths.head? then joined else squashLeading joined)

/-- The variables of the loop of `path.resolve`: `resolvedDevice`,
`resolvedTail`, `resolvedAbsolute`, and on Windows `isUnc`, which is declared
in the loop and read after it. -/
structure Resolving where
  device : List Char
  tail : List Char
  absolute : Bool
  unc : Bool
deriving DecidableEq, Repr

/-- One round of the loop of `path.resolve` for one candidate path: an empty
path is skipped; a path on another device is skipped after `isUnc` has been
set from it. -/
def resolveStep (P : Platform) (st : Resolving) (path : List Char) : Resolving :=
  if path.isEmpty then st
  else
    let sp := splitPath P path
    if !sp.device.isEmpty && !st.device.isEmpty &&
        sp.device.map Char.toLower != st.device.map Char.toLower then { st with unc := sp.unc }
    else
      let device := if st.device.isEmpty then sp.device else st.device
      if st.absolute then { st with device := device, unc := sp.unc }
      else
        { device := device, tail := sp.tail ++ [sep P] ++ st.tail, absolute := sp.absolute,
          unc := sp.unc }

/-- Whether the loop of `path.resolve` is finished. -/
def resolveDone : Platform → Resolving → Bool
  | .posix, st => st.absolute
  | .win32, st => !st.device.isEmpty && st.absolute

/-- The loop of `path.resolve` over the arguments from the last to the first. -/
def resolveArgs (P : Platform) : List (List Char) → Resolving → Resolving
  | [], st => st
  | path :: earlier, st =>
    if resolveDone P st then st else resolveArgs P earlier (resolveStep P st path)

/-- The path `path.resolve` takes after its arguments: `process.cwd()`, or on
Windows, once a device is known,
`process.env['=' + resolvedDevice]`, replaced by the root of the device when
it is missing, empty or not on that device. -/
def fallback (P : Platform) (cwd : List Char) (env : List Char → Option (List Char))
    (st : Resolving) : List Char :=
  match P with
  | .posix => cwd
  | .win32 =>
    if st.device.isEmpty then cwd
    else
      match env ('=' :: st.device) with
      | some path =>
        if path.isEmpty || (path.take 3).map Char.toLower != st.device.map Char.toLower ++ ['\\']
        then st.device ++ ['\\'] else path
      | none => st.device ++ ['\\']

/-- What `path.resolve` has found before it renders the result. -/
structure Resolved where
  device : List Char
  absolute : Bool
  parts : List (List Char)
deriving DecidableEq, Repr

/-- The device, absoluteness and normalised parts `path.resolve` computes for
its arguments, in a process with working directory `cwd` and environment
`env`. -/
def resolved (P : Platform) (cwd : List Char) (env : List Char → Option (List Char))
    (args : List (List Char)) : Resolved :=
  let st := resolveArgs P args.reverse { device := [], tail := [], absolute := false, unc := false }
  let st := if resolveDone P st then st else resolveStep P st (fallback P cwd env st)
  { device := if st.unc then normalizeUNCRoot st.device else st.device
    absolute := st.absolute
    parts := normalizeArray (pieces P st.tail) (!st.absolute) }

/-- The string a resolved path is rendered to. -/
def render (P : Platform) (r : Resolved) : List Char :=
  let s := r.device ++ (if r.absolute then [sep P] else []) ++ joinWith (sep P) r.parts
  if s.isEmpty then ['.'] else s

/-- Transcription of `path.resolve`. -/
def resolve (P : Platform) (cwd : List Char) (env : List Char → Option (List Char))
    (args : List (List Char)) : List Char :=
  render P (resolved P cwd env args)

/-- Transcription of `trim` inside `path.relative`, with its call
`arr.slice(start, end - start + 1)`. -/
def trim (arr : List (List Char)) : List (List Char) :=
  let start := (arr.takeWhile (fun w => w.isEmpty)).length
  let stop := arr.length - (arr.reverse.takeWhile (fun w => w.isEmpty)).length
  if stop ≤ start then [] else (arr.take (stop - start)).drop start

/-- The number of leading parts two lists share. -/
def samePartsLength : List (List Char) → List (List Char) → Nat
  | a :: as, b :: bs => if a = b then samePartsLength as bs + 1 else 0
  | _, _ => 0

/-- Transcription of `path.relative`. -/
def relative (P : Platform) (cwd : List Char) (env : List Char → Option (List Char))
    (fromPath toPath : List Char) : List Char :=
  match P with
  | .posix =>
    let fromParts := trim (splitOn (fun c => c == '/') ((resolve P cwd env [fromPath]).drop 1))
    let toParts := trim (splitOn (fun c => c == '/') ((resolve P cwd env [toPath]).drop 1))
    let same := samePartsLength fromParts toParts
    joinWith '/' (List.replicate (fromParts.length - same) ['.', '.'] ++ toParts.drop same)
  | .win32 =>
    let fromAbs := resolve P cwd env [fromPath]
    let toAbs := resolve P cwd env [toPath]
    let toParts := trim (splitOn (fun c => c == '\\') toAbs)
    let lowerFromParts := trim (splitOn (fun c => c == '\\') (fromAbs.map Char.toLower))
    let lowerToParts := trim (splitOn (fun c => c == '\\') (toAbs.map Char.toLower))
    let same := samePartsLength lowerFromParts lowerToParts
    if same = 0 then toAbs
    else
      joinWith '\\'
        (List.replicate (lowerFromParts.length - same) ['.', '.'] ++ toParts.drop same)

end NodePath

/-- JavaScript `s.replace(/\\/g, "/")`. -/
def backslashesToSlashes (s : List Char) : List Char :=
  s.map (fun c => if c == '\\' then '/' else c)

/-- The remote path both `createDir` and `uploadFile` compute for a local
path (azure.js 462-463 and 501-502):
`path.join('/site/wwwroot/', path.relative(directory, p)).replace(/\\/g, "/")`. -/
def remotePath (P : Platform) (cwd : List Char) (env : List Char → Option (List Char))
    (directory p : List Char) : List Char :=
  backslashesToSlashes
    (NodePath.join P ["/site/wwwroot/".toList, NodePath.relative P cwd env directory p])

/-- The local path the walk collects for the entry reached from the site root
through the directory entries `names`: `_ftpWalk` starts at the root, and
`onFile` (azure.js 417) replaces each entry `file` of a directory `dir` by
`path.join(dir, file)` before it is pushed or walked. -/
def collected (P : Platform) (directory : List Char) (names : List (List Char)) : List Char :=
  names.foldl (fun dir file => NodePath.join P [dir, file]) directory

/-- A part as it occurs in a resolved path: not empty and without separator. -/
def NodePath.Plain (P : Platform) (w : List Char) : Prop :=
  w ≠ [] ∧ ∀ x ∈ w, NodePath.isSep P x = false

/-- A device other than a UNC root, as the variant produces it for a resolved
path: none on POSIX, a drive letter with a colon on Windows. -/
def deviceOk : Platform → List Char → Bool
  | .posix, d => d.isEmpty
  | .win32, [a, b] => a.isAlpha && b == ':'
  | .win32, _ => false

/-- The local path `p` lies below the site root `directory`, which is not on a
UNC share, with `names` the components that lead from the root to it: resolved
in the process, both are absolute paths on the same device (drive letters
compared without regard to case, as `path.relative` does), and the parts of
`p` are the parts of the root followed by `names`. -/
@[reducible] def Below (P : Platform) (cwd : List Char) (env : List Char → Option (List Char))
    (directory p : List Char) (names : List (List Char)) : Prop :=
  (NodePath.resolved P cwd env [directory]).absolute = true ∧
  (NodePath.resolved P cwd env [p]).absolute = true ∧
  deviceOk P (NodePath.resolved P cwd env [directory]).device = true ∧
  (NodePath.resolved P cwd env [p]).device.map Char.toLower =
    (NodePath.resolved P cwd env [directory]).device.map Char.toLower ∧
  (NodePath.resolved P cwd env [p]).parts =
    (NodePath.resolved P cwd env [directory]).parts ++ names ∧
  names ≠ []

/-- A process environment without per-drive working directories. -/
def noDriveCwd : List Char → Option (List Char) := fun _ => none

/-- A directory entry as `fs.readdir` lists it: a file name, which is not
empty, is not `.` or `..` and holds no separator of the variant; a Windows
file name holds no colon either. -/
def Entry (P : Platform) (n : List Char) : Prop :=
  NodePath.Plain P n ∧ n ≠ ['.'] ∧ n ≠ ['.', '.'] ∧ (P = Platform.win32 → ':' ∉ n)

/-- An ordinary site root: not the empty string; on Windows moreover not
started with exactly two separators (a UNC root, or a server name without a
share), not relative to the working directory of a drive (`C:site`), and
without a colon behind the drive letter. -/
def Ordinary (P : Platform) (x : List Char) : Prop :=
  x ≠ [] ∧
  (P = Platform.win32 →
    NodePath.startsUnc (some x) = false ∧
    ((NodePath.splitPath Platform.win32 x).device = [] ∨
      (NodePath.splitPath Platform.win32 x).absolute = true) ∧
    ':' ∉ (NodePath.splitPath Platform.win32 x).tail)

/-! ## The transfer stage: `_createFTPDirectories`, `_uploadFTPFiles`

The FTP session answers its calls asynchronously.  The stage is embedded as a
machine: a state holds the calls issued and not yet answered, and one step
delivers the answer to one of them, chosen by the environment, and runs the
callbacks the module and `async` hang on it. -/

/-- The path variant of the process, its working directory `process.cwd()`
and its environment `process.env`. -/
structure Host where
  platform : Platform
  cwd : String
  env : List Char → Option (List Char)

/-- The remote path for a local path, as a string. -/
def remoteOf (host : Host) (directory p : String) : String :=
  String.mk (remotePath host.platform host.cwd.toList host.env directory.toList p.toList)

/-- The local path handed to `c.put`: `path.join(process.cwd(), file)`. -/
def localOf (host : Host) (file : String) : String :=
  String.mk (NodePath.join host.platform [host.cwd.toList, file.toList])

/-- A call on the FTP session that has been issued and not yet answered. -/
inductive FtpOp where
  | mkdir (ftpDir : String)
  | put (localFile ftpFile : String)
deriving DecidableEq, Repr

/-- The log of the mock transfer session and of the stage's caller. -/
inductive FtpEvent where
  | mkdirCall (ftpDir : String)
  | mkdirReturn (ftpDir : String) (err : Option JsError)
  | putCall (localFile ftpFile : String)
  | putReturn (localFile ftpFile : String) (err : Option JsError)
  | endCall
  | callback (err : Option ErrVal) (result : Option String)
deriving DecidableEq, Repr

/-- The closure of one `async.each(arr, iterator, callback)` call: the length
of the array, the counter `completed`, and whether `callback` is still the
function passed in (it is replaced by a no-op after the first error). -/
structure Each where
  length : Nat
  completed : Nat
  live : Bool
deriving DecidableEq, Repr

/-- The function `done` inside `async.each`, run when one iterator calls back:
the new closure, and the call made on the original callback, if any (`some
err` for `callback(err)`, with `none` inside for the plain `callback()`). -/
def Each.done (e : Each) (err : Option JsError) : Each × Option (Option ErrVal) :=
  match err with
  | some x =>
    ({ e with live := false }, if e.live then some (some (ErrVal.object x)) else none)
  | none =>
    let completed := e.completed + 1
    ({ e with completed := completed },
      if completed ≥ e.length && e.live then some none else none)

/-- The state of the transfer stage. -/
structure Transfer where
  host : Host
  directory : String
  ftpDirs : List String
  ftpFiles : List String
  pending : List FtpOp
  dirsEach : Each
  filesEach : Option Each
  log : List FtpEvent

/-- Embedding of `createDir` (azure.js 460-474): the one `c.mkdir` call it
issues, on the remote path of the directory. -/
def createDir (host : Host) (directory dir : String) : FtpOp :=
  FtpOp.mkdir (remoteOf host directory dir)

/-- Embedding of `uploadFile` (azure.js 497-512): the one `c.put` call it
issues, from the local file to its remote path. -/
def uploadFile (host : Host) (directory file : String) : FtpOp :=
  FtpOp.put (localOf host file) (remoteOf host directory file)

/-- The entry a call makes in the log of the session when it is issued. -/
def FtpOp.issued : FtpOp → FtpEvent
  | .mkdir ftpDir => FtpEvent.mkdirCall ftpDir
  | .put localFile ftpFile => FtpEvent.putCall localFile ftpFile

/-- The final callback `onResult` of the series in `_uploadContent`
(azure.js 206-214): close the session, then report. -/
def Transfer.onResult (s : Transfer) (err : Option ErrVal) : Transfer :=
  { s with
    log := s.log ++
      [ FtpEvent.endCall,
        if errTruthy err then FtpEvent.callback err none
        else FtpEvent.callback none (some "Files uploaded successfully") ] }

/-- Embedding of `_uploadFTPFiles` (azure.js 482-513), started by the series
when `_createFTPDirectories` has called back without error: `async.each`
calls `uploadFile` for every collected file, which issues one `c.put`. -/
def Transfer._uploadFTPFiles (s : Transfer) : Transfer :=
  if s.ftpFiles.isEmpty then s.onResult none
  else
    { s with
      filesEach := some { length := s.ftpFiles.length, completed := 0, live := true }
      pending := s.pending ++ s.ftpFiles.map (uploadFile s.host s.directory)
      log := s.log ++ s.ftpFiles.map (fun file => (uploadFile s.host s.directory file).issued) }

/-- Embedding of `_createFTPDirectories` (azure.js 445-475) as the first task
of the series started by `onWalk` after a successful walk: `async.each` calls
`createDir` for every collected directory, which issues one `c.mkdir`. -/
def _createFTPDirectories (host : Host) (directory : String) (ftpDirs ftpFiles : List String) :
    Transfer :=
  let s : Transfer :=
    { host := host, directory := directory, ftpDirs := ftpDirs, ftpFiles := ftpFiles
      pending := [], dirsEach := { length := ftpDirs.length, completed := 0, live := true }
      filesEach := none, log := [] }
  if ftpDirs.isEmpty then s._uploadFTPFiles
  else
    { s with
      pending := ftpDirs.map (createDir host directory)
      log := ftpDirs.map (fun dir => (createDir host directory dir).issued) }

/-- The session answers the pending call number `i` with `err`: the call's
callback runs (`onFtpMkDir` or `onFtpPutFile`), then `done` of the `async.each`
it belongs to, then whatever that releases.  An index that names no pending
call changes nothing. -/
def Transfer.answer (s : Transfer) (i : Nat) (err : Option JsError) : Transfer :=
  match s.pending.get? i with
  | none => s
  | some (FtpOp.mkdir ftpDir) =>
    let d := s.dirsEach.done err
    let s1 : Transfer :=
      { s with
        pending := s.pending.eraseIdx i
        dirsEach := d.1
        log := s.log ++ [FtpEvent.mkdirReturn ftpDir err] }
    match d.2 with
    | none => s1
    | some (some e) => s1.onResult (some e)
    | some none => s1._uploadFTPFiles
  | some (FtpOp.put localFile ftpFile) =>
    match s.filesEach with
    | none => s
    | some each =>
      let d := each.done err
      let s1 : Transfer :=
        { s with
          pending := s.pending.eraseIdx i
          filesEach := some d.1
          log := s.log ++ [FtpEvent.putReturn localFile ftpFile err] }
      match d.2 with
      | none => s1
      | some e => s1.onResult e

/-- A run of the stage: the answers of the session in the order they arrive,
each naming a pending call and carrying its outcome. -/
def Transfer.run (s : Transfer) : List (Nat × Option JsError) → Transfer
  | [] => s
  | (i, err) :: rest => (s.answer i err).run rest

/-- Marks a `c.put` call. -/
def FtpEvent.isPutCall : FtpEvent → Bool
  | .putCall _ _ => true
  | _ => false

/-- Marks the answer to a `c.mkdir` call. -/
def FtpEvent.isMkdirReturn : FtpEvent → Bool
  | .mkdirReturn _ _ => true
  | _ => false

/-- Marks a successful answer to a `c.mkdir` call. -/
def FtpEvent.isMkdirOk : FtpEvent → Bool
  | .mkdirReturn _ none => true
  | _ => false

/-- Marks a failed answer to a `c.mkdir` call. -/
def FtpEvent.isMkdirFailure : FtpEvent → Bool
  | .mkdirReturn _ (some _) => true
  | _ => false

/-- Marks a pending `c.mkdir` call. -/
def FtpOp.isMkdir : FtpOp → Bool
  | .mkdir _ => true
  | _ => false

/-- A POSIX host. -/
def exampleHost : Host := { platform := Platform.posix, cwd := "/srv/build", env := noDriveCwd }

/-- The remote directory of an answered mkdir call. -/
def FtpEvent.returnedDir : FtpEvent → Option String
  | .mkdirReturn d _ => some d
  | _ => none

/-- The remote directory of a successfully answered mkdir call. -/
def FtpEvent.createdDir : FtpEvent → Option String
  | .mkdirReturn d none => some d
  | _ => none

/-- The remote directory of a pending mkdir call. -/
def FtpOp.mkdirDir : FtpOp → Option String
  | .mkdir d => some d
  | _ => none

/-- What holds of every state the transfer stage reaches: the bookkeeping of
`async.each` for the directories agrees with the session log, no more mkdir
calls are answered than were issued, and wherever the log shows a put call,
every directory has been created before it. -/
structure TransferInv (s : Transfer) : Prop where
  len : s.dirsEach.length = s.ftpDirs.length
  completed : s.dirsEach.completed = s.log.countP FtpEvent.isMkdirOk
  returns : s.log.countP FtpEvent.isMkdirReturn + s.pending.countP FtpOp.isMkdir =
    s.ftpDirs.length
  puts : 0 < s.log.countP FtpEvent.isPutCall →
    s.log.countP FtpEvent.isMkdirOk = s.ftpDirs.length
  before : ∀ pre e post, s.log = pre ++ e :: post → e.isPutCall = true →
    pre.countP FtpEvent.isMkdirOk = s.ftpDirs.length
  dirs : List.Perm (s.log.filterMap FtpEvent.returnedDir ++ s.pending.filterMap FtpOp.mkdirDir)
    (s.ftpDirs.map (remoteOf s.host s.directory))

/-! ## The directory walk: `_ftpWalk`

`fs.readdir` and `fs.stat` answer asynchronously and in any order.  The walk
is embedded as a machine: the state holds the file-system calls issued and
not yet answered, the activation records of `onDirRead` that callbacks still
refer to, and the two module arrays; one step delivers the answer to one
pending call and runs its callback to the end. -/

/-- The file system as the walk sees it: what `fs.readdir` and `fs.stat` hand
to their callbacks for a path.  The result of `stat` is `stat.isDirectory()`. -/
structure FileSystem where
  readdir : String → Reply (List String)
  stat : String → Reply Bool

/-- `path.join(dir, file)` on strings. -/
def joinPath (host : Host) (dir file : String) : String :=
  String.mk (NodePath.join host.platform [dir.toList, file.toList])

/-- The callback `done` of one `_ftpWalk` call: the callback of the caller of
the outermost call, or the closure `onWalk` created in the activation of
`onDirRead` with number `frame`, which refers to that activation's `pending`
and to its `done`. -/
inductive Done where
  | root
  | onWalk (frame : Nat) (done : Done)
deriving DecidableEq, Repr

/-- The variables of one activation of `onDirRead` that its closures share:
the counter `pending` and the callback `done`. -/
structure Frame where
  pending : Int
  done : Done
deriving DecidableEq, Repr

/-- A file-system call that has been issued and not yet answered: `fs.readdir`
for a walk with callback `done`, or `fs.stat` for an entry of the directory
read in activation `frame`. -/
inductive FsOp where
  | readdir (dir : String) (done : Done)
  | stat (file : String) (frame : Nat)
deriving DecidableEq, Repr

/-- The state of a walk. `calls` lists the arguments of the invocations of the
outermost callback; `thrown` holds an exception no callback caught. -/
structure Walk where
  ops : List FsOp
  frames : List Frame
  ftpDirs : List String
  ftpFiles : List String
  calls : List (Option ErrVal)
  thrown : Option String
deriving DecidableEq, Repr

/-- The counter `pending` of an activation. -/
def Walk.pendingOf (s : Walk) (frame : Nat) : Int :=
  match s.frames[frame]? with
  | some f => f.pending
  | none => 0

/-- The callback `done` of an activation. -/
def Walk.doneOf (s : Walk) (frame : Nat) : Done :=
  match s.frames[frame]? with
  | some f => f.done
  | none => Done.root

/-- The statement `--pending` in an activation. -/
def Walk.decrement (s : Walk) (frame : Nat) : Walk :=
  { s with
    frames := s.frames.modify (fun f => { f with pending := f.pending - 1 }) frame }

/-- Invoking a callback `done(err)`.  For `onWalk` (azure.js 421-428): an
error goes on to the enclosing `done`; otherwise `pending` is decremented, and
when it has reached zero the enclosing `done` is called without error. -/
def Walk.invoke (s : Walk) : Done → Option ErrVal → Walk
  | Done.root, err => { s with calls := s.calls ++ [err] }
  | Done.onWalk frame done, err =>
    if errTruthy err then s.invoke done err
    else
      let s1 := s.decrement frame
      if s1.pendingOf frame = 0 then s1.invoke done none else s1

/-- The callback `onDirRead` (azure.js 407-437) for the answer `r` to
`fs.readdir(dir)`. -/
def Walk.onDirRead (host : Host) (s : Walk) (dir : String) (done : Done)
    (r : Reply (List String)) : Walk :=
  match r.result with
  | none =>
    -- var pending = list.length;
    { s with thrown := some "TypeError: Cannot read property length of undefined" }
  | some list =>
    if r.err.isSome then s.invoke done (r.err.map ErrVal.object)
    else if list.length = 0 then s.invoke done none
    else
      { s with
        frames := s.frames ++ [{ pending := list.length, done := done }]
        ops := s.ops ++ list.map (fun file => FsOp.stat (joinPath host dir file) s.frames.length) }

/-- The callback `onStat` (azure.js 418-435) for the answer `r` to
`fs.stat(file)`, in the activation `frame`. -/
def Walk.onStat (s : Walk) (file : String) (frame : Nat) (r : Reply Bool) : Walk :=
  if r.result = some true then
    { s with
      ftpDirs := s.ftpDirs ++ [file]
      ops := s.ops ++ [FsOp.readdir file (Done.onWalk frame (s.doneOf frame))] }
  else
    let s1 := { s with ftpFiles := s.ftpFiles ++ [file] }
    let s2 := s1.decrement frame
    if s2.pendingOf frame = 0 then s2.invoke (s2.doneOf frame) none else s2

/-- One step: the file system answers one pending call, picked by `choice`
among the pending ones.  Nothing happens when no call is pending or an
exception has ended the process. -/
def Walk.step (fs : FileSystem) (host : Host) (s : Walk) (choice : Nat) : Walk :=
  if s.thrown.isSome then s
  else
    match s.ops[choice % s.ops.length]? with
    | none => s
    | some (FsOp.readdir dir done) =>
      Walk.onDirRead host { s with ops := s.ops.eraseIdx (choice % s.ops.length) } dir done
        (fs.readdir dir)
    | some (FsOp.stat file frame) =>
      Walk.onStat { s with ops := s.ops.eraseIdx (choice % s.ops.length) } file frame
        (fs.stat file)

/-- A run: the steps for a sequence of choices. -/
def Walk.run (fs : FileSystem) (host : Host) (s : Walk) : List Nat → Walk
  | [] => s
  | choice :: rest => Walk.run fs host (s.step fs host choice) rest

/-- Embedding of `_ftpWalk(dir, done)` called by `_uploadContent` with the
module arrays as they are: it issues `fs.readdir(dir)`. -/
def _ftpWalk (dir : String) (ftpDirs ftpFiles : List String) : Walk :=
  { ops := [FsOp.readdir dir Done.root], frames := [], ftpDirs := ftpDirs, ftpFiles := ftpFiles
    calls := [], thrown := none }

/-- The content of a directory: a list of entries, each a file or a directory
with its own content. -/
inductive Forest where
  | nil
  | file (name : String) (rest : Forest)
  | dir (name : String) (children : Forest) (rest : Forest)
deriving DecidableEq, Repr

/-- The names `fs.readdir` lists for a directory. -/
def Forest.names : Forest → List String
  | .nil => []
  | .file name rest => name :: rest.names
  | .dir name _ rest => name :: rest.names

/-- The paths of all files below a directory, as `path.join` builds them. -/
def Forest.files (host : Host) : String → Forest → List String
  | _, .nil => []
  | d, .file name rest => joinPath host d name :: Forest.files host d rest
  | d, .dir name children rest =>
    Forest.files host (joinPath host d name) children ++ Forest.files host d rest

/-- The paths of all directories below a directory. -/
def Forest.dirs (host : Host) : String → Forest → List String
  | _, .nil => []
  | d, .file _ rest => Forest.dirs host d rest
  | d, .dir name children rest =>
    joinPath host d name :: (Forest.dirs host (joinPath host d name) children ++
      Forest.dirs host d rest)

/-- Every entry below a directory with its proper ancestors below the root;
`above` holds the ancestors of the directory itself. -/
def Forest.lineage (host : Host) : String → List String → Forest → List (String × List String)
  | _, _, .nil => []
  | d, above, .file name rest =>
    (joinPath host d name, above) :: Forest.lineage host d above rest
  | d, above, .dir name children rest =>
    (joinPath host d name, above) ::
      (Forest.lineage host (joinPath host d name) (joinPath host d name :: above) children ++
        Forest.lineage host d above rest)

/-- The number of file-system calls a walk of the content takes after the
`readdir` of the directory itself: one `stat` per entry and one `readdir` per
directory. -/
def Forest.cost : Forest → Nat
  | .nil => 0
  | .file _ rest => 1 + rest.cost
  | .dir _ children rest => 2 + children.cost + rest.cost

/-- The entries of the directory `d` are what the forest says, on a file
system on which every read and stat succeeds. -/
def Forest.Holds (fs : FileSystem) (host : Host) : String → Forest → Prop
  | _, .nil => True
  | d, .file name rest =>
    fs.stat (joinPath host d name) = { err := none, result := some false } ∧
    Forest.Holds fs host d rest
  | d, .dir name children rest =>
    fs.stat (joinPath host d name) = { err := none, result := some true } ∧
    fs.readdir (joinPath host d name) = { err := none, result := some children.names } ∧
    Forest.Holds fs host (joinPath host d name) children ∧
    Forest.Holds fs host d rest

/-- The directory `root` holds the finite tree `t`, and every read and stat
below it succeeds. -/
def IsTree (fs : FileSystem) (host : Host) (root : String) (t : Forest) : Prop :=
  fs.readdir root = { err := none, result := some t.names } ∧ Forest.Holds fs host root t

/-- A file system given by the listings of its directories and the paths of
its files; any other path does not exist. -/
def fsOfList (dirs : List (String × List String)) (files : List String) : FileSystem :=
  { readdir := fun p =>
      match dirs.lookup p with
      | some l => { err := none, result := some l }
      | none => { err := some (mkError "ENOENT" 34), result := none }
    stat := fun p =>
      if (dirs.lookup p).isSome then { err := none, result := some true }
      else if files.contains p then { err := none, result := some false }
      else { err := some (mkError "ENOENT" 34), result := none } }

/-- A site root listing the entries `a` and `b`, of which `b` cannot be
statted (it vanished after the listing). -/
def statFailureFs : FileSystem := fsOfList [("site", ["a", "b"])] ["site/a"]

/-- A file system without the site root. -/
def readFailureFs : FileSystem := fsOfList [] []

/-- A site with a style sheet, an empty directory below `css`, a page and a
script. -/
def exampleTree : Forest :=
  .dir "css" (.file "a.css" (.dir "empty" .nil .nil))
    (.file "index.html" (.dir "js" (.file "x.js" .nil) .nil))

/-- The file system that holds `exampleTree` below `site`. -/
def exampleFs : FileSystem :=
  fsOfList
    [("site", ["css", "index.html", "js"]), ("site/css", ["a.css", "empty"]),
      ("site/css/empty", []), ("site/js", ["x.js"])]
    ["site/css/a.css", "site/index.html", "site/js/x.js"]

/-- Every name in the tree is a directory entry as `fs.readdir` lists it. -/
def Forest.Entries (P : Platform) : Forest → Prop
  | .nil => True
  | .file name rest => Entry P name.toList ∧ Forest.Entries P rest
  | .dir name children rest =>
    Entry P name.toList ∧ Forest.Entries P children ∧ Forest.Entries P rest

/-- The number of files in a tree. -/
def Forest.fileCount : Forest → Nat
  | .nil => 0
  | .file _ rest => 1 + rest.fileCount
  | .dir _ children rest => children.fileCount + rest.fileCount

/-- The number of directories in a tree. -/
def Forest.dirCount : Forest → Nat
  | .nil => 0
  | .file _ rest => rest.dirCount
  | .dir _ children rest => 1 + children.dirCount + rest.dirCount

/-! ### Bookkeeping for the proof about the walk -/

/-- What a pending call stands for in the tree being walked: a directory still
to be listed, with its content, or an entry still to be statted. -/
inductive Todo where
  | listing (dir : String) (done : Done) (content : Forest)
  | entryFile (path : String) (frame : Nat)
  | entryDir (path : String) (frame : Nat) (children : Forest)

/-- The pending call of a todo. -/
def Todo.op : Todo → FsOp
  | .listing dir done _ => FsOp.readdir dir done
  | .entryFile path frame => FsOp.stat path frame
  | .entryDir path frame _ => FsOp.stat path frame

/-- The file system answers the call of a todo as the tree says. -/
def Todo.Valid (fs : FileSystem) (host : Host) : Todo → Prop
  | .listing dir _ content => IsTree fs host dir content
  | .entryFile path _ => fs.stat path = { err := none, result := some false }
  | .entryDir path _ children =>
    fs.stat path = { err := none, result := some true } ∧ IsTree fs host path children

/-- The files a todo will still add to the file sequence. -/
def Todo.files (host : Host) : Todo → List String
  | .listing dir _ content => Forest.files host dir content
  | .entryFile path _ => [path]
  | .entryDir path _ children => Forest.files host path children

/-- The directories a todo will still add to the directory sequence. -/
def Todo.dirs (host : Host) : Todo → List String
  | .listing dir _ content => Forest.dirs host dir content
  | .entryFile _ _ => []
  | .entryDir path _ children => path :: Forest.dirs host path children

/-- The number of answers it takes to work a todo off. -/
def Todo.cost : Todo → Nat
  | .listing _ _ content => 1 + content.cost
  | .entryFile _ _ => 1
  | .entryDir _ _ children => 2 + children.cost

/-- The total number of answers still to come. -/
def totalCost (todos : List Todo) : Nat :=
  (todos.map Todo.cost).sum

/-- The todos for the entries of a directory read in activation `frame`. -/
def Forest.todos (host : Host) (dir : String) (frame : Nat) : Forest → List Todo
  | .nil => []
  | .file name rest => Todo.entryFile (joinPath host dir name) frame :: rest.todos host dir frame
  | .dir name children rest =>
    Todo.entryDir (joinPath host dir name) frame children :: rest.todos host dir frame

/-- The activation a callback decrements first, if any: none for the
outermost callback. -/
def Done.head : Done → Option Nat
  | .root => none
  | .onWalk frame _ => some frame

/-- Whom the answer to a pending call will eventually report to: the callback
of a walk, or the activation of the directory the entry is in. -/
def FsOp.target : FsOp → Option Nat
  | .readdir _ done => done.head
  | .stat _ frame => some frame

/-- The pending calls that report to `x`. -/
def Walk.opTokens (s : Walk) (x : Option Nat) : Nat :=
  s.ops.countP (fun op => op.target == x)

/-- An activation still waiting (`pending` not zero) that reports to `x`. -/
def Frame.reportsTo (x : Option Nat) (fr : Frame) : Bool :=
  fr.pending != 0 && fr.done.head == x

/-- The waiting activations that report to `x`. -/
def Walk.frameTokens (s : Walk) (x : Option Nat) : Nat :=
  s.frames.countP (Frame.reportsTo x)

/-- One report owed to `x` that neither a pending call nor a waiting
activation accounts for any more. -/
def owed (debt : Option (Option Nat)) (x : Option Nat) : Nat :=
  if debt = some x then 1 else 0

/-- Every `onWalk` closure in a callback refers to an existing activation and
to that activation's own `done`. -/
def Linked (frames : List Frame) : Done → Prop
  | .root => True
  | .onWalk frame done =>
    (∃ fr, frames[frame]? = some fr ∧ fr.done = done) ∧ Linked frames done

/-- The pending call refers to existing activations only. -/
def FsOp.Linked (frames : List Frame) : FsOp → Prop
  | .readdir _ done => Azure.Linked frames done
  | .stat _ frame => frame < frames.length

/-- The counting invariant of the walk, with at most one report owed: the
outermost callback has been called or is still owed exactly one report, and
every activation's `pending` is the number of reports it is owed. -/
structure CountInv (s : Walk) (debt : Option (Option Nat)) : Prop where
  callsOk : ∀ c ∈ s.calls, c = none
  rootCount : s.opTokens none + s.frameTokens none + s.calls.length + owed debt none = 1
  frameCount : ∀ (f : Nat) (fr : Frame), s.frames[f]? = some fr →
    fr.pending = ((s.opTokens (some f) + s.frameTokens (some f) + owed debt (some f) : Nat) : Int)
  opsLinked : ∀ op ∈ s.ops, op.Linked s.frames
  framesLinked : ∀ (f : Nat) (fr : Frame), s.frames[f]? = some fr → Linked s.frames fr.done
  parentBelow : ∀ (h : Nat) (fr : Frame), s.frames[h]? = some fr → ∀ g, fr.done.head = some g → g < h

/-- The content invariant of the walk: the pending calls are those of the
todos, and what has been collected together with what the todos will still
add is the content of the tree. -/
structure ContentInv (fs : FileSystem) (host : Host) (allFiles allDirs : List String)
    (s : Walk) (todos : List Todo) : Prop where
  ops_eq : s.ops = todos.map Todo.op
  valid : ∀ td ∈ todos, td.Valid fs host
  files : List.Perm (s.ftpFiles ++ todos.flatMap (Todo.files host)) allFiles
  dirs : List.Perm (s.ftpDirs ++ todos.flatMap (Todo.dirs host)) allDirs
  notThrown : s.thrown = none

/-! # Theorems -/

/-! ## C1: configuration check of `_setToken` -/

/-- C1 (as stated, refuted): with only `authorityUrl` missing the guard of
`_setToken` does not fire.  With a context constructor that accepts the absent
authority the token endpoint is called and credentials and both clients are
built; with one that throws, the stage ends in that exception and the callback
never receives the configuration error. -/
theorem setToken_missing_authority_not_rejected :
    missing configWithoutAuthority.authorityUrl = true ∧
    _setToken lenientProvider configWithoutAuthority recordToken =
      [ TokenEvent.newAuthenticationContext none,
        TokenEvent.acquireTokenWithUsernamePassword "https://management.core.windows.net/"
          (some "deployer") (some "secret") (some "client-1"),
        TokenEvent.newTokenCloudCredentials (some "sub-1") (some "tok"),
        TokenEvent.createResourceManagementClient,
        TokenEvent.createWebSiteManagementClient,
        TokenEvent.callback none (some "Token set") ] ∧
    _setToken strictProvider configWithoutAuthority recordToken =
      [ TokenEvent.newAuthenticationContext none,
        TokenEvent.thrown "TypeError: authority" ] := by
  refine ⟨rfl, ?_, ?_⟩ <;> rfl

/-- C1 (amended): when at least one of username, password, clientId or
subscriptionId is missing or empty, `_setToken` never calls the token endpoint
and builds no credential object and no management client; and provided the
authentication context could be constructed, the callback is invoked exactly
once, with the configuration error. -/
theorem setToken_missing_identity_field (idp : IdentityProvider) (cfg : PublishConfig)
    (h : truthy cfg.username = false ∨ truthy cfg.password = false ∨
      truthy cfg.clientId = false ∨ truthy cfg.subscriptionId = false) :
    (∀ e ∈ _setToken idp cfg recordToken, e.isNetworkOrClient = false) ∧
    (idp.contextThrows cfg.authorityUrl = none →
      _setToken idp cfg recordToken =
        [ TokenEvent.newAuthenticationContext cfg.authorityUrl,
          TokenEvent.callback (some (ErrVal.text missingConfigMessage)) none ]) := by
  have hg : (!truthy cfg.username || !truthy cfg.password || !truthy cfg.clientId
      || !truthy cfg.subscriptionId) = true := by
    rcases h with h | h | h | h <;> simp [h]
  constructor
  · intro e he
    unfold _setToken at he
    cases hc : idp.contextThrows cfg.authorityUrl with
    | some what =>
      simp only [hc, List.mem_cons, List.mem_singleton] at he
      rcases he with rfl | rfl | he
      · rfl
      · rfl
      · cases he
    | none =>
      simp only [hc, hg, if_true, recordToken, List.mem_cons, List.mem_singleton] at he
      rcases he with rfl | rfl | he
      · rfl
      · rfl
      · cases he
  · intro hc
    unfold _setToken
    simp only [hc, hg, if_true, recordToken]

/-- C1 witness: the full configuration without a password, on either provider. -/
theorem setToken_missing_identity_field_witness :
    (∀ e ∈ _setToken strictProvider configWithoutPassword recordToken,
        e.isNetworkOrClient = false) ∧
    (strictProvider.contextThrows configWithoutPassword.authorityUrl = none →
      _setToken strictProvider configWithoutPassword recordToken =
        [ TokenEvent.newAuthenticationContext configWithoutPassword.authorityUrl,
          TokenEvent.callback (some (ErrVal.text missingConfigMessage)) none ]) :=
  setToken_missing_identity_field strictProvider configWithoutPassword
    (Or.inr (Or.inl rfl))

/-! ## C2: `_checkResources` -/

/-- The trace of `series` contains only events that the tasks or the final
callback emit; stated for the absence of a marked event. -/
theorem series_all {E : Type} (p : E → Bool) (tasks : List (Task E))
    (htasks : ∀ t ∈ tasks, ∀ cb, (∀ err res, ∀ e ∈ cb err res, p e = false) →
      ∀ e ∈ t cb, p e = false)
    (results : List (Option String)) (final : Option ErrVal → List (Option String) → List E)
    (hfinal : ∀ err res, ∀ e ∈ final err res, p e = false) :
    ∀ e ∈ series tasks results final, p e = false := by
  induction tasks generalizing results with
  | nil => intro e he; exact hfinal _ _ e he
  | cons t rest ih =>
    unfold series
    apply htasks t (List.mem_cons_self _ _)
    intro err res e he
    split at he
    · exact hfinal _ _ e he
    · exact ih (fun t ht => htasks t (List.mem_cons_of_mem _ ht)) _ e he

/-- A status reply makes `onDeploymentGet` emit only callback events and
`clearInterval`. -/
theorem onDeploymentGet_all (p : MgmtEvent → Bool) (hclear : p MgmtEvent.clearInterval = false)
    (cb : Option ErrVal → Option String → List MgmtEvent)
    (hcb : ∀ err res, ∀ e ∈ cb err res, p e = false) (r : Reply Deployment) :
    ∀ e ∈ (onDeploymentGet cb r).1, p e = false := by
  intro e he
  unfold onDeploymentGet at he
  simp only [List.mem_append] at he
  rcases he with he | he
  · split at he
    · simp only [List.mem_append, List.mem_singleton] at he
      rcases he with he | rfl
      · exact hcb _ _ e he
      · exact hclear
    · cases he
  · split at he
    · simp only [List.mem_append, List.mem_singleton] at he
      rcases he with he | rfl
      · exact hcb _ _ e he
      · exact hclear
    · split at he
      · simp only [List.mem_append, List.mem_singleton] at he
        rcases he with he | rfl
        · exact hcb _ _ e he
        · exact hclear
      · cases he

/-- The polling loop emits only polls, callback events and `clearInterval`. -/
theorem checkStatus_all (p : MgmtEvent → Bool) (hclear : p MgmtEvent.clearInterval = false)
    (hpoll : ∀ a b, p (MgmtEvent.deploymentsGet a b) = false)
    (rg dn : Option String) (cb : Option ErrVal → Option String → List MgmtEvent)
    (hcb : ∀ err res, ∀ e ∈ cb err res, p e = false) (replies : List (Reply Deployment)) :
    ∀ e ∈ checkStatus rg dn cb replies, p e = false := by
  induction replies with
  | nil => intro e he; cases he
  | cons r rest ih =>
    intro e he
    unfold checkStatus at he
    simp only [List.mem_cons, List.mem_append] at he
    rcases he with rfl | he | he
    · exact hpoll _ _
    · exact onDeploymentGet_all p hclear cb hcb r e he
    · split at he
      · cases he
      · exact ih e he

/-- The existence check emits its one call and then whatever `done` emits. -/
theorem checkRGExistence_all (p : MgmtEvent → Bool)
    (hcall : ∀ a, p (MgmtEvent.checkExistence a) = false)
    (rm : ResourceClient) (cfg : PublishConfig)
    (done : Option ErrVal → Bool → Option ExistenceResult → List MgmtEvent)
    (hdone : ∀ err ex res, ∀ e ∈ done err ex res, p e = false) :
    ∀ e ∈ _checkRGExistence rm cfg done, p e = false := by
  intro e he
  unfold _checkRGExistence at he
  dsimp only at he
  rcases List.mem_cons.mp he with rfl | he
  · exact hcall _
  · split at he
    · exact hdone _ _ _ e he
    · split at he <;> exact hdone _ _ _ e he

/-- Apart from its entry marker, `_deployResourceGroup` emits no entry marker
and only the callback events of `done`. -/
theorem deployResourceGroup_enter_once (rm : ResourceClient) (cfg : PublishConfig)
    (done : Option ErrVal → List (Option String) → List MgmtEvent)
    (hdone : ∀ err res, ∀ e ∈ done err res, e.isEnterDeploy = false) :
    ∃ rest, _deployResourceGroup rm cfg done = MgmtEvent.enterDeployResourceGroup :: rest ∧
      ∀ e ∈ rest, e.isEnterDeploy = false := by
  refine ⟨_, rfl, ?_⟩
  have hcreate : ∀ cb, (∀ err res, ∀ e ∈ cb err res, MgmtEvent.isEnterDeploy e = false) →
      ∀ e ∈ _createResourceGroup rm cfg cb, MgmtEvent.isEnterDeploy e = false := by
    intro cb hcb e he
    unfold _createResourceGroup at he
    simp only [List.mem_cons] at he
    rcases he with rfl | he
    · rfl
    · split at he <;> exact hcb _ _ e he
  have htemplate : ∀ cb, (∀ err res, ∀ e ∈ cb err res, MgmtEvent.isEnterDeploy e = false) →
      ∀ e ∈ _deployTemplate rm cfg cb, MgmtEvent.isEnterDeploy e = false := by
    intro cb hcb e he
    unfold _deployTemplate at he
    simp only [List.mem_cons] at he
    rcases he with rfl | he
    · rfl
    · split at he
      · exact hcb _ _ e he
      · simp only [List.mem_cons] at he
        rcases he with rfl | he
        · rfl
        · split at he <;> exact hcb _ _ e he
  have hstatus : ∀ cb, (∀ err res, ∀ e ∈ cb err res, MgmtEvent.isEnterDeploy e = false) →
      ∀ e ∈ _checkDeploymentStatus rm cfg cb, MgmtEvent.isEnterDeploy e = false := by
    intro cb hcb e he
    exact checkStatus_all _ rfl (fun _ _ => rfl) _ _ cb hcb _ e he
  have hfinal : ∀ (err : Option ErrVal) (results : List (Option String)),
      ∀ e ∈ (if errTruthy err then done err [] else done none results),
        MgmtEvent.isEnterDeploy e = false := by
    intro err results e he
    split at he <;> exact hdone _ _ e he
  refine checkRGExistence_all _ (fun _ => rfl) rm cfg _ ?_
  intro err ex _ e he
  split at he
  · exact hdone _ _ e he
  · split at he
    · refine series_all _ _ ?_ _ _ hfinal e he
      intro t ht
      simp only [List.mem_cons, List.mem_singleton, List.not_mem_nil, or_false] at ht
      rcases ht with rfl | rfl
      · exact htemplate
      · exact hstatus
    · refine series_all _ _ ?_ _ _ hfinal e he
      intro t ht
      simp only [List.mem_cons, List.mem_singleton, List.not_mem_nil, or_false] at ht
      rcases ht with rfl | rfl | rfl
      · exact hcreate
      · exact htemplate
      · exact hstatus

/-- The callback `_checkResources` hands to `_deployResourceGroup` records
callback events only. -/
theorem onResourceGroupDeploy_no_enter (rgErr : Option ErrVal) :
    ∀ e ∈ (if errTruthy rgErr then record rgErr none
      else record none (some "Resource Group deployed")), e.isEnterDeploy = false := by
  intro e he
  split at he <;> simp only [record, List.mem_singleton] at he <;> subst he <;> rfl

/-- C2: `_checkResources` probes the hosting namespace, then the application.
(a) When both probes report an existing object the stage calls back with
success once, `_deployResourceGroup` is never invoked and no resource-group
createOrUpdate is issued.  (b) When the first failing probe fails with code
NotFound, `_deployResourceGroup` is invoked exactly once, right after the
probes.  (c) When the first failing probe fails with any other error, that
error object is handed to the callback unchanged and `_deployResourceGroup` is
not invoked. -/
theorem checkResources_branches (web : WebSiteClient) (rm : ResourceClient)
    (cfg : PublishConfig) (region : String) (hr : cfg.region = some region) :
    (BothExist web (webSpaceName cfg.rgName region) cfg.webAppName →
      _checkResources web rm cfg record =
        [ MgmtEvent.webSpacesGet (webSpaceName cfg.rgName region),
          MgmtEvent.webSitesGet (webSpaceName cfg.rgName region) cfg.webAppName,
          MgmtEvent.callback none (some "Resources checked") ] ∧
      (_checkResources web rm cfg record).countP MgmtEvent.isEnterDeploy = 0 ∧
      (_checkResources web rm cfg record).countP MgmtEvent.isGroupCreate = 0) ∧
    (∀ e, FirstFailure web (webSpaceName cfg.rgName region) cfg.webAppName e →
      e.code = some "NotFound" →
      _checkResources web rm cfg record =
        probesUntilFailure web (webSpaceName cfg.rgName region) cfg.webAppName ++
          _deployResourceGroup rm cfg (fun rgErr _ =>
            if errTruthy rgErr then record rgErr none
            else record none (some "Resource Group deployed")) ∧
      (_checkResources web rm cfg record).countP MgmtEvent.isEnterDeploy = 1) ∧
    (∀ e, FirstFailure web (webSpaceName cfg.rgName region) cfg.webAppName e →
      e.code ≠ some "NotFound" →
      _checkResources web rm cfg record =
        probesUntilFailure web (webSpaceName cfg.rgName region) cfg.webAppName ++
          [MgmtEvent.callback (some (ErrVal.object e)) none] ∧
      (_checkResources web rm cfg record).countP MgmtEvent.isEnterDeploy = 0) := by
  have hcount : (_deployResourceGroup rm cfg (fun rgErr _ =>
      if errTruthy rgErr then record rgErr none
      else record none (some "Resource Group deployed"))).countP MgmtEvent.isEnterDeploy = 1 := by
    obtain ⟨rest, hrest, hno⟩ := deployResourceGroup_enter_once rm cfg
      (fun rgErr _ => if errTruthy rgErr then record rgErr none
        else record none (some "Resource Group deployed"))
      (fun err _ => onResourceGroupDeploy_no_enter err)
    rw [hrest, List.countP_cons_of_pos _ _ (by rfl)]
    have : rest.countP MgmtEvent.isEnterDeploy = 0 := by
      rw [List.countP_eq_zero]
      intro a ha
      simp [hno a ha]
    omega
  refine ⟨?_, ?_, ?_⟩
  · rintro ⟨h1, h2, h3, h4⟩
    have ht : _checkResources web rm cfg record =
        [ MgmtEvent.webSpacesGet (webSpaceName cfg.rgName region),
          MgmtEvent.webSitesGet (webSpaceName cfg.rgName region) cfg.webAppName,
          MgmtEvent.callback none (some "Resources checked") ] := by
      unfold _checkResources
      simp [hr, series, h1, h2, h3, h4, errTruthy, record]
    rw [ht]
    exact ⟨rfl, rfl, rfl⟩
  · intro e hff hcode
    have ht : _checkResources web rm cfg record =
        probesUntilFailure web (webSpaceName cfg.rgName region) cfg.webAppName ++
          _deployResourceGroup rm cfg (fun rgErr _ =>
            if errTruthy rgErr then record rgErr none
            else record none (some "Resource Group deployed")) := by
      unfold _checkResources probesUntilFailure
      rcases hff with h1 | ⟨h1, h2, h3⟩
      · simp [hr, series, h1, errTruthy, errCode, hcode]
      · simp [hr, series, h1, h2, h3, errTruthy, errCode, hcode]
    refine ⟨ht, ?_⟩
    rw [ht, List.countP_append, hcount]
    unfold probesUntilFailure
    split <;> rfl
  · intro e hff hcode
    have ht : _checkResources web rm cfg record =
        probesUntilFailure web (webSpaceName cfg.rgName region) cfg.webAppName ++
          [MgmtEvent.callback (some (ErrVal.object e)) none] := by
      unfold _checkResources probesUntilFailure
      rcases hff with h1 | ⟨h1, h2, h3⟩
      · simp [hr, series, h1, errTruthy, errCode, hcode, record]
      · simp [hr, series, h1, h2, h3, errTruthy, errCode, hcode, record]
    refine ⟨ht, ?_⟩
    rw [ht, List.countP_append]
    unfold probesUntilFailure
    split <;> rfl

/-- C2 witness: an existing site, a site whose application probe answers
NotFound, and a site whose namespace probe is refused with another error. -/
theorem checkResources_branches_witness :
    (_checkResources existingSite freshClient fullConfig record =
        [ MgmtEvent.webSpacesGet (webSpaceName fullConfig.rgName "West US"),
          MgmtEvent.webSitesGet (webSpaceName fullConfig.rgName "West US") fullConfig.webAppName,
          MgmtEvent.callback none (some "Resources checked") ] ∧
      (_checkResources existingSite freshClient fullConfig record).countP
        MgmtEvent.isEnterDeploy = 0 ∧
      (_checkResources existingSite freshClient fullConfig record).countP
        MgmtEvent.isGroupCreate = 0) ∧
    (_checkResources missingSite freshClient fullConfig record).countP
      MgmtEvent.isEnterDeploy = 1 ∧
    (_checkResources forbiddenSite freshClient fullConfig record =
        probesUntilFailure forbiddenSite (webSpaceName fullConfig.rgName "West US")
            fullConfig.webAppName ++
          [MgmtEvent.callback (some (ErrVal.object (mkError "Forbidden" 403))) none] ∧
      (_checkResources forbiddenSite freshClient fullConfig record).countP
        MgmtEvent.isEnterDeploy = 0) :=
  ⟨(checkResources_branches existingSite freshClient fullConfig "West US" rfl).1
      ⟨rfl, rfl, rfl, rfl⟩,
   ((checkResources_branches missingSite freshClient fullConfig "West US" rfl).2.1
      (mkError "NotFound" 404) (Or.inr ⟨rfl, rfl, rfl⟩) rfl).2,
   (checkResources_branches forbiddenSite freshClient fullConfig "West US" rfl).2.2
      (mkError "Forbidden" 403) (Or.inl rfl) (by decide)⟩

/-! ## C3: `_deployResourceGroup` and the existence check -/

/-- Creating the resource group emits its one call, then what the callback emits. -/
theorem createResourceGroup_all (p : MgmtEvent → Bool)
    (hcall : ∀ a b, p (MgmtEvent.resourceGroupsCreateOrUpdate a b) = false)
    (rm : ResourceClient) (cfg : PublishConfig)
    (cb : Option ErrVal → Option String → List MgmtEvent)
    (hcb : ∀ err res, ∀ e ∈ cb err res, p e = false) :
    ∀ e ∈ _createResourceGroup rm cfg cb, p e = false := by
  intro e he
  unfold _createResourceGroup at he
  rcases List.mem_cons.mp he with rfl | he
  · exact hcall _ _
  · dsimp only at he
    split at he <;> exact hcb _ _ e he

/-- Deploying the template emits the template read, at most one deployment
call, then what the callback emits. -/
theorem deployTemplate_all (p : MgmtEvent → Bool)
    (hread : ∀ a, p (MgmtEvent.readTemplate a) = false)
    (hcall : ∀ a b, p (MgmtEvent.deploymentsCreateOrUpdate a b) = false)
    (rm : ResourceClient) (cfg : PublishConfig)
    (cb : Option ErrVal → Option String → List MgmtEvent)
    (hcb : ∀ err res, ∀ e ∈ cb err res, p e = false) :
    ∀ e ∈ _deployTemplate rm cfg cb, p e = false := by
  intro e he
  unfold _deployTemplate at he
  rcases List.mem_cons.mp he with rfl | he
  · exact hread _
  · split at he
    · exact hcb _ _ e he
    · rcases List.mem_cons.mp he with rfl | he
      · exact hcall _ _
      · dsimp only at he
        split at he <;> exact hcb _ _ e he

/-- What does hold of C3: when the existence check fails with status 404 and
code NotFound, `_checkRGExistence` reports a plain `false` without error, and
`_deployResourceGroup` calls the group's createOrUpdate exactly once, as its
first call after the check and before any template deployment. -/
theorem deployResourceGroup_notFound_error (rm : ResourceClient) (cfg : PublishConfig)
    (e : JsError) (herr : (rm.checkExistence cfg.rgName).err = some e)
    (hstatus : e.statusCode = some 404) (hcode : e.code = some "NotFound") :
    _checkRGExistence rm cfg recordExistence =
      [MgmtEvent.checkExistence cfg.rgName,
        MgmtEvent.callback none (some "exists: false")] ∧
    (_deployResourceGroup rm cfg recordDone).take 3 =
      [MgmtEvent.enterDeployResourceGroup, MgmtEvent.checkExistence cfg.rgName,
        MgmtEvent.resourceGroupsCreateOrUpdate cfg.rgName cfg.region] ∧
    ∀ x ∈ (_deployResourceGroup rm cfg recordDone).drop 3, x.isGroupCreate = false := by
  have hdone : ∀ err res, ∀ y ∈ recordDone err res, MgmtEvent.isGroupCreate y = false := by
    intro err res y hy
    simp only [recordDone, List.mem_singleton] at hy
    subst hy; rfl
  have hfinal : ∀ (err : Option ErrVal) (results : List (Option String)),
      ∀ y ∈ (if errTruthy err then recordDone err [] else recordDone none results),
        MgmtEvent.isGroupCreate y = false := by
    intro err results y hy
    split at hy <;> exact hdone _ _ y hy
  have htrace : _deployResourceGroup rm cfg recordDone =
      MgmtEvent.enterDeployResourceGroup :: MgmtEvent.checkExistence cfg.rgName ::
        _createResourceGroup rm cfg (fun err result =>
          if errTruthy err then
            (if errTruthy err then recordDone err [] else recordDone none ([] ++ [result]))
          else series [_deployTemplate rm cfg, _checkDeploymentStatus rm cfg] ([] ++ [result])
            (fun err results =>
              if errTruthy err then recordDone err [] else recordDone none results)) := by
    unfold _deployResourceGroup _checkRGExistence
    simp only [herr, Option.map_some', errTruthy, errStatusCode, errCode, hstatus, hcode,
      beq_self_eq_true, Bool.and_self, if_true, Bool.false_eq_true, if_false, series]
  refine ⟨?_, ?_, ?_⟩
  · unfold _checkRGExistence
    simp [herr, errTruthy, errStatusCode, errCode, hstatus, hcode, recordExistence]
  · rw [htrace]; rfl
  · rw [htrace]
    intro x hx
    have hx2 : x ∈ (fun (err : Option ErrVal) (result : Option String) =>
          if errTruthy err then
            (if errTruthy err then recordDone err [] else recordDone none ([] ++ [result]))
          else series [_deployTemplate rm cfg, _checkDeploymentStatus rm cfg] ([] ++ [result])
            (fun err results =>
              if errTruthy err then recordDone err [] else recordDone none results))
        ((rm.resourceGroupsCreateOrUpdate cfg.rgName cfg.region).err.map ErrVal.object)
        (match (rm.resourceGroupsCreateOrUpdate cfg.rgName cfg.region).err with
          | some _ => none
          | none => (rm.resourceGroupsCreateOrUpdate cfg.rgName cfg.region).result) := by
      unfold _createResourceGroup at hx
      simp only [List.drop_succ_cons, List.drop_zero] at hx
      cases hc : (rm.resourceGroupsCreateOrUpdate cfg.rgName cfg.region).err with
      | none => simpa only [hc, Option.map_none'] using hx
      | some e2 => simpa only [hc, Option.map_some'] using hx
    dsimp only at hx2
    split at hx2
    · exact hdone _ _ x hx2
    · refine series_all _ _ ?_ _ _ hfinal x hx2
      intro t ht
      simp only [List.mem_cons, List.mem_singleton, List.not_mem_nil, or_false] at ht
      rcases ht with rfl | rfl
      · exact deployTemplate_all _ (fun _ => rfl) (fun _ _ => rfl) rm cfg
      · intro cb hcb y hy
        exact checkStatus_all _ rfl (fun _ _ => rfl) _ _ cb hcb _ y hy

/-- C3 (the code at the failing input): when the existence check succeeds with
`exists: false`, `_checkRGExistence` reports `true`, and `_deployResourceGroup`
goes straight to the template deployment without a single createOrUpdate of
the resource group. -/
theorem deployResourceGroup_negative_result_skips_create :
    _checkRGExistence negativeResultClient fullConfig recordExistence =
      [MgmtEvent.checkExistence (some "rg"),
        MgmtEvent.callback none (some "exists: true")] ∧
    _deployResourceGroup negativeResultClient fullConfig recordDone =
      [ MgmtEvent.enterDeployResourceGroup,
        MgmtEvent.checkExistence (some "rg"),
        MgmtEvent.readTemplate (some "template.json"),
        MgmtEvent.deploymentsCreateOrUpdate (some "rg") (some "deployment"),
        MgmtEvent.deploymentsGet (some "rg") (some "deployment"),
        MgmtEvent.deploymentsGet (some "rg") (some "deployment"),
        MgmtEvent.deploymentsGet (some "rg") (some "deployment"),
        MgmtEvent.callback none (some "Template deployment succeeded"),
        MgmtEvent.clearInterval ] ∧
    (_deployResourceGroup negativeResultClient fullConfig recordDone).countP
      MgmtEvent.isGroupCreate = 0 := by
  refine ⟨?_, ?_, ?_⟩ <;> decide

/-! ## C4: `_checkDeploymentStatus` -/

/-- A reply that is not terminal makes `onDeploymentGet` do nothing and leaves
the timer armed. -/
theorem onDeploymentGet_pending (cb : Option ErrVal → Option String → List MgmtEvent)
    (r : Reply Deployment) (h : terminalReply r = false) :
    onDeploymentGet cb r = ([], false) := by
  unfold terminalReply at h
  simp only [Bool.or_eq_false_iff] at h
  obtain ⟨⟨h1, h2⟩, h3⟩ := h
  have he : r.err = none := by
    cases hr : r.err with
    | none => rfl
    | some e => simp [hr] at h1
  unfold Reply.state at h2 h3
  unfold onDeploymentGet
  simp [he, h2, h3]

/-- A terminal reply that is an error or a result makes `onDeploymentGet`
invoke the callback once, with the owed resolution, and clear the timer. -/
theorem onDeploymentGet_terminal (r : Reply Deployment) (h : terminalReply r = true)
    (hwf : ErrorOrResult r) :
    onDeploymentGet record r = ([resolution r, MgmtEvent.clearInterval], true) := by
  unfold terminalReply at h
  unfold onDeploymentGet resolution Reply.state
  unfold Reply.state at h
  cases hr : r.err with
  | some e =>
    have hres : r.result = none := hwf (by simp [hr])
    simp [hres, record]
  | none =>
    simp only [hr, Option.isSome_none, Bool.false_or, Bool.or_eq_true] at h
    cases hres : r.result with
    | none => simp [hres] at h
    | some d =>
      simp only [hres, Option.some_bind] at h
      rcases h with h | h
      · simp [h, record]
      · have hne : (d.provisioningState == some "Succeeded") = false := by
          have h' : d.provisioningState = some "Failed" := by simpa using h
          rw [h']; decide
        simp [h, hne, record]

/-- The polling loop over replies none of which is terminal: one poll per
reply and nothing else. -/
theorem checkStatus_pending (rg dn : Option String)
    (cb : Option ErrVal → Option String → List MgmtEvent) (pre : List (Reply Deployment))
    (hpre : ∀ r ∈ pre, terminalReply r = false) :
    checkStatus rg dn cb pre = List.replicate pre.length (MgmtEvent.deploymentsGet rg dn) := by
  induction pre with
  | nil => rfl
  | cons r rest ih =>
    unfold checkStatus
    rw [onDeploymentGet_pending cb r (hpre r (List.mem_cons_self _ _))]
    simp only [List.nil_append, Bool.false_eq_true, if_false, List.length_cons,
      List.replicate_succ]
    rw [ih (fun x hx => hpre x (List.mem_cons_of_mem _ hx))]

/-- The polling loop up to and including the first terminal reply. -/
theorem checkStatus_resolves (rg dn : Option String) (pre post : List (Reply Deployment))
    (t : Reply Deployment) (hpre : ∀ r ∈ pre, terminalReply r = false)
    (ht : terminalReply t = true) (hwf : ErrorOrResult t) :
    checkStatus rg dn record (pre ++ t :: post) =
      List.replicate pre.length (MgmtEvent.deploymentsGet rg dn) ++
        [MgmtEvent.deploymentsGet rg dn, resolution t, MgmtEvent.clearInterval] := by
  induction pre with
  | nil =>
    simp only [List.nil_append, List.length_nil, List.replicate_zero]
    unfold checkStatus
    rw [onDeploymentGet_terminal t ht hwf]
    simp
  | cons r rest ih =>
    simp only [List.cons_append, List.length_cons, List.replicate_succ]
    unfold checkStatus
    rw [onDeploymentGet_pending record r (hpre r (List.mem_cons_self _ _))]
    simp only [List.nil_append, Bool.false_eq_true, if_false]
    rw [ih (fun x hx => hpre x (List.mem_cons_of_mem _ hx))]

/-- The owed resolution is a callback event. -/
theorem resolution_isCallback (r : Reply Deployment) :
    (resolution r).isCallback = true ∧ (resolution r).isPoll = false := by
  unfold resolution
  split
  · exact ⟨rfl, rfl⟩
  · split <;> exact ⟨rfl, rfl⟩

/-- C4: let the status replies, each arriving before the next tick, be `pre`,
then `t`, then `post`, where no reply of `pre` is terminal and `t` is the
first terminal one (a transport error, or a result with state Succeeded or
Failed).  Then `_checkDeploymentStatus` polls once per reply of `pre` without
calling back, polls once more, invokes its callback with the resolution owed
for `t` (success for Succeeded, the deployment-failure error for Failed, the
transport error otherwise), clears the timer and polls no more: it polls
exactly `pre.length + 1` times and calls back exactly once, after the last
poll. -/
theorem checkDeploymentStatus_resolves_once (rm : ResourceClient) (cfg : PublishConfig)
    (pre post : List (Reply Deployment)) (t : Reply Deployment)
    (hreplies : rm.deploymentsGet = pre ++ t :: post)
    (hpre : ∀ r ∈ pre, terminalReply r = false)
    (ht : terminalReply t = true) (hwf : ErrorOrResult t) :
    _checkDeploymentStatus rm cfg record =
      List.replicate pre.length (MgmtEvent.deploymentsGet cfg.rgName cfg.rgDeploymentName) ++
        [MgmtEvent.deploymentsGet cfg.rgName cfg.rgDeploymentName, resolution t,
          MgmtEvent.clearInterval] ∧
    (_checkDeploymentStatus rm cfg record).countP MgmtEvent.isPoll = pre.length + 1 ∧
    (_checkDeploymentStatus rm cfg record).filter MgmtEvent.isCallback = [resolution t] ∧
    (checkStatus cfg.rgName cfg.rgDeploymentName record pre).filter MgmtEvent.isCallback = [] := by
  have htrace : _checkDeploymentStatus rm cfg record =
      List.replicate pre.length (MgmtEvent.deploymentsGet cfg.rgName cfg.rgDeploymentName) ++
        [MgmtEvent.deploymentsGet cfg.rgName cfg.rgDeploymentName, resolution t,
          MgmtEvent.clearInterval] := by
    unfold _checkDeploymentStatus
    rw [hreplies]
    exact checkStatus_resolves _ _ pre post t hpre ht hwf
  obtain ⟨hcb, hpoll⟩ := resolution_isCallback t
  refine ⟨htrace, ?_, ?_, ?_⟩
  · have h1 : MgmtEvent.isPoll
        (MgmtEvent.deploymentsGet cfg.rgName cfg.rgDeploymentName) = true := rfl
    have h2 : MgmtEvent.isPoll MgmtEvent.clearInterval = false := rfl
    rw [htrace, List.countP_append, List.countP_replicate]
    simp [List.countP_cons, h1, h2, hpoll]
  · have h1 : MgmtEvent.isCallback
        (MgmtEvent.deploymentsGet cfg.rgName cfg.rgDeploymentName) = false := rfl
    have h2 : MgmtEvent.isCallback MgmtEvent.clearInterval = false := rfl
    rw [htrace, List.filter_append, List.filter_replicate]
    simp [List.filter_cons, h1, h2, hcb]
  · have h1 : MgmtEvent.isCallback
        (MgmtEvent.deploymentsGet cfg.rgName cfg.rgDeploymentName) = false := rfl
    rw [checkStatus_pending _ _ record pre hpre, List.filter_replicate]
    simp [h1]

/-- C4 witness: the replies Running, Running, Succeeded: three polls, then one
success callback. -/
theorem checkDeploymentStatus_resolves_once_witness :
    _checkDeploymentStatus freshClient fullConfig record =
      List.replicate 2 (MgmtEvent.deploymentsGet (some "rg") (some "deployment")) ++
        [MgmtEvent.deploymentsGet (some "rg") (some "deployment"),
          MgmtEvent.callback none (some "Template deployment succeeded"),
          MgmtEvent.clearInterval] ∧
    (_checkDeploymentStatus freshClient fullConfig record).countP MgmtEvent.isPoll = 2 + 1 ∧
    (_checkDeploymentStatus freshClient fullConfig record).filter MgmtEvent.isCallback =
      [MgmtEvent.callback none (some "Template deployment succeeded")] ∧
    (checkStatus (some "rg") (some "deployment") record
      [stateReply "Running", stateReply "Running"]).filter MgmtEvent.isCallback = [] :=
  checkDeploymentStatus_resolves_once freshClient fullConfig
    [stateReply "Running", stateReply "Running"] [] (stateReply "Succeeded") rfl
    (by decide) (by decide) (by intro h; cases h)

/-! ## C8: `_getPublishingCredentials` -/

/-- The profile loop selects the first FTP profile in list order, or leaves
everything untouched and never calls back. -/
theorem scanProfiles_eq (hostname : String → Option String) (vars : FtpVars)
    (profiles : List PublishProfile) :
    scanProfiles hostname record vars profiles =
      match profiles.find? (fun p => p.publishMethod == "FTP") with
      | some p =>
        ({ ftpHost := hostname p.publishUrl, ftpUser := p.userName, ftpPass := p.userPassword },
          [MgmtEvent.callback none (some "FTPS Publish Profile retrieved")])
      | none => (vars, []) := by
  induction profiles with
  | nil => rfl
  | cons p rest ih =>
    unfold scanProfiles
    by_cases h : (p.publishMethod == "FTP") = true
    · simp [h, List.find?_cons, record]
    · simp only [h, List.find?_cons]
      simpa using ih

/-- C8: on a successful publish-profile query, `_getPublishingCredentials`
selects the first profile in list order whose publishMethod is FTP, sets the
transfer host to the hostname of its publishUrl and user and password to its
userName and userPassword, and invokes its callback exactly once, with success;
when no profile has publishMethod FTP it leaves the variables as they were and
never invokes its callback. -/
theorem getPublishingCredentials_selects_first_ftp (web : WebSiteClient)
    (hostname : String → Option String) (cfg : PublishConfig) (vars : FtpVars)
    (region : String) (profiles : List PublishProfile)
    (hr : cfg.region = some region)
    (hreply : web.getPublishProfile (webSpaceName cfg.rgName region) cfg.webAppName =
      { err := none, result := some profiles }) :
    _getPublishingCredentials web hostname cfg vars record =
      match profiles.find? (fun p => p.publishMethod == "FTP") with
      | some p =>
        ({ ftpHost := hostname p.publishUrl, ftpUser := p.userName, ftpPass := p.userPassword },
          [ MgmtEvent.getPublishProfile (webSpaceName cfg.rgName region) cfg.webAppName,
            MgmtEvent.callback none (some "FTPS Publish Profile retrieved") ])
      | none =>
        (vars, [MgmtEvent.getPublishProfile (webSpaceName cfg.rgName region) cfg.webAppName]) := by
  unfold _getPublishingCredentials
  simp only [hr, hreply]
  rw [scanProfiles_eq]
  cases profiles.find? (fun p => p.publishMethod == "FTP") <;> rfl

/-- C8 witness: of a Web Deploy profile and two FTP profiles the first FTP
profile is taken; with no profile at all nothing is set and nothing called. -/
theorem getPublishingCredentials_selects_first_ftp_witness :
    _getPublishingCredentials profiledSite exampleHostname fullConfig noFtpVars record =
      ({ ftpHost := some "waws-1.ftp.example", ftpUser := some "first",
         ftpPass := some "first-pw" },
        [ MgmtEvent.getPublishProfile (webSpaceName (some "rg") "West US") (some "app"),
          MgmtEvent.callback none (some "FTPS Publish Profile retrieved") ]) ∧
    _getPublishingCredentials existingSite exampleHostname fullConfig noFtpVars record =
      (noFtpVars,
        [MgmtEvent.getPublishProfile (webSpaceName (some "rg") "West US") (some "app")]) :=
  ⟨getPublishingCredentials_selects_first_ftp profiledSite exampleHostname fullConfig noFtpVars
      "West US" _ rfl rfl,
   getPublishingCredentials_selects_first_ftp existingSite exampleHostname fullConfig noFtpVars
      "West US" [] rfl rfl⟩

/-! ## C10: `cleanup` -/

/-- C10 (as stated, refuted): `cleanup` has the single parameter `done`.
Called as `cleanup("rg-other", done)` while the configuration names the group
"rg", it addresses its delete call to "rg", not to the name passed, and then
fails to call the string it took for its callback, so the caller never
receives the result of the delete. -/
theorem cleanup_ignores_passed_name :
    cleanup freshClient fullConfig [JsArg.str otherGroupName, JsArg.fn record] =
      [ MgmtEvent.deleteMethod (some "rg"),
        MgmtEvent.thrown "TypeError: done is not a function" ] ∧
    MgmtEvent.deleteMethod (some otherGroupName) ∉
      cleanup freshClient fullConfig [JsArg.str otherGroupName, JsArg.fn record] := by
  constructor
  · rfl
  · decide

/-- C10 (amended): called with its callback, `cleanup` issues exactly one
delete call on the resource-management client, addressed to the `rgName` of
the module's current publish configuration; when the delete fails it hands the
remote error object unchanged to the callback, and when it succeeds it hands
over the delete's result. -/
theorem cleanup_deletes_configured_group (rm : ResourceClient) (cfg : PublishConfig) :
    cleanup rm cfg [JsArg.fn record] =
      [ MgmtEvent.deleteMethod cfg.rgName,
        match (rm.deleteMethod cfg.rgName).err with
        | some e => MgmtEvent.callback (some (ErrVal.object e)) none
        | none => MgmtEvent.callback none (rm.deleteMethod cfg.rgName).result ] ∧
    (cleanup rm cfg [JsArg.fn record]).countP MgmtEvent.isDelete = 1 := by
  have h : cleanup rm cfg [JsArg.fn record] =
      [ MgmtEvent.deleteMethod cfg.rgName,
        match (rm.deleteMethod cfg.rgName).err with
        | some e => MgmtEvent.callback (some (ErrVal.object e)) none
        | none => MgmtEvent.callback none (rm.deleteMethod cfg.rgName).result ] := by
    unfold cleanup
    cases hd : (rm.deleteMethod cfg.rgName).err <;> simp [hd, callArg, record]
  refine ⟨h, ?_⟩
  rw [h]
  cases (rm.deleteMethod cfg.rgName).err <;> rfl

/-! ## C6: remote path mapping -/

namespace NodePath

/-- `splitOn` always yields at least one piece. -/
theorem splitOn_ne_nil (p : Char → Bool) (s : List Char) : splitOn p s ≠ [] := by
  cases s with
  | nil => simp [splitOn]
  | cons c cs =>
    unfold splitOn
    split
    · simp
    · split <;> simp

/-- A string without separators is a single piece. -/
theorem splitOn_plain (p : Char → Bool) (w : List Char) (h : ∀ c ∈ w, p c = false) :
    splitOn p w = [w] := by
  induction w with
  | nil => rfl
  | cons c cs ih =>
    have hc : p c = false := h c (List.mem_cons_self _ _)
    have ih' := ih (fun x hx => h x (List.mem_cons_of_mem _ hx))
    unfold splitOn
    simp [hc, ih']

/-- Splitting distributes over a separator. -/
theorem splitOn_append_sep (p : Char → Bool) (a b : List Char) (c : Char) (hc : p c = true) :
    splitOn p (a ++ c :: b) = splitOn p a ++ splitOn p b := by
  induction a with
  | nil => simp [splitOn, hc]
  | cons x xs ih =>
    by_cases hx : p x = true
    · simp only [List.cons_append]
      rw [splitOn, if_pos hx, ih, splitOn, if_pos hx]
      rfl
    · simp only [List.cons_append]
      rw [splitOn, if_neg hx, ih, splitOn, if_neg hx]
      cases hs : splitOn p xs with
      | nil => exact absurd hs (splitOn_ne_nil p xs)
      | cons w ws => rfl

/-- `joinWith` on a list with at least two parts. -/
theorem joinWith_cons_cons (c : Char) (a b : List Char) (rest : List (List Char)) :
    joinWith c (a :: b :: rest) = a ++ c :: joinWith c (b :: rest) := by
  simp [joinWith, List.intercalate, List.intersperse, List.flatten]

/-- `joinWith` on a single part. -/
theorem joinWith_singleton (c : Char) (a : List Char) : joinWith c [a] = a := by
  simp [joinWith, List.intercalate, List.intersperse, List.flatten]

/-- `joinWith` on no part. -/
theorem joinWith_nil (c : Char) : joinWith c [] = [] := by
  simp [joinWith, List.intercalate, List.intersperse, List.flatten]

/-- Splitting a joined list of separator-free parts gives the parts back. -/
theorem splitOn_joinWith (p : Char → Bool) (c : Char) (hc : p c = true)
    (parts : List (List Char)) (hne : parts ≠ [])
    (hplain : ∀ w ∈ parts, ∀ x ∈ w, p x = false) :
    splitOn p (joinWith c parts) = parts := by
  induction parts with
  | nil => exact absurd rfl hne
  | cons a rest ih =>
    cases rest with
    | nil =>
      rw [joinWith_singleton]
      exact splitOn_plain p a (hplain a (List.mem_cons_self _ _))
    | cons b rest2 =>
      rw [joinWith_cons_cons, splitOn_append_sep p _ _ c hc,
        splitOn_plain p a (hplain a (List.mem_cons_self _ _)),
        ih (by simp) (fun w hw => hplain w (List.mem_cons_of_mem _ hw))]
      rfl

/-- Every piece of a path is plain. -/
theorem splitOn_pieces_plain (p : Char → Bool) (s : List Char) :
    ∀ w ∈ splitOn p s, ∀ x ∈ w, p x = false := by
  induction s with
  | nil =>
    intro w hw x hx
    simp only [splitOn, List.mem_singleton] at hw
    subst hw; cases hx
  | cons c cs ih =>
    intro w hw x hx
    unfold splitOn at hw
    split at hw
    · rcases List.mem_cons.mp hw with rfl | hw
      · cases hx
      · exact ih w hw x hx
    · rename_i hc
      split at hw
      · rename_i hs
        exact absurd hs (splitOn_ne_nil p cs)
      · rename_i w0 ws hs
        rcases List.mem_cons.mp hw with rfl | hw
        · rcases List.mem_cons.mp hx with rfl | hx
          · simpa using hc
          · exact ih w0 (by rw [hs]; exact List.mem_cons_self _ _) x hx
        · exact ih w (by rw [hs]; exact List.mem_cons_of_mem _ hw) x hx

/-- Every piece of a path is plain. -/
theorem pieces_plain (P : Platform) (s : List Char) : ∀ w ∈ pieces P s, Plain P w := by
  intro w hw
  unfold pieces at hw
  rw [List.mem_filter] at hw
  refine ⟨?_, splitOn_pieces_plain _ s w hw.1⟩
  intro h
  rw [h] at hw
  simp at hw

/-- The pieces of two paths put together with a separator. -/
theorem pieces_append_sep (P : Platform) (a b : List Char) (c : Char) (hc : isSep P c = true) :
    pieces P (a ++ c :: b) = pieces P a ++ pieces P b := by
  unfold pieces
  rw [splitOn_append_sep _ a b c hc, List.filter_append]

/-- The pieces of a joined list of plain parts are the parts. -/
theorem pieces_joinWith (P : Platform) (c : Char) (hc : isSep P c = true)
    (parts : List (List Char)) (hplain : ∀ w ∈ parts, Plain P w) :
    pieces P (joinWith c parts) = parts := by
  cases parts with
  | nil => rfl
  | cons a rest =>
    unfold pieces
    rw [splitOn_joinWith _ c hc _ (by simp) (fun w hw => (hplain w hw).2)]
    rw [List.filter_eq_self]
    intro w hw
    have := (hplain w hw).1
    cases w with
    | nil => exact absurd rfl this
    | cons _ _ => rfl

/-- The scan of `normalizeArray` keeps what it was given and adds only parts
of the input that are neither `.` nor `..`. -/
theorem normalizeScan_kept (parts : List (List Char)) (up : Nat) (kept : List (List Char)) :
    ∀ w ∈ (normalizeScan parts up kept).1,
      w ∈ kept ∨ (w ∈ parts ∧ w ≠ ['.'] ∧ w ≠ ['.', '.']) := by
  induction parts generalizing up kept with
  | nil => intro w hw; exact Or.inl hw
  | cons last earlier ih =>
    intro w hw
    unfold normalizeScan at hw
    split at hw
    · rcases ih _ _ w hw with h | ⟨h1, h2⟩
      · exact Or.inl h
      · exact Or.inr ⟨List.mem_cons_of_mem _ h1, h2⟩
    · split at hw
      · rcases ih _ _ w hw with h | ⟨h1, h2⟩
        · exact Or.inl h
        · exact Or.inr ⟨List.mem_cons_of_mem _ h1, h2⟩
      · split at hw
        · rcases ih _ _ w hw with h | ⟨h1, h2⟩
          · exact Or.inl h
          · exact Or.inr ⟨List.mem_cons_of_mem _ h1, h2⟩
        · rename_i h1 h2 _
          rcases ih _ _ w hw with h | ⟨h3, h4⟩
          · rcases List.mem_cons.mp h with rfl | h
            · exact Or.inr ⟨List.mem_cons_self _ _, h1, h2⟩
            · exact Or.inl h
          · exact Or.inr ⟨List.mem_cons_of_mem _ h3, h4⟩

/-- On parts none of which is `.` or `..` the scan keeps everything. -/
theorem normalizeScan_plain (parts : List (List Char)) (kept : List (List Char))
    (h : ∀ w ∈ parts, w ≠ ['.'] ∧ w ≠ ['.', '.']) :
    normalizeScan parts 0 kept = (parts.reverse ++ kept, 0) := by
  induction parts generalizing kept with
  | nil => rfl
  | cons last earlier ih =>
    obtain ⟨h1, h2⟩ := h last (List.mem_cons_self _ _)
    unfold normalizeScan
    rw [if_neg h1, if_neg h2, if_neg (by simp)]
    rw [ih _ (fun w hw => h w (List.mem_cons_of_mem _ hw))]
    simp

/-- Parts without `.` and `..` are left alone by `normalizeArray`. -/
theorem normalizeArray_plain (parts : List (List Char)) (allow : Bool)
    (h : ∀ w ∈ parts, w ≠ ['.'] ∧ w ≠ ['.', '.']) :
    normalizeArray parts allow = parts := by
  unfold normalizeArray
  rw [normalizeScan_plain _ _ (fun w hw => h w (List.mem_reverse.mp hw))]
  cases allow <;> simp

/-- The parts of an absolute resolved path are plain and without `.`, `..`. -/
theorem resolved_parts_plain (P : Platform) (cwd : List Char)
    (env : List Char → Option (List Char)) (args : List (List Char))
    (habs : (resolved P cwd env args).absolute = true) :
    ∀ w ∈ (resolved P cwd env args).parts, Plain P w ∧ w ≠ ['.'] ∧ w ≠ ['.', '.'] := by
  intro w hw
  unfold resolved at hw habs
  simp only at hw habs
  rw [habs] at hw
  unfold normalizeArray at hw
  simp only [Bool.not_true, Bool.false_eq_true, if_false] at hw
  rcases normalizeScan_kept _ _ _ w hw with h | ⟨h1, h2⟩
  · cases h
  · exact ⟨pieces_plain P _ w (List.mem_reverse.mp h1), h2⟩

/-- `trim` leaves a list without empty strings alone. -/
theorem trim_nonempty (arr : List (List Char)) (h : ∀ w ∈ arr, w ≠ []) : trim arr = arr := by
  cases arr with
  | nil => rfl
  | cons a rest =>
    have hfalse : ∀ w ∈ a :: rest, w.isEmpty = false := by
      intro w hw
      have := h w hw
      cases w with
      | nil => exact absurd rfl this
      | cons _ _ => rfl
    have h1 : (a :: rest).takeWhile (fun w => w.isEmpty) = [] := by
      rw [List.takeWhile_cons]
      simp [hfalse a (List.mem_cons_self _ _)]
    have h2 : (a :: rest).reverse.takeWhile (fun w => w.isEmpty) = [] := by
      cases hr : (a :: rest).reverse with
      | nil => rfl
      | cons b bs =>
        have hb : b ∈ a :: rest := by
          rw [← List.mem_reverse, hr]; exact List.mem_cons_self _ _
        rw [List.takeWhile_cons]
        simp [hfalse b hb]
    unfold trim
    simp only [h1, h2, List.length_nil, Nat.sub_zero, List.length_cons, List.drop_zero]
    simp

/-- `trim` of the pieces of the empty string. -/
theorem trim_single_empty : trim [[]] = [] := by decide

/-- `trim` drops the empty piece after a trailing separator. -/
theorem trim_pair_empty (d : List Char) (hd : d ≠ []) : trim [d, []] = [d] := by
  cases d with
  | nil => exact absurd rfl hd
  | cons x xs => simp [trim, List.takeWhile]

/-- Splitting the joined parts of a resolved path and trimming gives the
parts, also when there is none. -/
theorem trim_splitOn_joinWith (p : Char → Bool) (c : Char) (hc : p c = true)
    (parts : List (List Char)) (hplain : ∀ w ∈ parts, w ≠ [] ∧ ∀ x ∈ w, p x = false) :
    trim (splitOn p (joinWith c parts)) = parts := by
  cases parts with
  | nil => rw [joinWith_nil]; exact trim_single_empty
  | cons a rest =>
    rw [splitOn_joinWith p c hc _ (by simp) (fun w hw => (hplain w hw).2)]
    exact trim_nonempty _ (fun w hw => (hplain w hw).1)

/-- The same with a separator-free device in front, as on Windows. -/
theorem trim_splitOn_device (p : Char → Bool) (c : Char) (hc : p c = true)
    (dev : List Char) (hdev : dev ≠ [] ∧ ∀ x ∈ dev, p x = false)
    (parts : List (List Char)) (hplain : ∀ w ∈ parts, w ≠ [] ∧ ∀ x ∈ w, p x = false) :
    trim (splitOn p (dev ++ c :: joinWith c parts)) = dev :: parts := by
  rw [splitOn_append_sep p _ _ c hc, splitOn_plain p dev hdev.2]
  cases parts with
  | nil =>
    rw [joinWith_nil]
    exact trim_pair_empty dev hdev.1
  | cons a rest =>
    rw [splitOn_joinWith p c hc _ (by simp) (fun w hw => (hplain w hw).2)]
    refine trim_nonempty _ ?_
    intro w hw
    rcases List.mem_cons.mp hw with rfl | hw
    · exact hdev.1
    · exact (hplain w hw).1

/-- A list shares all of its parts with any extension of it. -/
theorem samePartsLength_append (a b : List (List Char)) :
    samePartsLength a (a ++ b) = a.length := by
  induction a with
  | nil => cases b <;> rfl
  | cons x xs ih => simp [samePartsLength, ih]

/-- Mapping the characters of a joined list. -/
theorem map_joinWith (f : Char → Char) (c : Char) (parts : List (List Char)) :
    (joinWith c parts).map f = joinWith (f c) (parts.map (List.map f)) := by
  induction parts with
  | nil => rfl
  | cons a rest ih =>
    cases rest with
    | nil => simp [joinWith_singleton]
    | cons b rest2 =>
      rw [joinWith_cons_cons, List.map_append, List.map_cons, ih]
      simp only [List.map_cons]
      rw [joinWith_cons_cons]

/-- An absolute resolved path is rendered as device, separator, joined parts. -/
theorem render_absolute (P : Platform) (r : Resolved) (h : r.absolute = true) :
    render P r = r.device ++ sep P :: joinWith (sep P) r.parts := by
  unfold render
  simp [h]

/-- Lower-casing a character other than the backslash does not produce one. -/
theorem toLower_ne_backslash (c : Char) (h : c ≠ '\\') : c.toLower ≠ '\\' := by
  unfold Char.toLower
  dsimp only
  split
  · rename_i hr
    obtain ⟨h1, h2⟩ := hr
    generalize c.toNat = n at h1 h2
    interval_cases n <;> decide
  · exact h

/-- `path.relative` from the root to a path below it, POSIX variant: the names
that lead from the root to the path, joined by slashes. -/
theorem relative_below_posix (cwd : List Char) (env : List Char → Option (List Char))
    (directory p : List Char) (names : List (List Char))
    (h : Below Platform.posix cwd env directory p names) :
    relative Platform.posix cwd env directory p = joinWith '/' names := by
  obtain ⟨hd, hp, hdev, hdeveq, hparts, _⟩ := h
  have hdev0 : (resolved Platform.posix cwd env [directory]).device = [] := by
    simpa [deviceOk, List.isEmpty_iff] using hdev
  have hplainP := resolved_parts_plain Platform.posix cwd env [p] hp
  rw [hparts] at hplainP
  have hsplit : ∀ w ∈ (resolved Platform.posix cwd env [directory]).parts ++ names,
      w ≠ [] ∧ ∀ x ∈ w, (fun c : Char => c == '/') x = false := by
    intro w hw
    exact ⟨(hplainP w hw).1.1, (hplainP w hw).1.2⟩
  have hfrom : (resolve Platform.posix cwd env [directory]).drop 1 =
      joinWith '/' (resolved Platform.posix cwd env [directory]).parts := by
    unfold resolve
    rw [render_absolute _ _ hd, hdev0]
    rfl
  have hdevP : (resolved Platform.posix cwd env [p]).device = [] := by
    rw [hdev0] at hdeveq
    exact List.map_eq_nil_iff.mp hdeveq
  have hto : (resolve Platform.posix cwd env [p]).drop 1 =
      joinWith '/' ((resolved Platform.posix cwd env [directory]).parts ++ names) := by
    unfold resolve
    rw [render_absolute _ _ hp, hdevP, hparts]
    rfl
  unfold relative
  simp only [hfrom, hto]
  rw [trim_splitOn_joinWith _ '/' rfl _ hsplit,
    trim_splitOn_joinWith _ '/' rfl _
      (fun w hw => hsplit w (List.mem_append_left _ hw)),
    samePartsLength_append]
  simp

/-- `path.relative` from the root to a path below it, Windows variant: the
names that lead from the root to the path, joined by backslashes. -/
theorem relative_below_win32 (cwd : List Char) (env : List Char → Option (List Char))
    (directory p : List Char) (names : List (List Char))
    (h : Below Platform.win32 cwd env directory p names) :
    relative Platform.win32 cwd env directory p = joinWith '\\' names := by
  obtain ⟨hd, hp, hdev, hdeveq, hparts, _⟩ := h
  obtain ⟨a, hdevA, haAlpha⟩ : ∃ a, (resolved Platform.win32 cwd env [directory]).device = [a, ':'] ∧
      a.isAlpha = true := by
    generalize (resolved Platform.win32 cwd env [directory]).device = dev at hdev
    rcases dev with _ | ⟨a, _ | ⟨b, _ | ⟨c, rest⟩⟩⟩
    · simp [deviceOk] at hdev
    · simp [deviceOk] at hdev
    · simp only [deviceOk, Bool.and_eq_true, beq_iff_eq] at hdev
      obtain ⟨h1, rfl⟩ := hdev
      exact ⟨a, rfl, h1⟩
    · simp [deviceOk] at hdev
  have ha : a ≠ '\\' := by
    intro h2; subst h2; revert haAlpha; decide
  have hplainP := resolved_parts_plain Platform.win32 cwd env [p] hp
  rw [hparts] at hplainP
  have hsplit : ∀ w ∈ (resolved Platform.win32 cwd env [directory]).parts ++ names,
      w ≠ [] ∧ ∀ x ∈ w, (fun c : Char => c == '\\') x = false := by
    intro w hw
    refine ⟨(hplainP w hw).1.1, ?_⟩
    intro x hx
    have := (hplainP w hw).1.2 x hx
    simp only [isSep, Bool.or_eq_false_iff] at this
    exact this.2
  have hsplitLower : ∀ w ∈ ((resolved Platform.win32 cwd env [directory]).parts ++ names).map
        (List.map Char.toLower),
      w ≠ [] ∧ ∀ x ∈ w, (fun c : Char => c == '\\') x = false := by
    intro w hw
    obtain ⟨v, hv, rfl⟩ := List.mem_map.mp hw
    refine ⟨?_, ?_⟩
    · intro h0
      exact (hsplit v hv).1 (List.map_eq_nil_iff.mp h0)
    · intro x hx
      obtain ⟨y, hy, rfl⟩ := List.mem_map.mp hx
      have hy2 : y ≠ '\\' := by
        have := (hsplit v hv).2 y hy
        simpa using this
      simpa using toLower_ne_backslash y hy2
  have hdevPlain : ([a, ':'] : List Char) ≠ [] ∧
      ∀ x ∈ ([a, ':'] : List Char), (fun c : Char => c == '\\') x = false := by
    refine ⟨by simp, ?_⟩
    intro x hx
    simp only [List.mem_cons, List.mem_singleton, List.not_mem_nil, or_false] at hx
    rcases hx with rfl | rfl
    · simpa using ha
    · decide
  have hdevLower : ([a.toLower, ':'] : List Char) ≠ [] ∧
      ∀ x ∈ ([a.toLower, ':'] : List Char), (fun c : Char => c == '\\') x = false := by
    refine ⟨by simp, ?_⟩
    intro x hx
    simp only [List.mem_cons, List.mem_singleton, List.not_mem_nil, or_false] at hx
    rcases hx with rfl | rfl
    · simpa using toLower_ne_backslash a ha
    · decide
  have hdevP : (resolved Platform.win32 cwd env [p]).device.map Char.toLower =
      [a.toLower, ':'] := by
    rw [hdeveq, hdevA]
    rfl
  have hdevPPlain : (resolved Platform.win32 cwd env [p]).device ≠ [] ∧
      ∀ x ∈ (resolved Platform.win32 cwd env [p]).device,
        (fun c : Char => c == '\\') x = false := by
    refine ⟨?_, ?_⟩
    · intro h0
      rw [h0] at hdevP
      cases hdevP
    · intro x hx
      have hmem : x.toLower ∈ ([a.toLower, ':'] : List Char) := by
        rw [← hdevP]
        exact List.mem_map_of_mem _ hx
      have hx2 : x ≠ '\\' := by
        intro h2
        subst h2
        have := hdevLower.2 _ hmem
        revert this
        decide
      simpa using hx2
  have hfrom : resolve Platform.win32 cwd env [directory] =
      [a, ':'] ++ '\\' :: joinWith '\\' (resolved Platform.win32 cwd env [directory]).parts := by
    unfold resolve
    rw [render_absolute _ _ hd, hdevA]
    rfl
  have hto : resolve Platform.win32 cwd env [p] =
      (resolved Platform.win32 cwd env [p]).device ++ '\\' ::
        joinWith '\\' ((resolved Platform.win32 cwd env [directory]).parts ++ names) := by
    unfold resolve
    rw [render_absolute _ _ hp, hparts]
    rfl
  have hlower : ∀ (dev : List Char) (parts : List (List Char)),
      (dev ++ '\\' :: joinWith '\\' parts).map Char.toLower =
        dev.map Char.toLower ++ '\\' :: joinWith '\\' (parts.map (List.map Char.toLower)) := by
    intro dev parts
    have h2 : Char.toLower '\\' = '\\' := by decide
    simp only [List.map_append, List.map_cons, map_joinWith, h2]
  have hlowerA : ([a, ':'] : List Char).map Char.toLower = [a.toLower, ':'] := rfl
  unfold relative
  simp only [hfrom, hto, hlower, hdevP, hlowerA]
  rw [trim_splitOn_device _ '\\' rfl _ hdevPPlain _ hsplit,
    trim_splitOn_device _ '\\' rfl _ hdevLower _ hsplitLower,
    trim_splitOn_device _ '\\' rfl _ hdevLower _
      (fun w hw => hsplitLower w (by
        rw [List.map_append]; exact List.mem_append_left _ hw))]
  rw [List.map_append, ← List.cons_append, samePartsLength_append]
  simp

/-- A joined non-empty list of plain parts ends in a character that is not a
separator. -/
theorem joinWith_ends_plain (P : Platform) (c : Char) (names : List (List Char))
    (hne : names ≠ []) (hplain : ∀ w ∈ names, Plain P w) :
    ∃ init y, joinWith c names = init ++ [y] ∧ isSep P y = false := by
  induction names with
  | nil => exact absurd rfl hne
  | cons a rest ih =>
    cases rest with
    | nil =>
      obtain ⟨ha, hsep⟩ := hplain a (List.mem_cons_self _ _)
      refine ⟨a.dropLast, a.getLast ha, ?_, hsep _ (List.getLast_mem ha)⟩
      rw [joinWith_singleton, List.dropLast_append_getLast]
    | cons b rest2 =>
      obtain ⟨init, y, hj, hy⟩ := ih (by simp) (fun w hw => hplain w (List.mem_cons_of_mem _ hw))
      refine ⟨a ++ c :: init, y, ?_, hy⟩
      rw [joinWith_cons_cons, hj]
      simp

/-- The remote root taken apart by `splitPath`, in front of anything. -/
theorem splitPath_wwwroot (P : Platform) (x : List Char) :
    splitPath P ("/site/wwwroot/".toList ++ x) =
      { device := [], unc := false, absolute := true,
        tail := (match P with
          | Platform.posix => "/site/wwwroot/".toList
          | Platform.win32 => "site/wwwroot/".toList) ++ x } := by
  cases P <;> rfl

/-- The Windows `path.join` leaves the start of the remote root alone. -/
theorem squashLeading_wwwroot (x : List Char) :
    (if startsUnc (["/site/wwwroot/".toList, x].head?) = true
      then "/site/wwwroot/".toList ++ x
      else squashLeading ("/site/wwwroot/".toList ++ x)) = "/site/wwwroot/".toList ++ x := by
  rfl

/-- The pieces of the remote root. -/
theorem pieces_wwwroot (P : Platform) :
    pieces P (match P with
      | Platform.posix => "/site/wwwroot/".toList
      | Platform.win32 => "site/wwwroot/".toList) = ["site".toList, "wwwroot".toList] := by
  cases P <;> decide

/-- The separator a variant writes is one it reads. -/
theorem isSep_sep (P : Platform) : isSep P (sep P) = true := by
  cases P <;> decide

/-- `path.join` of the remote root and a relative path of plain names. -/
theorem join_wwwroot (P : Platform) (names : List (List Char)) (hne : names ≠ [])
    (hplain : ∀ w ∈ names, Plain P w ∧ w ≠ ['.'] ∧ w ≠ ['.', '.']) :
    join P ["/site/wwwroot/".toList, joinWith (sep P) names] =
      sep P :: joinWith (sep P) (["site".toList, "wwwroot".toList] ++ names) := by
  obtain ⟨init, y, hj, hy⟩ :=
    joinWith_ends_plain P (sep P) names hne (fun w hw => (hplain w hw).1)
  have hrel : (joinWith (sep P) names).isEmpty = false := by
    rw [hj]; cases init <;> rfl
  have hfilter : ["/site/wwwroot/".toList, joinWith (sep P) names].filter
      (fun p => !p.isEmpty) = ["/site/wwwroot/".toList, joinWith (sep P) names] := by
    rw [List.filter_eq_self]
    intro w hw
    simp only [List.mem_cons, List.mem_singleton, List.not_mem_nil, or_false] at hw
    rcases hw with rfl | rfl
    · rfl
    · simp [hrel]
  have hpieces : pieces P ((match P with
        | Platform.posix => "/site/wwwroot/".toList
        | Platform.win32 => "site/wwwroot/".toList) ++ sep P :: joinWith (sep P) names) =
      ["site".toList, "wwwroot".toList] ++ names := by
    rw [pieces_append_sep P _ _ _ (isSep_sep P), pieces_wwwroot,
      pieces_joinWith P _ (isSep_sep P) _ (fun w hw => (hplain w hw).1)]
  have hnorm : normalizeArray (["site".toList, "wwwroot".toList] ++ names) false =
      ["site".toList, "wwwroot".toList] ++ names := by
    apply normalizeArray_plain
    intro w hw
    rcases List.mem_append.mp hw with hw | hw
    · simp only [List.mem_cons, List.mem_singleton, List.not_mem_nil, or_false] at hw
      rcases hw with rfl | rfl <;> decide
    · exact (hplain w hw).2
  have htrailing : trailingSlash P ((match P with
        | Platform.posix => "/site/wwwroot/".toList
        | Platform.win32 => "site/wwwroot/".toList) ++ sep P :: joinWith (sep P) names) = false := by
    unfold trailingSlash
    rw [hj, ← List.cons_append, ← List.append_assoc, List.getLast?_concat]
    exact hy
  have hjoined : (joinWith (sep P) (["site".toList, "wwwroot".toList] ++ names)).isEmpty
      = false := by
    cases names with
    | nil => exact absurd rfl hne
    | cons a rest =>
      simp only [List.cons_append, List.nil_append]
      rw [joinWith_cons_cons]
      rfl
  have hjoin : join P ["/site/wwwroot/".toList, joinWith (sep P) names] =
      normalize P ("/site/wwwroot/".toList ++ sep P :: joinWith (sep P) names) := by
    unfold join
    simp only [hfilter]
    rw [joinWith_cons_cons, joinWith_singleton]
    cases P
    · rfl
    · exact congrArg (normalize Platform.win32)
        (squashLeading_wwwroot (sep Platform.win32 :: joinWith (sep Platform.win32) names))
  rw [hjoin]
  unfold normalize
  simp only [splitPath_wwwroot, hpieces, Bool.not_true, hnorm, htrailing, hjoined,
    Bool.false_and, Bool.and_false, Bool.false_eq_true, if_false, if_true, lowerDrive,
    List.nil_append, List.singleton_append]
  simp

end NodePath

/-- Replacing backslashes leaves no backslash. -/
theorem backslashesToSlashes_clean (s : List Char) : '\\' ∉ backslashesToSlashes s := by
  intro h
  unfold backslashesToSlashes at h
  obtain ⟨c, _, hc⟩ := List.mem_map.mp h
  by_cases hb : c = '\\'
  · subst hb; revert hc; decide
  · have : (c == '\\') = false := by simpa using hb
    rw [this] at hc
    exact hb (by simpa using hc)

/-- The remote root followed by names, written out. -/
theorem wwwroot_joinWith (names : List (List Char)) (hne : names ≠ []) :
    '/' :: NodePath.joinWith '/' (["site".toList, "wwwroot".toList] ++ names) =
      "/site/wwwroot/".toList ++ NodePath.joinWith '/' names := by
  cases names with
  | nil => exact absurd rfl hne
  | cons a rest =>
    simp only [List.cons_append, List.nil_append]
    rw [NodePath.joinWith_cons_cons, NodePath.joinWith_cons_cons]
    rfl

/-- From the root to a path below it `path.relative` answers the names that
lead there, joined by the separator of the variant; each name is plain and
neither `.` nor `..`. -/
theorem relative_of_below (P : Platform) (cwd : List Char)
    (env : List Char → Option (List Char)) (directory p : List Char)
    (names : List (List Char)) (h : Below P cwd env directory p names) :
    NodePath.relative P cwd env directory p = NodePath.joinWith (NodePath.sep P) names ∧
    ∀ w ∈ names, NodePath.Plain P w ∧ w ≠ ['.'] ∧ w ≠ ['.', '.'] := by
  constructor
  · cases P
    · exact NodePath.relative_below_posix cwd env directory p names h
    · exact NodePath.relative_below_win32 cwd env directory p names h
  · intro w hw
    have := NodePath.resolved_parts_plain P cwd env [p] h.2.1
    rw [h.2.2.2.2.1] at this
    exact this w (List.mem_append_right _ hw)

/-- The remote path of a local path for which `path.relative` answers names
joined by the separator of the variant. -/
theorem remotePath_of_relative (P : Platform) (cwd : List Char)
    (env : List Char → Option (List Char)) (directory p : List Char)
    (names : List (List Char)) (hne : names ≠ [])
    (hplain : ∀ w ∈ names, NodePath.Plain P w ∧ w ≠ ['.'] ∧ w ≠ ['.', '.'])
    (hrel : NodePath.relative P cwd env directory p = NodePath.joinWith (NodePath.sep P) names) :
    remotePath P cwd env directory p =
      "/site/wwwroot/".toList ++ NodePath.joinWith '/' (names.map backslashesToSlashes) := by
  have hsep : (if NodePath.sep P == '\\' then '/' else NodePath.sep P) = '/' := by
    cases P <;> decide
  have hroot : List.map (List.map (fun c => if c == '\\' then '/' else c))
      ["site".toList, "wwwroot".toList] = ["site".toList, "wwwroot".toList] := by decide
  unfold remotePath
  rw [hrel, NodePath.join_wwwroot P names hne hplain]
  unfold backslashesToSlashes
  rw [List.map_cons, NodePath.map_joinWith, hsep, List.map_append, hroot]
  exact wwwroot_joinWith _ (by simpa using hne)

/-- C6 (amended): for either variant of the path module, every site root
that resolves to an absolute path not on a UNC share (from `/` on POSIX, on a
drive letter on Windows) and every local path that lies below it, with `names`
the components from the root to the path: the remote path `createDir` and
`uploadFile` compute is `/site/wwwroot/` followed by the names joined with
forward slashes, every backslash in a name turned into a slash; it contains
no backslash.  The separators that count are those the variant reads: the
slash on POSIX, slash and backslash on Windows. -/
theorem remotePath_below_root (P : Platform) (cwd : List Char)
    (env : List Char → Option (List Char)) (directory p : List Char)
    (names : List (List Char)) (h : Below P cwd env directory p names) :
    remotePath P cwd env directory p =
      "/site/wwwroot/".toList ++ NodePath.joinWith '/' (names.map backslashesToSlashes) ∧
    '\\' ∉ remotePath P cwd env directory p :=
  ⟨remotePath_of_relative P cwd env directory p names h.2.2.2.2.2
      (relative_of_below P cwd env directory p names h).2
      (relative_of_below P cwd env directory p names h).1,
    backslashesToSlashes_clean _⟩

/-- C6 witness: the file `css/a.css` below a site root, at the path the walk
collects for it.  Root `site` with the POSIX variant, root `site` with the
Windows variant (collected with backslashes, or written with slashes), and the
root `C:\site`, for which the walk collects `c:\site\css\a.css`: each maps to
`/site/wwwroot/css/a.css`. -/
theorem remotePath_below_root_witness :
    (collected Platform.posix "site".toList ["css".toList, "a.css".toList] =
        "site/css/a.css".toList ∧
      remotePath Platform.posix "/home/u".toList noDriveCwd "site".toList
        "site/css/a.css".toList = "/site/wwwroot/css/a.css".toList) ∧
    (collected Platform.win32 "site".toList ["css".toList, "a.css".toList] =
        "site\\css\\a.css".toList ∧
      remotePath Platform.win32 "C:\\Users\\u".toList noDriveCwd "site".toList
        "site\\css\\a.css".toList = "/site/wwwroot/css/a.css".toList) ∧
    remotePath Platform.win32 "C:\\Users\\u".toList noDriveCwd "site".toList
      "site/css/a.css".toList = "/site/wwwroot/css/a.css".toList ∧
    (collected Platform.win32 "C:\\site".toList ["css".toList, "a.css".toList] =
        "c:\\site\\css\\a.css".toList ∧
      remotePath Platform.win32 "C:\\Users\\u".toList noDriveCwd "C:\\site".toList
        "c:\\site\\css\\a.css".toList = "/site/wwwroot/css/a.css".toList) :=
  ⟨⟨by decide,
    (remotePath_below_root Platform.posix "/home/u".toList noDriveCwd "site".toList
      "site/css/a.css".toList ["css".toList, "a.css".toList] (by decide)).1⟩,
   ⟨by decide,
    (remotePath_below_root Platform.win32 "C:\\Users\\u".toList noDriveCwd "site".toList
      "site\\css\\a.css".toList ["css".toList, "a.css".toList] (by decide)).1⟩,
   (remotePath_below_root Platform.win32 "C:\\Users\\u".toList noDriveCwd "site".toList
      "site/css/a.css".toList ["css".toList, "a.css".toList] (by decide)).1,
   ⟨by decide,
    (remotePath_below_root Platform.win32 "C:\\Users\\u".toList noDriveCwd "C:\\site".toList
      "c:\\site\\css\\a.css".toList ["css".toList, "a.css".toList] (by decide)).1⟩⟩

/-- C6 (as stated, refuted): a site root on a UNC share, with the Windows
variant.  For the file `css\a.css` below the root `\\server\share\site` the
walk collects `\\server\share\site\css\a.css`, which resolves to the device
and the parts of the root followed by `css` and `a.css`; `path.relative` cuts
the parts of both paths short (`trim` slices to `end - start + 1` behind the
two empty pieces of the UNC prefix) and answers `share\site`, so the file
maps to `/site/wwwroot/share/site`, not to `/site/wwwroot/css/a.css`.  The
same happens to the root `site` of a process whose working directory is
`\\server\share\work`: the collected file `site\css\a.css` maps to
`/site/wwwroot/work/site`. -/
theorem remotePath_unc_root :
    collected Platform.win32 "\\\\server\\share\\site".toList ["css".toList, "a.css".toList] =
      "\\\\server\\share\\site\\css\\a.css".toList ∧
    (NodePath.resolved Platform.win32 "C:\\Users\\u".toList noDriveCwd
        ["\\\\server\\share\\site\\css\\a.css".toList]).device =
      (NodePath.resolved Platform.win32 "C:\\Users\\u".toList noDriveCwd
        ["\\\\server\\share\\site".toList]).device ∧
    (NodePath.resolved Platform.win32 "C:\\Users\\u".toList noDriveCwd
        ["\\\\server\\share\\site\\css\\a.css".toList]).parts =
      (NodePath.resolved Platform.win32 "C:\\Users\\u".toList noDriveCwd
        ["\\\\server\\share\\site".toList]).parts ++ ["css".toList, "a.css".toList] ∧
    NodePath.relative Platform.win32 "C:\\Users\\u".toList noDriveCwd
      "\\\\server\\share\\site".toList "\\\\server\\share\\site\\css\\a.css".toList =
      "share\\site".toList ∧
    remotePath Platform.win32 "C:\\Users\\u".toList noDriveCwd "\\\\server\\share\\site".toList
      "\\\\server\\share\\site\\css\\a.css".toList = "/site/wwwroot/share/site".toList ∧
    remotePath Platform.win32 "C:\\Users\\u".toList noDriveCwd "\\\\server\\share\\site".toList
      "\\\\server\\share\\site\\css\\a.css".toList ≠ "/site/wwwroot/css/a.css".toList ∧
    collected Platform.win32 "site".toList ["css".toList, "a.css".toList] =
      "site\\css\\a.css".toList ∧
    remotePath Platform.win32 "\\\\server\\share\\work".toList noDriveCwd "site".toList
      "site\\css\\a.css".toList = "/site/wwwroot/work/site".toList ∧
    remotePath Platform.win32 "\\\\server\\share\\work".toList noDriveCwd "site".toList
      "site\\css\\a.css".toList ≠ "/site/wwwroot/css/a.css".toList := by
  refine ⟨?_, ?_, ?_, ?_, ?_, ?_, ?_, ?_, ?_⟩ <;> decide

/-! ## The paths the walk collects lie below the site root -/

namespace NodePath

/-- The scan of `normalizeArray` over two lists, one after the other. -/
theorem normalizeScan_append (xs ys : List (List Char)) (up : Nat) (kept : List (List Char)) :
    normalizeScan (xs ++ ys) up kept =
      normalizeScan ys (normalizeScan xs up kept).2 (normalizeScan xs up kept).1 := by
  induction xs generalizing up kept with
  | nil => rfl
  | cons last earlier ih =>
    simp only [List.cons_append, normalizeScan]
    split_ifs <;> exact ih _ _

/-- What the scan was given to keep stays at the end of what it keeps. -/
theorem normalizeScan_acc (xs : List (List Char)) (up : Nat) (kept : List (List Char)) :
    normalizeScan xs up kept =
      ((normalizeScan xs up []).1 ++ kept, (normalizeScan xs up []).2) := by
  induction xs generalizing up kept with
  | nil => rfl
  | cons last earlier ih =>
    unfold normalizeScan
    split
    · exact ih _ _
    · split
      · exact ih _ _
      · split
        · exact ih _ _
        · rw [ih _ (last :: kept), ih _ [last]]
          simp

/-- The scan over `..` parts only counts them. -/
theorem normalizeScan_replicate (k up : Nat) (kept : List (List Char)) :
    normalizeScan (List.replicate k ['.', '.']) up kept = (kept, up + k) := by
  induction k generalizing up with
  | zero => rfl
  | succ k ih =>
    rw [List.replicate_succ]
    unfold normalizeScan
    rw [if_neg (by decide), if_pos rfl, ih]
    congr 1
    omega

/-- A part that is neither `.` nor `..` at the end of the parts stays at the
end. -/
theorem normalizeArray_snoc (xs : List (List Char)) (n : List Char) (allow : Bool)
    (h1 : n ≠ ['.']) (h2 : n ≠ ['.', '.']) :
    normalizeArray (xs ++ [n]) allow = normalizeArray xs allow ++ [n] := by
  unfold normalizeArray
  simp only [List.reverse_append, List.reverse_cons, List.reverse_nil, List.nil_append,
    List.singleton_append]
  have hscan : normalizeScan (n :: xs.reverse) 0 [] =
      ((normalizeScan xs.reverse 0 []).1 ++ [n], (normalizeScan xs.reverse 0 []).2) := by
    rw [normalizeScan, if_neg h1, if_neg h2, if_neg (by simp)]
    exact normalizeScan_acc _ _ _
  rw [hscan]
  cases allow <;> simp

/-- What the scan keeps from nothing holds neither `.` nor `..`. -/
theorem normalizeScan_kept_plain (xs : List (List Char)) (up : Nat) :
    ∀ w ∈ (normalizeScan xs up []).1, w ∈ xs ∧ w ≠ ['.'] ∧ w ≠ ['.', '.'] := by
  intro w hw
  rcases normalizeScan_kept xs up [] w hw with h | h
  · cases h
  · exact h

/-- Scanning the normalised parts again gives the same state. -/
theorem normalizeScan_normalizeArray (xs : List (List Char)) :
    normalizeScan (normalizeArray xs true).reverse 0 [] = normalizeScan xs.reverse 0 [] := by
  unfold normalizeArray
  simp only [if_true, List.reverse_append, List.reverse_replicate]
  rw [normalizeScan_append,
    normalizeScan_plain _ _ (fun w hw =>
      (normalizeScan_kept_plain xs.reverse 0 w (List.mem_reverse.mp hw)).2)]
  simp only [List.reverse_reverse, List.append_nil]
  rw [normalizeScan_replicate]
  simp

/-- Normalising relative parts first changes nothing behind other parts. -/
theorem normalizeArray_append_normalizeArray (cs xs : List (List Char)) (allow : Bool) :
    normalizeArray (cs ++ normalizeArray xs true) allow = normalizeArray (cs ++ xs) allow := by
  have h : normalizeScan (cs ++ normalizeArray xs true).reverse 0 [] =
      normalizeScan (cs ++ xs).reverse 0 [] := by
    rw [List.reverse_append, List.reverse_append, normalizeScan_append, normalizeScan_append,
      normalizeScan_normalizeArray]
  have key : ∀ zs : List (List Char), normalizeArray zs allow =
      if allow then List.replicate (normalizeScan zs.reverse 0 []).2 ['.', '.'] ++
        (normalizeScan zs.reverse 0 []).1
      else (normalizeScan zs.reverse 0 []).1 := fun _ => rfl
  rw [key, key, h]

/-- Normalising absolute parts twice is normalising them once. -/
theorem normalizeArray_idem (xs : List (List Char)) :
    normalizeArray (normalizeArray xs false) false = normalizeArray xs false := by
  apply normalizeArray_plain
  intro w hw
  unfold normalizeArray at hw
  simp only [Bool.false_eq_true, if_false] at hw
  exact (normalizeScan_kept_plain _ _ w hw).2

/-- The parts `normalizeArray` gives are parts it was given, or `..`. -/
theorem normalizeArray_mem (xs : List (List Char)) (allow : Bool) :
    ∀ w ∈ normalizeArray xs allow, w ∈ xs ∨ w = ['.', '.'] := by
  intro w hw
  unfold normalizeArray at hw
  cases allow
  · simp only [Bool.false_eq_true, if_false] at hw
    exact Or.inl (List.mem_reverse.mp (normalizeScan_kept_plain _ _ w hw).1)
  · simp only [if_true] at hw
    rcases List.mem_append.mp hw with h | h
    · exact Or.inr (List.eq_of_mem_replicate h)
    · exact Or.inl (List.mem_reverse.mp (normalizeScan_kept_plain _ _ w h).1)

/-- The empty path has no pieces. -/
theorem pieces_nil (P : Platform) : pieces P [] = [] := rfl

/-- A separator at the start adds no piece. -/
theorem pieces_cons_sep (P : Platform) (c : Char) (s : List Char) (hc : isSep P c = true) :
    pieces P (c :: s) = pieces P s := by
  unfold pieces
  rw [splitOn, if_pos hc]
  rfl

/-- Separators at the start add no piece. -/
theorem pieces_dropWhile (P : Platform) (s : List Char) :
    pieces P (s.dropWhile (isSep P)) = pieces P s := by
  induction s with
  | nil => rfl
  | cons c cs ih =>
    by_cases hc : isSep P c = true
    · rw [List.dropWhile_cons_of_pos hc, ih, pieces_cons_sep _ _ _ hc]
    · rw [List.dropWhile_cons_of_neg hc]

/-- A plain name is its only piece. -/
theorem pieces_plain_self (P : Platform) (n : List Char) (h : Plain P n) : pieces P n = [n] := by
  have := pieces_joinWith P (sep P) (isSep_sep P) [n] (by simpa using h)
  rwa [joinWith_singleton] at this

/-- The characters of a piece are characters of the path. -/
theorem splitOn_chars (p : Char → Bool) (s : List Char) :
    ∀ w ∈ splitOn p s, ∀ c ∈ w, c ∈ s := by
  induction s with
  | nil =>
    intro w hw c hc
    simp only [splitOn, List.mem_singleton] at hw
    subst hw
    cases hc
  | cons x xs ih =>
    intro w hw c hc
    unfold splitOn at hw
    split at hw
    · rcases List.mem_cons.mp hw with rfl | hw
      · cases hc
      · exact List.mem_cons_of_mem _ (ih w hw c hc)
    · split at hw
      · rename_i hs
        exact absurd hs (splitOn_ne_nil p xs)
      · rename_i w0 ws hs
        rcases List.mem_cons.mp hw with rfl | hw
        · rcases List.mem_cons.mp hc with rfl | hc
          · exact List.mem_cons_self _ _
          · exact List.mem_cons_of_mem _ (ih w0 (by rw [hs]; exact List.mem_cons_self _ _) c hc)
        · exact List.mem_cons_of_mem _ (ih w (by rw [hs]; exact List.mem_cons_of_mem _ hw) c hc)

/-- The characters of a piece are characters of the path. -/
theorem pieces_chars (P : Platform) (s : List Char) :
    ∀ w ∈ pieces P s, ∀ c ∈ w, c ∈ s := by
  intro w hw
  unfold pieces at hw
  exact splitOn_chars _ s w (List.mem_filter.mp hw).1

/-- A letter is no separator. -/
theorem isSep_of_isAlpha (P : Platform) (a : Char) (h : a.isAlpha = true) : isSep P a = false := by
  have h1 : a ≠ '/' := by
    intro h2; subst h2; revert h; decide
  have h2 : a ≠ '\\' := by
    intro h2; subst h2; revert h; decide
  cases P <;> simp [isSep, h1, h2]

/-- A letter in lower case is a letter. -/
theorem isAlpha_toLower (a : Char) (h : a.isAlpha = true) : a.toLower.isAlpha = true := by
  unfold Char.toLower
  dsimp only
  split
  · rename_i hr
    obtain ⟨h1, h2⟩ := hr
    clear h
    generalize a.toNat = n at h1 h2
    interval_cases n <;> decide
  · exact h

/-- A drive letter with a colon is the device. -/
theorem splitDevice_drive (a : Char) (rest : List Char) (h : a.isAlpha = true) :
    splitDevice (a :: ':' :: rest) = ([a, ':'], rest) := by
  simp [splitDevice, h]

/-- No UNC root where the path does not start with exactly two separators. -/
theorem splitUnc_none (s : List Char) (h : startsUnc (some s) = false) : splitUnc s = none := by
  rcases s with _ | ⟨c1, _ | ⟨c2, r⟩⟩
  · rfl
  · rfl
  · unfold splitUnc
    dsimp only
    by_cases h12 : (isSep Platform.win32 c1 && isSep Platform.win32 c2) = true
    · rw [if_pos h12]
      rcases r with _ | ⟨c3, r⟩
      · rfl
      · have h3 : isSep Platform.win32 c3 = true := by
          simp only [startsUnc, h12, Bool.true_and, Bool.not_eq_false_eq_eq_true] at h
          exact h
        simp [List.takeWhile, h3]
    · rw [if_neg h12]

/-- No device where the path has no colon in second place and does not start
with exactly two separators. -/
theorem splitDevice_plain (s : List Char) (h1 : s[1]? ≠ some ':')
    (h2 : startsUnc (some s) = false) : splitDevice s = ([], s) := by
  unfold splitDevice
  split
  · exact absurd (by simp) h1
  · rw [splitUnc_none s h2]

/-- A separator at the end adds no piece. -/
theorem pieces_append_sep_nil (P : Platform) (t : List Char) :
    pieces P (t ++ [sep P]) = pieces P t := by
  rw [pieces_append_sep P t [] (sep P) (isSep_sep P), pieces_nil, List.append_nil]

/-- The loop of `path.resolve` over one argument that is not empty. -/
theorem resolveArgs_single (P : Platform) (x : List Char) (hx : x ≠ []) :
    resolveArgs P [x] { device := [], tail := [], absolute := false, unc := false } =
      { device := (splitPath P x).device, tail := (splitPath P x).tail ++ [sep P],
        absolute := (splitPath P x).absolute, unc := (splitPath P x).unc } := by
  have hne : x.isEmpty = false := by
    cases x with
    | nil => exact absurd rfl hx
    | cons _ _ => rfl
  have h0 : resolveDone P { device := [], tail := [], absolute := false, unc := false } = false := by
    cases P <;> rfl
  simp [resolveArgs, h0, resolveStep, hne]

/-- What `path.resolve` finds for a path `y` whose device, absoluteness and
pieces are those of a path `x` followed by one more name `n`: the same device
up to case, an absolute path, and the parts of `x` followed by `n`. -/
theorem resolved_child (P : Platform) (cwd : List Char)
    (env : List Char → Option (List Char)) (x y n : List Char)
    (hx : x ≠ []) (hy : y ≠ [])
    (hxunc : (splitPath P x).unc = false)
    (hxform : (splitPath P x).device = [] ∨ (splitPath P x).absolute = true)
    (hyunc : (splitPath P y).unc = false)
    (hyabs : (splitPath P y).absolute = (splitPath P x).absolute)
    (hydev : (splitPath P y).device.map Char.toLower = (splitPath P x).device.map Char.toLower)
    (hyparts : pieces P (splitPath P y).tail =
      normalizeArray (pieces P (splitPath P x).tail) (!(splitPath P x).absolute) ++ [n])
    (hn1 : n ≠ ['.']) (hn2 : n ≠ ['.', '.'])
    (habs : (resolved P cwd env [x]).absolute = true) :
    (resolved P cwd env [y]).absolute = true ∧
    (resolved P cwd env [y]).device.map Char.toLower =
      (resolved P cwd env [x]).device.map Char.toLower ∧
    (resolved P cwd env [y]).parts = (resolved P cwd env [x]).parts ++ [n] := by
  unfold resolved at habs ⊢
  simp only [List.reverse_cons, List.reverse_nil, List.nil_append,
    resolveArgs_single P x hx, resolveArgs_single P y hy] at habs ⊢
  generalize splitPath P x = sx at *
  generalize splitPath P y = sy at *
  obtain ⟨dx, ux, ax, tx⟩ := sx
  obtain ⟨dy, uy, ay, ty⟩ := sy
  simp only at hxunc hxform hyunc hyabs hydev hyparts
  subst hxunc hyunc hyabs
  have hdy : dx = [] → dy = [] := by
    intro h
    rw [h] at hydev
    exact List.map_eq_nil_iff.mp hydev
  have hdyne : dx ≠ [] → dy ≠ [] := by
    intro h h2
    rw [h2] at hydev
    exact h (List.map_eq_nil_iff.mp hydev.symm)
  cases ay with
  | false =>
    have hdx : dx = [] := by simpa using hxform
    have hdy0 : dy = [] := hdy hdx
    subst hdx hdy0
    have hnd : ∀ t : List Char, resolveDone P
        { device := [], tail := t, absolute := false, unc := false } = false := by
      intro t; cases P <;> rfl
    have hfb : ∀ t : List Char, fallback P cwd env
        { device := [], tail := t, absolute := false, unc := false } = cwd := by
      intro t; cases P <;> rfl
    simp only [hnd, hfb, Bool.false_eq_true, if_false] at habs ⊢
    cases hc : cwd with
    | nil =>
      rw [hc] at habs
      simp [resolveStep] at habs
    | cons c0 cs =>
      rw [hc] at habs
      simp only [resolveStep, List.isEmpty_cons, Bool.false_eq_true, if_false, List.isEmpty_nil,
        Bool.not_true, Bool.and_false, Bool.false_and, if_true] at habs ⊢
      rw [habs]
      refine ⟨rfl, trivial, ?_⟩
      simp only [Bool.not_true, Bool.not_false, List.append_assoc, List.singleton_append,
        pieces_append_sep P _ _ (sep P) (isSep_sep P), pieces_nil, List.append_nil, hyparts]
      rw [← List.append_assoc, normalizeArray_snoc _ _ _ hn1 hn2,
        normalizeArray_append_normalizeArray]
  | true =>
    have htail : ∀ (d t path : List Char),
        resolveStep P { device := d, tail := t, absolute := true, unc := false } path =
          { resolveStep P { device := d, tail := [], absolute := true, unc := false } path
            with tail := t } := by
      intro d t path
      simp only [resolveStep, if_true]
      split_ifs <;> rfl
    have habsStep : ∀ (d path : List Char),
        (resolveStep P { device := d, tail := [], absolute := true, unc := false } path).absolute
          = true := by
      intro d path
      simp only [resolveStep, if_true]
      split_ifs <;> rfl
    have hparts : normalizeArray (pieces P (ty ++ [sep P])) false =
        normalizeArray (pieces P (tx ++ [sep P])) false ++ [n] := by
      rw [pieces_append_sep_nil, pieces_append_sep_nil, hyparts]
      simp only [Bool.not_true]
      rw [normalizeArray_snoc _ _ _ hn1 hn2, normalizeArray_idem]
    by_cases hdx : dx = []
    · have hdy0 := hdy hdx
      subst hdx hdy0
      cases P with
      | posix =>
        simp only [resolveDone, if_true, Bool.false_eq_true, if_false, Bool.not_true]
        exact ⟨trivial, trivial, hparts⟩
      | win32 =>
        have hfb : ∀ t : List Char, fallback Platform.win32 cwd env
            { device := [], tail := t, absolute := true, unc := false } = cwd := fun _ => rfl
        simp only [resolveDone, List.isEmpty_nil, Bool.not_true, Bool.false_and,
          Bool.false_eq_true, if_false, hfb]
        rw [htail [] (ty ++ _) cwd, htail [] (tx ++ _) cwd]
        simp only [habsStep, Bool.not_true]
        exact ⟨trivial, trivial, hparts⟩
    · have hdone : ∀ (d t : List Char), d ≠ [] → resolveDone P
          { device := d, tail := t, absolute := true, unc := false } = true := by
        intro d t hd
        cases P
        · rfl
        · cases d with
          | nil => exact absurd rfl hd
          | cons _ _ => rfl
      simp only [hdone dx _ hdx, hdone dy _ (hdyne hdx), if_true, Bool.false_eq_true, if_false,
        Bool.not_true]
      exact ⟨trivial, hydev, hparts⟩

/-- A character of a joined list is the separator or a character of a part. -/
theorem mem_joinWith (c : Char) (parts : List (List Char)) (x : Char)
    (h : x ∈ joinWith c parts) : x = c ∨ ∃ w ∈ parts, x ∈ w := by
  induction parts with
  | nil => rw [joinWith_nil] at h; cases h
  | cons a rest ih =>
    cases rest with
    | nil =>
      rw [joinWith_singleton] at h
      exact Or.inr ⟨a, List.mem_cons_self _ _, h⟩
    | cons b rest2 =>
      rw [joinWith_cons_cons] at h
      rcases List.mem_append.mp h with h | h
      · exact Or.inr ⟨a, List.mem_cons_self _ _, h⟩
      · rcases List.mem_cons.mp h with rfl | h
        · exact Or.inl rfl
        · rcases ih h with h | ⟨w, hw, hx⟩
          · exact Or.inl h
          · exact Or.inr ⟨w, List.mem_cons_of_mem _ hw, hx⟩

/-- A joined non-empty list of plain parts starts with a character that is
not a separator. -/
theorem joinWith_head_plain (P : Platform) (c : Char) (parts : List (List Char))
    (hne : parts ≠ []) (hplain : ∀ w ∈ parts, Plain P w) :
    ∃ j0 rest, joinWith c parts = j0 :: rest ∧ isSep P j0 = false := by
  cases parts with
  | nil => exact absurd rfl hne
  | cons a rest =>
    obtain ⟨ha, hsep⟩ := hplain a (List.mem_cons_self _ _)
    cases a with
    | nil => exact absurd rfl ha
    | cons a0 as =>
      cases rest with
      | nil =>
        exact ⟨a0, as, joinWith_singleton _ _, hsep a0 (List.mem_cons_self _ _)⟩
      | cons b r2 =>
        refine ⟨a0, as ++ c :: joinWith c (b :: r2), ?_, hsep a0 (List.mem_cons_self _ _)⟩
        rw [joinWith_cons_cons]
        rfl

/-- The parts `..` is plain. -/
theorem plain_dotdot (P : Platform) : Plain P ['.', '.'] := by
  refine ⟨by simp, ?_⟩
  intro x hx
  simp only [List.mem_cons, List.mem_singleton, List.not_mem_nil, or_false, or_self] at hx
  subst hx
  cases P <;> rfl

/-- The value of `path.normalize` on a path taken apart, when there is no UNC
root, no separator at the end, and at least one part is left. -/
theorem normalize_of_split (P : Platform) (j dev t : List Char) (abs : Bool)
    (hs : splitPath P j = { device := dev, unc := false, absolute := abs, tail := t })
    (htrail : trailingSlash P t = false)
    (hJ : (joinWith (sep P) (normalizeArray (pieces P t) (!abs))).isEmpty = false) :
    normalize P j =
      (if dev[1]? == some ':' then lowerDrive dev else dev) ++
        (if abs then [sep P] else []) ++
        joinWith (sep P) (normalizeArray (pieces P t) (!abs)) := by
  unfold normalize
  simp only [hs, htrail, hJ, Bool.false_and, Bool.and_false, Bool.false_eq_true, if_false]

/-- Lower case of lower case is lower case. -/
theorem toLower_toLower (c : Char) : c.toLower.toLower = c.toLower := by
  by_cases h : c.toNat ≥ 65 ∧ c.toNat ≤ 90
  · have h1 : c.toLower = Char.ofNat (c.toNat + 32) := by
      unfold Char.toLower
      dsimp only
      rw [if_pos h]
    rw [h1]
    obtain ⟨h2, h3⟩ := h
    generalize c.toNat = n at h2 h3
    interval_cases n <;> decide
  · have h1 : c.toLower = c := by
      unfold Char.toLower
      dsimp only
      rw [if_neg h]
    rw [h1, h1]

/-- A path that ends in a plain name does not end in a separator. -/
theorem trailingSlash_append_plain (P : Platform) (pre n : List Char) (hn : Plain P n) :
    trailingSlash P (pre ++ n) = false := by
  obtain ⟨init, y, hj, hy⟩ := joinWith_ends_plain P (sep P) [n] (by simp)
    (fun w hw => by rw [List.mem_singleton.mp hw]; exact hn)
  rw [joinWith_singleton] at hj
  unfold trailingSlash
  rw [hj, ← List.append_assoc, List.getLast?_concat]
  exact hy

/-- Dropping characters from the start keeps the last character, if any is
left. -/
theorem getLast?_dropWhile (p : Char → Bool) (l : List Char) (h : l.dropWhile p ≠ []) :
    (l.dropWhile p).getLast? = l.getLast? := by
  induction l with
  | nil => rfl
  | cons c cs ih =>
    by_cases hc : p c = true
    · rw [List.dropWhile_cons_of_pos hc] at h ⊢
      rw [ih h]
      cases cs with
      | nil => exact absurd rfl h
      | cons d ds => rfl
    · rw [List.dropWhile_cons_of_neg hc]

/-- What is left after the separators at the start begins with a character
that is not a separator. -/
theorem dropWhile_head (p : Char → Bool) (l : List Char) (c : Char) (rest : List Char)
    (h : l.dropWhile p = c :: rest) : p c = false := by
  induction l with
  | nil => cases h
  | cons d ds ih =>
    by_cases hd : p d = true
    · rw [List.dropWhile_cons_of_pos hd] at h
      exact ih h
    · rw [List.dropWhile_cons_of_neg hd] at h
      cases h
      simpa using hd

/-- The Windows `path.join` leaves a joined path alone that does not start
with a separator. -/
theorem squashLeading_plain (c : Char) (s : List Char) (hc : isSep Platform.win32 c = false) :
    squashLeading (c :: s) = c :: s := by
  simp [squashLeading, List.takeWhile, hc]

/-- The Windows `path.join` on a joined path that starts with a separator: one
separator, and what follows the separators at the start. -/
theorem squashLeading_sep (c : Char) (s : List Char) (hc : isSep Platform.win32 c = true) :
    ∃ c', isSep Platform.win32 c' = true ∧
      squashLeading (c :: s) = c' :: s.dropWhile (isSep Platform.win32) := by
  cases s with
  | nil => exact ⟨c, hc, by simp [squashLeading, List.takeWhile, hc]⟩
  | cons d ds =>
    by_cases hd : isSep Platform.win32 d = true
    · refine ⟨'\\', rfl, ?_⟩
      simp [squashLeading, List.takeWhile, hc, hd, List.dropWhile]
    · refine ⟨c, hc, ?_⟩
      have hd' : isSep Platform.win32 d = false := by simpa using hd
      simp [squashLeading, List.takeWhile, hc, hd', List.dropWhile]

/-- A path that starts with a character other than a separator does not start
with two separators. -/
theorem startsUnc_of_head (c : Char) (s : List Char) (h : isSep Platform.win32 c = false) :
    startsUnc (some (c :: s)) = false := by
  rcases s with _ | ⟨d, _ | ⟨e, r⟩⟩
  · rfl
  · rfl
  · simp [startsUnc, h]

/-- A path whose second character is not a separator does not start with two
separators. -/
theorem startsUnc_of_second (c d : Char) (s : List Char)
    (h : isSep Platform.win32 d = false) : startsUnc (some (c :: d :: s)) = false := by
  rcases s with _ | ⟨e, r⟩
  · rfl
  · simp [startsUnc, h]

/-- The Windows `splitPath` of a path without device that starts with a
separator. -/
theorem splitPath_win32_sep (c : Char) (s : List Char) (hc : isSep Platform.win32 c = true)
    (hsd : splitDevice (c :: s) = ([], c :: s)) :
    splitPath Platform.win32 (c :: s) =
      { device := [], unc := false, absolute := true, tail := s } := by
  simp [splitPath, hsd, isUncDevice, hc]

/-- The Windows `splitPath` of a path without device that starts with another
character. -/
theorem splitPath_win32_plain (c : Char) (s : List Char) (hc : isSep Platform.win32 c = false)
    (hsd : splitDevice (c :: s) = ([], c :: s)) :
    splitPath Platform.win32 (c :: s) =
      { device := [], unc := false, absolute := false, tail := c :: s } := by
  simp [splitPath, hsd, isUncDevice, hc]

end NodePath

/-- `path.normalize` of a path without UNC root whose last piece is a
directory entry: the result is an ordinary path with the same device (a drive
letter in lower case), the same absoluteness, and as pieces the normalised
pieces before the entry, followed by the entry. -/
theorem normalize_child (P : Platform) (j dev t : List Char) (abs : Bool)
    (A : List (List Char)) (n : List Char)
    (hs : NodePath.splitPath P j = { device := dev, unc := false, absolute := abs, tail := t })
    (hpieces : NodePath.pieces P t = A ++ [n])
    (htrail : NodePath.trailingSlash P t = false)
    (hn : Entry P n)
    (hdev : dev = [] ∨
      (P = Platform.win32 ∧ abs = true ∧ ∃ a : Char, dev = [a, ':'] ∧ a.isAlpha = true))
    (hcolon : P = Platform.win32 → ∀ w ∈ A, ':' ∉ w) :
    Ordinary P (NodePath.normalize P j) ∧
    (NodePath.splitPath P (NodePath.normalize P j)).unc = false ∧
    (NodePath.splitPath P (NodePath.normalize P j)).absolute = abs ∧
    (NodePath.splitPath P (NodePath.normalize P j)).device.map Char.toLower =
      dev.map Char.toLower ∧
    NodePath.pieces P (NodePath.splitPath P (NodePath.normalize P j)).tail =
      NodePath.normalizeArray A (!abs) ++ [n] := by
  obtain ⟨hnplain, hn1, hn2, hncolon⟩ := hn
  have hparts : NodePath.normalizeArray (NodePath.pieces P t) (!abs) =
      NodePath.normalizeArray A (!abs) ++ [n] := by
    rw [hpieces, NodePath.normalizeArray_snoc _ _ _ hn1 hn2]
  have hAplain : ∀ w ∈ A, NodePath.Plain P w := by
    intro w hw
    exact NodePath.pieces_plain P t w (by rw [hpieces]; exact List.mem_append_left _ hw)
  have hplain : ∀ w ∈ NodePath.normalizeArray A (!abs) ++ [n], NodePath.Plain P w := by
    intro w hw
    rcases List.mem_append.mp hw with hw | hw
    · rcases NodePath.normalizeArray_mem _ _ w hw with h | h
      · exact hAplain w h
      · rw [h]; exact NodePath.plain_dotdot P
    · rw [List.mem_singleton.mp hw]; exact hnplain
  obtain ⟨j0, rest, hJ, hj0⟩ := NodePath.joinWith_head_plain P (NodePath.sep P)
    (NodePath.normalizeArray A (!abs) ++ [n]) (by simp) hplain
  have hpJ : NodePath.pieces P (j0 :: rest) = NodePath.normalizeArray A (!abs) ++ [n] := by
    rw [← hJ]
    exact NodePath.pieces_joinWith P _ (NodePath.isSep_sep P) _ hplain
  have hnorm : NodePath.normalize P j =
      (if dev[1]? == some ':' then NodePath.lowerDrive dev else dev) ++
        (if abs then [NodePath.sep P] else []) ++ (j0 :: rest) := by
    rw [NodePath.normalize_of_split P j dev t abs hs htrail (by rw [hparts, hJ]; rfl), hparts, hJ]
  have hJcolon : P = Platform.win32 → ∀ c ∈ j0 :: rest, c ≠ ':' := by
    intro hP c hc h
    subst h
    rw [← hJ] at hc
    rcases NodePath.mem_joinWith _ _ _ hc with h | ⟨w, hw, hcw⟩
    · subst hP; revert h; decide
    · rcases List.mem_append.mp hw with hw | hw
      · rcases NodePath.normalizeArray_mem _ _ w hw with h | h
        · exact hcolon hP w h hcw
        · rw [h] at hcw; revert hcw; decide
      · rw [List.mem_singleton.mp hw] at hcw
        exact hncolon hP hcw
  rw [hnorm]
  cases P with
  | posix =>
    have hdev0 : dev = [] := by
      rcases hdev with h | ⟨h, _⟩
      · exact h
      · cases h
    subst hdev0
    cases abs with
    | true =>
      refine ⟨⟨by simp, fun h => by cases h⟩, rfl, rfl, rfl, ?_⟩
      show NodePath.pieces Platform.posix ('/' :: j0 :: rest) = _
      rw [NodePath.pieces_cons_sep Platform.posix '/' _ rfl, hpJ]
    | false =>
      have hj : (j0 == '/') = false := hj0
      refine ⟨⟨by simp, fun h => by cases h⟩, rfl, ?_, rfl, hpJ⟩
      show ((j0 :: rest).head? == some '/') = false
      simpa using hj
  | win32 =>
    have hj0c : j0 ≠ ':' := hJcolon rfl j0 (List.mem_cons_self _ _)
    have htailc : ':' ∉ j0 :: rest := fun h => hJcolon rfl ':' h rfl
    rcases hdev with hdev0 | ⟨_, habs, a, hda, haAlpha⟩
    · subst hdev0
      cases abs with
      | true =>
        have hy : (if ([] : List Char)[1]? == some ':' then NodePath.lowerDrive [] else []) ++
            (if true = true then [NodePath.sep Platform.win32] else []) ++ (j0 :: rest) =
            '\\' :: j0 :: rest := rfl
        rw [hy]
        have hstart : NodePath.startsUnc (some ('\\' :: j0 :: rest)) = false := by
          cases rest with
          | nil => rfl
          | cons r0 rs => simp [NodePath.startsUnc, hj0]
        have hsd : NodePath.splitDevice ('\\' :: j0 :: rest) = ([], '\\' :: j0 :: rest) :=
          NodePath.splitDevice_plain _ (by simpa using hj0c) hstart
        have hsp : NodePath.splitPath Platform.win32 ('\\' :: j0 :: rest) =
            { device := [], unc := false, absolute := true, tail := j0 :: rest } := by
          simp [NodePath.splitPath, hsd, NodePath.isUncDevice, NodePath.isSep]
        rw [hsp]
        exact ⟨⟨by simp, fun _ => ⟨hstart, by rw [hsp]; exact Or.inl rfl,
          by rw [hsp]; exact htailc⟩⟩, rfl, rfl, rfl, hpJ⟩
      | false =>
        have hy : (if ([] : List Char)[1]? == some ':' then NodePath.lowerDrive [] else []) ++
            (if false = true then [NodePath.sep Platform.win32] else []) ++ (j0 :: rest) =
            j0 :: rest := rfl
        rw [hy]
        have hstart : NodePath.startsUnc (some (j0 :: rest)) = false := by
          rcases rest with _ | ⟨r0, _ | ⟨r1, rs⟩⟩
          · rfl
          · rfl
          · simp [NodePath.startsUnc, hj0]
        have h1 : (j0 :: rest)[1]? ≠ some ':' := by
          cases rest with
          | nil => simp
          | cons r0 rs =>
            have : r0 ≠ ':' := hJcolon rfl r0 (by simp)
            simpa using this
        have hsd : NodePath.splitDevice (j0 :: rest) = ([], j0 :: rest) :=
          NodePath.splitDevice_plain _ h1 hstart
        have hsp : NodePath.splitPath Platform.win32 (j0 :: rest) =
            { device := [], unc := false, absolute := false, tail := j0 :: rest } := by
          simp [NodePath.splitPath, hsd, NodePath.isUncDevice, hj0]
        rw [hsp]
        exact ⟨⟨by simp, fun _ => ⟨hstart, by rw [hsp]; exact Or.inl rfl,
          by rw [hsp]; exact htailc⟩⟩, rfl, rfl, rfl, hpJ⟩
    · subst habs hda
      have hy : (if ([a, ':'] : List Char)[1]? == some ':' then NodePath.lowerDrive [a, ':']
            else [a, ':']) ++
          (if true = true then [NodePath.sep Platform.win32] else []) ++ (j0 :: rest) =
          a.toLower :: ':' :: '\\' :: j0 :: rest := rfl
      rw [hy]
      have haL : a.toLower.isAlpha = true := NodePath.isAlpha_toLower a haAlpha
      have hsepL : NodePath.isSep Platform.win32 a.toLower = false :=
        NodePath.isSep_of_isAlpha _ _ haL
      have hstart : NodePath.startsUnc (some (a.toLower :: ':' :: '\\' :: j0 :: rest)) = false := by
        simp [NodePath.startsUnc, hsepL]
      have hsp : NodePath.splitPath Platform.win32 (a.toLower :: ':' :: '\\' :: j0 :: rest) =
          { device := [a.toLower, ':'], unc := false, absolute := true, tail := j0 :: rest } := by
        simp [NodePath.splitPath, NodePath.splitDevice_drive _ _ haL, NodePath.isUncDevice,
          NodePath.isSep]
      rw [hsp]
      refine ⟨⟨by simp, fun _ => ⟨hstart, by rw [hsp]; exact Or.inr rfl,
        by rw [hsp]; exact htailc⟩⟩, rfl, rfl, ?_, hpJ⟩
      simp [NodePath.toLower_toLower]

/-- The two arguments of `path.join(dir, file)` put together, for an ordinary
directory path and a directory entry: the string that is normalised has the
device and the absoluteness of the directory, and as pieces those of the
directory followed by the entry. -/
theorem join_split (P : Platform) (x n : List Char) (hx : Ordinary P x) (hn : Entry P n) :
    ∃ j t,
      NodePath.join P [x, n] = NodePath.normalize P j ∧
      NodePath.splitPath P j =
        { device := (NodePath.splitPath P x).device, unc := false,
          absolute := (NodePath.splitPath P x).absolute, tail := t } ∧
      NodePath.pieces P t = NodePath.pieces P (NodePath.splitPath P x).tail ++ [n] ∧
      NodePath.trailingSlash P t = false ∧
      (NodePath.splitPath P x).unc = false ∧
      ((NodePath.splitPath P x).device = [] ∨
        (P = Platform.win32 ∧ (NodePath.splitPath P x).absolute = true ∧
          ∃ a : Char, (NodePath.splitPath P x).device = [a, ':'] ∧ a.isAlpha = true)) := by
  obtain ⟨hxne, hxw⟩ := hx
  obtain ⟨hnplain, _, _, hncolon⟩ := hn
  have hxe : x.isEmpty = false := by
    cases x with
    | nil => exact absurd rfl hxne
    | cons _ _ => rfl
  have hne : n.isEmpty = false := by
    cases n with
    | nil => exact absurd rfl hnplain.1
    | cons _ _ => rfl
  have hfilter : [x, n].filter (fun p => !p.isEmpty) = [x, n] := by
    simp [hxe, hne]
  have hpn : NodePath.pieces P n = [n] := NodePath.pieces_plain_self P n hnplain
  cases P with
  | posix =>
    refine ⟨x ++ '/' :: n, x ++ '/' :: n, ?_, ?_, ?_, ?_, rfl, Or.inl rfl⟩
    · unfold NodePath.join
      simp only [hfilter]
      rw [NodePath.joinWith_cons_cons, NodePath.joinWith_singleton]
      rfl
    · cases x with
      | nil => exact absurd rfl hxne
      | cons c cs => rfl
    · rw [NodePath.pieces_append_sep Platform.posix x n '/' rfl, hpn]
      rfl
    · have := NodePath.trailingSlash_append_plain Platform.posix (x ++ ['/']) n hnplain
      simpa using this
  | win32 =>
    obtain ⟨hstart, hform, hcol⟩ := hxw rfl
    have hjoin : NodePath.join Platform.win32 [x, n] =
        NodePath.normalize Platform.win32 (NodePath.squashLeading (x ++ '\\' :: n)) := by
      unfold NodePath.join
      simp only [hfilter, List.head?_cons, hstart, Bool.false_eq_true, if_false]
      rw [NodePath.joinWith_cons_cons, NodePath.joinWith_singleton]
      rfl
    have htrail : ∀ pre : List Char,
        NodePath.trailingSlash Platform.win32 (pre ++ '\\' :: n) = false := by
      intro pre
      have := NodePath.trailingSlash_append_plain Platform.win32 (pre ++ ['\\']) n hnplain
      simpa using this
    cases x with
    | nil => exact absurd rfl hxne
    | cons c t =>
      by_cases h1 : (c :: t)[1]? = some ':'
      · obtain ⟨rest, rfl⟩ : ∃ rest, t = ':' :: rest := by
          cases t with
          | nil => simp at h1
          | cons d ds =>
            simp only [List.getElem?_cons_succ, List.getElem?_cons_zero, Option.some.injEq] at h1
            exact ⟨ds, by rw [h1]⟩
        by_cases ha : c.isAlpha = true
        · have hsd := NodePath.splitDevice_drive c rest ha
          have hcsep := NodePath.isSep_of_isAlpha Platform.win32 c ha
          cases rest with
          | nil =>
            exfalso
            have hsp : NodePath.splitPath Platform.win32 [c, ':'] =
                { device := [c, ':'], unc := false, absolute := false, tail := [] } := by
              simp [NodePath.splitPath, hsd, NodePath.isUncDevice]
            rw [hsp] at hform
            simp at hform
          | cons d tl =>
            by_cases hd : NodePath.isSep Platform.win32 d = true
            · have hsp : NodePath.splitPath Platform.win32 (c :: ':' :: d :: tl) =
                  { device := [c, ':'], unc := false, absolute := true, tail := tl } := by
                simp [NodePath.splitPath, hsd, NodePath.isUncDevice, hd]
              refine ⟨c :: ':' :: d :: (tl ++ '\\' :: n), tl ++ '\\' :: n, ?_, ?_, ?_, ?_, ?_, ?_⟩
              · rw [hjoin]
                exact congrArg _ (NodePath.squashLeading_plain c _ hcsep)
              · rw [hsp]
                simp [NodePath.splitPath, NodePath.splitDevice_drive _ _ ha,
                  NodePath.isUncDevice, hd]
              · rw [hsp, NodePath.pieces_append_sep Platform.win32 tl n '\\' rfl, hpn]
              · exact htrail tl
              · rw [hsp]
              · rw [hsp]
                exact Or.inr ⟨rfl, rfl, c, rfl, ha⟩
            · exfalso
              have hd' : NodePath.isSep Platform.win32 d = false := by simpa using hd
              have hsp : NodePath.splitPath Platform.win32 (c :: ':' :: d :: tl) =
                  { device := [c, ':'], unc := false, absolute := false, tail := d :: tl } := by
                simp [NodePath.splitPath, hsd, NodePath.isUncDevice, hd']
              rw [hsp] at hform
              simp at hform
        · exfalso
          have hsd : NodePath.splitDevice (c :: ':' :: rest) = ([], c :: ':' :: rest) := by
            simp [NodePath.splitDevice, ha]
          by_cases hc : NodePath.isSep Platform.win32 c = true
          · rw [NodePath.splitPath_win32_sep c _ hc hsd] at hcol
            exact hcol (List.mem_cons_self _ _)
          · rw [NodePath.splitPath_win32_plain c _ (by simpa using hc) hsd] at hcol
            exact hcol (List.mem_cons_of_mem _ (List.mem_cons_self _ _))
      · have hsd := NodePath.splitDevice_plain _ h1 hstart
        by_cases hc : NodePath.isSep Platform.win32 c = true
        · have hsp := NodePath.splitPath_win32_sep c t hc hsd
          rw [hsp] at hcol
          obtain ⟨c', hc', hsq⟩ := NodePath.squashLeading_sep c (t ++ '\\' :: n) hc
          have hpR : NodePath.pieces Platform.win32
              ((t ++ '\\' :: n).dropWhile (NodePath.isSep Platform.win32)) =
              NodePath.pieces Platform.win32 t ++ [n] := by
            rw [NodePath.pieces_dropWhile,
              NodePath.pieces_append_sep Platform.win32 t n '\\' rfl, hpn]
          cases hR : (t ++ '\\' :: n).dropWhile (NodePath.isSep Platform.win32) with
          | nil =>
            rw [hR] at hpR
            exact absurd hpR (by simp [NodePath.pieces_nil])
          | cons r0 R' =>
            have hr0 : NodePath.isSep Platform.win32 r0 = false :=
              NodePath.dropWhile_head _ _ _ _ hR
            have hr0mem : r0 ∈ t ++ '\\' :: n := by
              have : r0 ∈ (t ++ '\\' :: n).dropWhile (NodePath.isSep Platform.win32) := by
                rw [hR]; exact List.mem_cons_self _ _
              exact (List.dropWhile_sublist _).subset this
            have hr0c : r0 ≠ ':' := by
              intro h
              subst h
              rcases List.mem_append.mp hr0mem with h | h
              · exact hcol h
              · rcases List.mem_cons.mp h with h | h
                · revert h; decide
                · exact hncolon rfl h
            have hsd2 : NodePath.splitDevice (c' :: r0 :: R') = ([], c' :: r0 :: R') :=
              NodePath.splitDevice_plain _ (by simpa using hr0c)
                (NodePath.startsUnc_of_second _ _ _ hr0)
            refine ⟨c' :: r0 :: R', r0 :: R', ?_, ?_, ?_, ?_, ?_, ?_⟩
            · rw [hjoin]
              refine congrArg _ ?_
              rw [← hR]
              exact hsq
            · rw [hsp]
              exact NodePath.splitPath_win32_sep c' _ hc' hsd2
            · rw [hsp, ← hR]
              exact hpR
            · have hne2 : (t ++ '\\' :: n).dropWhile (NodePath.isSep Platform.win32) ≠ [] := by
                rw [hR]; simp
              have := NodePath.getLast?_dropWhile _ _ hne2
              unfold NodePath.trailingSlash
              rw [← hR, this]
              exact htrail t
            · rw [hsp]
            · rw [hsp]
              exact Or.inl rfl
        · have hc' : NodePath.isSep Platform.win32 c = false := by simpa using hc
          have hsp := NodePath.splitPath_win32_plain c t hc' hsd
          have h2 : (c :: (t ++ '\\' :: n))[1]? ≠ some ':' := by
            cases t with
            | nil => simp
            | cons d ds => simpa using h1
          have hsd2 : NodePath.splitDevice (c :: (t ++ '\\' :: n)) =
              ([], c :: (t ++ '\\' :: n)) :=
            NodePath.splitDevice_plain _ h2 (NodePath.startsUnc_of_head _ _ hc')
          refine ⟨c :: (t ++ '\\' :: n), c :: (t ++ '\\' :: n), ?_, ?_, ?_, ?_, ?_, ?_⟩
          · rw [hjoin]
            exact congrArg _ (NodePath.squashLeading_plain c _ hc')
          · rw [hsp]
            exact NodePath.splitPath_win32_plain c _ hc' hsd2
          · rw [hsp]
            have := NodePath.pieces_append_sep Platform.win32 (c :: t) n '\\' rfl
            rw [hpn] at this
            exact this
          · exact htrail (c :: t)
          · rw [hsp]
          · rw [hsp]
            exact Or.inl rfl

/-- One step of the walk: for an ordinary directory path that resolves to an
absolute path and an entry of the directory, `path.join(dir, file)` is again
an ordinary path, and it resolves to the same device and to the parts of the
directory followed by the entry. -/
theorem join_child (P : Platform) (cwd : List Char) (env : List Char → Option (List Char))
    (x n : List Char) (hx : Ordinary P x) (hn : Entry P n)
    (habs : (NodePath.resolved P cwd env [x]).absolute = true) :
    Ordinary P (NodePath.join P [x, n]) ∧
    (NodePath.resolved P cwd env [NodePath.join P [x, n]]).absolute = true ∧
    (NodePath.resolved P cwd env [NodePath.join P [x, n]]).device.map Char.toLower =
      (NodePath.resolved P cwd env [x]).device.map Char.toLower ∧
    (NodePath.resolved P cwd env [NodePath.join P [x, n]]).parts =
      (NodePath.resolved P cwd env [x]).parts ++ [n] := by
  obtain ⟨j, t, hjoin, hsplit, hpieces, htrail, hunc, hdev⟩ := join_split P x n hx hn
  have hcolon : P = Platform.win32 →
      ∀ w ∈ NodePath.pieces P (NodePath.splitPath P x).tail, ':' ∉ w := by
    intro hP w hw h
    subst hP
    exact (hx.2 rfl).2.2 (NodePath.pieces_chars _ _ w hw ':' h)
  have hc := normalize_child P j _ t _ _ n hsplit hpieces htrail hn hdev hcolon
  rw [← hjoin] at hc
  obtain ⟨hord, hyunc, hyabs, hydev, hyparts⟩ := hc
  have hform : (NodePath.splitPath P x).device = [] ∨
      (NodePath.splitPath P x).absolute = true := by
    rcases hdev with h | ⟨_, h, _⟩
    · exact Or.inl h
    · exact Or.inr h
  exact ⟨hord, NodePath.resolved_child P cwd env x _ n hx.1 hord.1 hunc hform hyunc hyabs hydev
    hyparts hn.2.1 hn.2.2.1 habs⟩

/-- The walk from an ordinary root that resolves to an absolute path: the path
it collects through the entries `names` is ordinary and resolves to the device
of the root and to the parts of the root followed by `names`. -/
theorem collected_resolved (P : Platform) (cwd : List Char)
    (env : List Char → Option (List Char)) (names : List (List Char)) :
    ∀ x : List Char, Ordinary P x → (NodePath.resolved P cwd env [x]).absolute = true →
      (∀ n ∈ names, Entry P n) →
      Ordinary P (collected P x names) ∧
      (NodePath.resolved P cwd env [collected P x names]).absolute = true ∧
      (NodePath.resolved P cwd env [collected P x names]).device.map Char.toLower =
        (NodePath.resolved P cwd env [x]).device.map Char.toLower ∧
      (NodePath.resolved P cwd env [collected P x names]).parts =
        (NodePath.resolved P cwd env [x]).parts ++ names := by
  induction names with
  | nil =>
    intro x hx habs _
    exact ⟨hx, habs, rfl, by simp [collected]⟩
  | cons n rest ih =>
    intro x hx habs hnames
    obtain ⟨hord, h1, h2, h3⟩ :=
      join_child P cwd env x n hx (hnames n (List.mem_cons_self _ _)) habs
    obtain ⟨ho, g1, g2, g3⟩ :=
      ih (NodePath.join P [x, n]) hord h1 (fun m hm => hnames m (List.mem_cons_of_mem _ hm))
    have hcol : collected P x (n :: rest) = collected P (NodePath.join P [x, n]) rest := rfl
    rw [hcol]
    refine ⟨ho, g1, g2.trans h2, ?_⟩
    rw [g3, h3]
    simp

/-- Every path the walk collects lies below the site root: for an ordinary
root that resolves to an absolute path not on a UNC share, and directory
entries `names` that lead from the root to a file or directory, the collected
path `path.join(... path.join(root, n1) ..., nk)` is below the root with the
components `names`. -/
theorem collected_below (P : Platform) (cwd : List Char)
    (env : List Char → Option (List Char)) (directory : List Char) (names : List (List Char))
    (hroot : Ordinary P directory)
    (habs : (NodePath.resolved P cwd env [directory]).absolute = true)
    (hdev : deviceOk P (NodePath.resolved P cwd env [directory]).device = true)
    (hne : names ≠ []) (hnames : ∀ n ∈ names, Entry P n) :
    Below P cwd env directory (collected P directory names) names := by
  obtain ⟨_, g1, g2, g3⟩ := collected_resolved P cwd env names directory hroot habs hnames
  exact ⟨habs, g1, hdev, g2, g3, hne⟩

/-- The remote path of every path the walk collects from an ordinary root that
resolves to an absolute path not on a UNC share: `/site/wwwroot/` followed by
the entries that lead from the root to it, joined by forward slashes. -/
theorem remotePath_collected (P : Platform) (cwd : List Char)
    (env : List Char → Option (List Char)) (directory : List Char) (names : List (List Char))
    (hroot : Ordinary P directory)
    (habs : (NodePath.resolved P cwd env [directory]).absolute = true)
    (hdev : deviceOk P (NodePath.resolved P cwd env [directory]).device = true)
    (hne : names ≠ []) (hnames : ∀ n ∈ names, Entry P n) :
    remotePath P cwd env directory (collected P directory names) =
      "/site/wwwroot/".toList ++ NodePath.joinWith '/' (names.map backslashesToSlashes) := by
  have hb := collected_below P cwd env directory names hroot habs hdev hne hnames
  exact remotePath_of_relative P cwd env directory _ names hne
    (relative_of_below P cwd env directory _ names hb).2
    (relative_of_below P cwd env directory _ names hb).1

/-- The path `onFile` builds for an entry of a collected directory is the
collected path with one more name. -/
theorem joinPath_collected (host : Host) (root : List Char) (names : List (List Char))
    (file : String) :
    joinPath host (String.mk (collected host.platform root names)) file =
      String.mk (collected host.platform root (names ++ [file.toList])) := by
  simp [joinPath, collected, List.foldl_append]

/-- Every file and directory path of a tree below a collected directory is a
collected path, reached through the names that lead to the directory and at
least one more entry. -/
theorem forest_paths_collected (host : Host) (root : List Char) (t : Forest) :
    ∀ names : List (List Char), (∀ n ∈ names, Entry host.platform n) →
      Forest.Entries host.platform t →
      ∀ p ∈ Forest.files host (String.mk (collected host.platform root names)) t ++
          Forest.dirs host (String.mk (collected host.platform root names)) t,
        ∃ more : List (List Char), more ≠ [] ∧ (∀ n ∈ names ++ more, Entry host.platform n) ∧
          p = String.mk (collected host.platform root (names ++ more)) := by
  induction t with
  | nil =>
    intro names _ _ p hp
    simp [Forest.files, Forest.dirs] at hp
  | file name rest ih =>
    intro names hnames hent p hp
    obtain ⟨hname, hrest⟩ := hent
    simp only [Forest.files, Forest.dirs, List.cons_append, List.mem_cons] at hp
    rcases hp with rfl | hp
    · refine ⟨[name.toList], by simp, ?_, joinPath_collected host root names name⟩
      intro n hn
      rcases List.mem_append.mp hn with h | h
      · exact hnames n h
      · rw [List.mem_singleton.mp h]; exact hname
    · exact ih names hnames hrest p hp
  | dir name children rest ihc ihr =>
    intro names hnames hent p hp
    obtain ⟨hname, hchildren, hrest⟩ := hent
    have hnames2 : ∀ n ∈ names ++ [name.toList], Entry host.platform n := by
      intro n hn
      rcases List.mem_append.mp hn with h | h
      · exact hnames n h
      · rw [List.mem_singleton.mp h]; exact hname
    simp only [Forest.files, Forest.dirs, joinPath_collected, List.mem_append, List.mem_cons] at hp
    have hchild : ∀ q ∈ Forest.files host
          (String.mk (collected host.platform root (names ++ [name.toList]))) children ++
        Forest.dirs host
          (String.mk (collected host.platform root (names ++ [name.toList]))) children,
        ∃ more : List (List Char), more ≠ [] ∧ (∀ n ∈ names ++ more, Entry host.platform n) ∧
          q = String.mk (collected host.platform root (names ++ more)) := by
      intro q hq
      obtain ⟨more, _, hm, hq2⟩ := ihc (names ++ [name.toList]) hnames2 hchildren q hq
      refine ⟨name.toList :: more, by simp, ?_, ?_⟩
      · intro n hn
        exact hm n (by simpa using hn)
      · rw [hq2]
        simp
    rcases hp with (hp | hp) | hp | hp | hp
    · exact hchild p (List.mem_append_left _ hp)
    · exact ihr names hnames hrest p (List.mem_append_left _ hp)
    · exact ⟨[name.toList], by simp, hnames2, hp⟩
    · exact hchild p (List.mem_append_right _ hp)
    · exact ihr names hnames hrest p (List.mem_append_right _ hp)

/-- The remote path of every file and directory the walk collects for a tree
below an ordinary site root that resolves to an absolute path not on a UNC
share: `/site/wwwroot/` followed by the entries that lead from the root to it,
joined by forward slashes. -/
theorem remoteOf_walked (host : Host) (root : String) (t : Forest)
    (hroot : Ordinary host.platform root.toList)
    (habs : (NodePath.resolved host.platform host.cwd.toList host.env [root.toList]).absolute
      = true)
    (hdev : deviceOk host.platform
      (NodePath.resolved host.platform host.cwd.toList host.env [root.toList]).device = true)
    (hent : Forest.Entries host.platform t) :
    ∀ p ∈ Forest.files host root t ++ Forest.dirs host root t,
      ∃ names : List (List Char), names ≠ [] ∧
        p = String.mk (collected host.platform root.toList names) ∧
        remoteOf host root p =
          String.mk ("/site/wwwroot/".toList ++
            NodePath.joinWith '/' (names.map backslashesToSlashes)) := by
  intro p hp
  obtain ⟨more, hne, hm, hp2⟩ :=
    forest_paths_collected host root.toList t [] (by simp) hent p hp
  simp only [List.nil_append] at hm hp2
  refine ⟨more, hne, hp2, ?_⟩
  rw [hp2]
  unfold remoteOf
  exact congrArg String.mk
    (remotePath_collected host.platform host.cwd.toList host.env root.toList more hroot habs hdev
      hne hm)

/-- The file `css/a.css` as the walk collects it: below the root `C:\site`
with the Windows variant and below the root `site` with the POSIX variant it
is mapped to `/site/wwwroot/css/a.css`. -/
theorem remotePath_collected_example :
    remotePath Platform.win32 "C:\\Users\\u".toList noDriveCwd "C:\\site".toList
      (collected Platform.win32 "C:\\site".toList ["css".toList, "a.css".toList]) =
      "/site/wwwroot/css/a.css".toList ∧
    remotePath Platform.posix "/home/u".toList noDriveCwd "site".toList
      (collected Platform.posix "site".toList ["css".toList, "a.css".toList]) =
      "/site/wwwroot/css/a.css".toList :=
  ⟨remotePath_collected Platform.win32 "C:\\Users\\u".toList noDriveCwd "C:\\site".toList
      ["css".toList, "a.css".toList] (by unfold Ordinary; decide) (by decide) (by decide)
      (by decide) (by unfold Entry NodePath.Plain; decide),
   remotePath_collected Platform.posix "/home/u".toList noDriveCwd "site".toList
      ["css".toList, "a.css".toList] (by unfold Ordinary; decide) (by decide) (by decide)
      (by decide) (by unfold Entry NodePath.Plain; decide)⟩

/-- The example site: every file and directory the walk collects below `site`
is mapped to `/site/wwwroot/` followed by its entries. -/
theorem remoteOf_walked_example :
    ∀ p ∈ Forest.files exampleHost "site" exampleTree ++
        Forest.dirs exampleHost "site" exampleTree,
      ∃ names : List (List Char), names ≠ [] ∧
        p = String.mk (collected exampleHost.platform "site".toList names) ∧
        remoteOf exampleHost "site" p =
          String.mk ("/site/wwwroot/".toList ++
            NodePath.joinWith '/' (names.map backslashesToSlashes)) :=
  remoteOf_walked exampleHost "site" exampleTree (by unfold Ordinary; decide) (by decide)
    (by decide)
    (by
      simp only [exampleTree, Forest.Entries, and_true]
      refine ⟨?_, ⟨?_, ?_⟩, ?_, ?_, ?_⟩ <;> (unfold Entry NodePath.Plain; decide))

/-! ## C5: directories before files -/

/-- Successful answers are among the answers. -/
theorem countP_mkdirOk_le (log : List FtpEvent) :
    log.countP FtpEvent.isMkdirOk ≤ log.countP FtpEvent.isMkdirReturn := by
  induction log with
  | nil => simp
  | cons e rest ih =>
    cases e with
    | mkdirReturn d err => cases err <;> simp [List.countP_cons, FtpEvent.isMkdirOk,
        FtpEvent.isMkdirReturn] <;> omega
    | _ => simpa [List.countP_cons, FtpEvent.isMkdirOk, FtpEvent.isMkdirReturn] using ih

/-- Successful and failed answers together are the answers. -/
theorem countP_mkdirReturn_split (log : List FtpEvent) :
    log.countP FtpEvent.isMkdirReturn =
      log.countP FtpEvent.isMkdirOk + log.countP FtpEvent.isMkdirFailure := by
  induction log with
  | nil => simp
  | cons e rest ih =>
    cases e with
    | mkdirReturn d err => cases err <;> simp [List.countP_cons, FtpEvent.isMkdirOk,
        FtpEvent.isMkdirReturn, FtpEvent.isMkdirFailure] <;> omega
    | _ => simpa [List.countP_cons, FtpEvent.isMkdirOk, FtpEvent.isMkdirReturn,
        FtpEvent.isMkdirFailure] using ih

/-- Where a log extended by further events shows a put call, the directories
were complete before it, provided this held of the log and holds of every put
call among the further events. -/
theorem before_append (n : Nat) (log evs : List FtpEvent)
    (hlog : ∀ pre e post, log = pre ++ e :: post → e.isPutCall = true →
      pre.countP FtpEvent.isMkdirOk = n)
    (hevs : ∀ pre e post, evs = pre ++ e :: post → e.isPutCall = true →
      (log ++ pre).countP FtpEvent.isMkdirOk = n) :
    ∀ pre e post, log ++ evs = pre ++ e :: post → e.isPutCall = true →
      pre.countP FtpEvent.isMkdirOk = n := by
  intro pre e post heq he
  rcases List.append_eq_append_iff.mp heq with ⟨a, hpre, hevs2⟩ | ⟨c, hlog2, hc⟩
  · rw [hpre]
    exact hevs a e post hevs2 he
  · cases c with
    | nil =>
      simp only [List.nil_append] at hc
      simp only [List.append_nil] at hlog2
      rw [← hlog2]
      simpa using hevs [] e post hc.symm he
    | cons x c2 =>
      simp only [List.cons_append, List.cons.injEq] at hc
      obtain ⟨rfl, _⟩ := hc
      exact hlog pre e c2 hlog2 he

/-- Events that satisfy no marker do not change a count. -/
theorem countP_append_quiet (p : FtpEvent → Bool) (log evs : List FtpEvent)
    (h : ∀ x ∈ evs, p x = false) : (log ++ evs).countP p = log.countP p := by
  have hz : evs.countP p = 0 := List.countP_eq_zero.mpr (fun x hx => by simp [h x hx])
  rw [List.countP_append, hz]
  rfl

/-- Removing a pending call lowers the count of a marker it satisfies by one
and leaves the count of any other marker. -/
theorem countP_eraseIdx {α : Type} (p : α → Bool) (l : List α) (i : Nat) (op : α)
    (h : l.get? i = some op) :
    (l.eraseIdx i).countP p + (if p op then 1 else 0) = l.countP p := by
  induction l generalizing i with
  | nil => simp at h
  | cons a rest ih =>
    cases i with
    | zero =>
      simp only [List.get?_cons_zero, Option.some.injEq] at h
      subst h
      simp only [List.eraseIdx_cons_zero, List.countP_cons]
    | succ j =>
      simp only [List.get?_cons_succ] at h
      simp only [List.eraseIdx_cons_succ, List.countP_cons]
      have := ih j h
      omega

/-- Events that are no mkdir answers add no answered directory. -/
theorem filterMap_returnedDir_quiet (log evs : List FtpEvent)
    (h : ∀ x ∈ evs, x.isMkdirReturn = false) :
    (log ++ evs).filterMap FtpEvent.returnedDir = log.filterMap FtpEvent.returnedDir := by
  rw [List.filterMap_append]
  have : evs.filterMap FtpEvent.returnedDir = [] := by
    rw [List.filterMap_eq_nil_iff]
    intro x hx
    have := h x hx
    cases x <;> first | rfl | cases this
  rw [this, List.append_nil]

/-- The pending mkdir calls are counted by their directories. -/
theorem countP_isMkdir_eq (l : List FtpOp) :
    l.countP FtpOp.isMkdir = (l.filterMap FtpOp.mkdirDir).length := by
  induction l with
  | nil => rfl
  | cons a rest ih =>
    cases a <;> simp [List.countP_cons, FtpOp.isMkdir, FtpOp.mkdirDir, List.filterMap_cons, ih]

/-- Equal directories of pending mkdir calls, equal counts. -/
theorem countP_isMkdir_congr (l l2 : List FtpOp)
    (h : l.filterMap FtpOp.mkdirDir = l2.filterMap FtpOp.mkdirDir) :
    l.countP FtpOp.isMkdir = l2.countP FtpOp.isMkdir := by
  rw [countP_isMkdir_eq, countP_isMkdir_eq, h]

/-- Removing a pending call removes its directory, if it is a mkdir call. -/
theorem filterMap_eraseIdx (l : List FtpOp) (i : Nat) (op : FtpOp)
    (h : l.get? i = some op) :
    List.Perm ((op.mkdirDir.toList) ++ (l.eraseIdx i).filterMap FtpOp.mkdirDir)
      (l.filterMap FtpOp.mkdirDir) := by
  induction l generalizing i with
  | nil => simp at h
  | cons a rest ih =>
    cases i with
    | zero =>
      simp only [List.get?_cons_zero, Option.some.injEq] at h
      subst h
      simp only [List.eraseIdx_cons_zero]
      cases a <;> simp [FtpOp.mkdirDir, List.filterMap_cons]
    | succ j =>
      simp only [List.get?_cons_succ] at h
      simp only [List.eraseIdx_cons_succ]
      have := ih j h
      cases a with
      | mkdir d =>
        simp only [List.filterMap_cons, FtpOp.mkdirDir]
        exact List.Perm.trans List.perm_middle (List.Perm.cons _ this)
      | put l r =>
        simpa only [List.filterMap_cons, FtpOp.mkdirDir] using this

/-- Keeping every image is mapping. -/
theorem filterMap_some_map {α β : Type} (f : α → β) (l : List α) :
    l.filterMap (fun x => some (f x)) = l.map f := by
  induction l with
  | nil => rfl
  | cons a rest ih => simp [List.filterMap_cons, ih]

/-- Removing a pending call that is no mkdir call removes no directory. -/
theorem filterMap_eraseIdx_other (l : List FtpOp) (i : Nat) (op : FtpOp)
    (h : l.get? i = some op) (hop : op.mkdirDir = none) :
    (l.eraseIdx i).filterMap FtpOp.mkdirDir = l.filterMap FtpOp.mkdirDir := by
  induction l generalizing i with
  | nil => simp at h
  | cons a rest ih =>
    cases i with
    | zero =>
      simp only [List.get?_cons_zero, Option.some.injEq] at h
      subst h
      simp only [List.eraseIdx_cons_zero, List.filterMap_cons, hop]
    | succ j =>
      simp only [List.get?_cons_succ] at h
      simp only [List.eraseIdx_cons_succ, List.filterMap_cons, ih j h]

/-- The invariant survives events that are neither put calls nor mkdir
answers, with the bookkeeping untouched. -/
theorem TransferInv.quiet {s t : Transfer} (h : TransferInv s) (evs : List FtpEvent)
    (hd : t.ftpDirs = s.ftpDirs) (hh : t.host = s.host) (hdir : t.directory = s.directory)
    (he : t.dirsEach = s.dirsEach)
    (hp' : t.pending.filterMap FtpOp.mkdirDir = s.pending.filterMap FtpOp.mkdirDir)
    (hl : t.log = s.log ++ evs)
    (hq : ∀ x ∈ evs, x.isPutCall = false ∧ x.isMkdirReturn = false ∧ x.isMkdirOk = false) :
    TransferInv t := by
  have c1 := countP_append_quiet FtpEvent.isPutCall s.log evs (fun x hx => (hq x hx).1)
  have c2 := countP_append_quiet FtpEvent.isMkdirReturn s.log evs (fun x hx => (hq x hx).2.1)
  have c3 := countP_append_quiet FtpEvent.isMkdirOk s.log evs (fun x hx => (hq x hx).2.2)
  have c4 := filterMap_returnedDir_quiet s.log evs (fun x hx => (hq x hx).2.1)
  have hp := countP_isMkdir_congr _ _ hp'
  refine ⟨?_, ?_, ?_, ?_, ?_, by rw [hl, c4, hp', hd, hh, hdir]; exact h.dirs⟩
  · rw [he, hd]; exact h.len
  · rw [he, hl, c3]; exact h.completed
  · rw [hl, c2, hp, hd]; exact h.returns
  · rw [hl, c1, c3, hd]; exact h.puts
  · rw [hl, hd]
    refine before_append _ s.log evs h.before ?_
    intro pre e post heq hput
    have : e ∈ evs := by rw [heq]; simp
    rw [(hq e this).1] at hput
    cases hput

/-- The invariant survives the issue of put calls once every directory has
been created. -/
theorem TransferInv.issue {s t : Transfer} (h : TransferInv s) (evs : List FtpEvent)
    (hd : t.ftpDirs = s.ftpDirs) (hh : t.host = s.host) (hdir : t.directory = s.directory)
    (he : t.dirsEach = s.dirsEach)
    (hp' : t.pending.filterMap FtpOp.mkdirDir = s.pending.filterMap FtpOp.mkdirDir)
    (hl : t.log = s.log ++ evs)
    (hall : s.log.countP FtpEvent.isMkdirOk = s.ftpDirs.length)
    (hq : ∀ x ∈ evs, x.isMkdirReturn = false ∧ x.isMkdirOk = false) :
    TransferInv t := by
  have c2 := countP_append_quiet FtpEvent.isMkdirReturn s.log evs (fun x hx => (hq x hx).1)
  have c3 := countP_append_quiet FtpEvent.isMkdirOk s.log evs (fun x hx => (hq x hx).2)
  have c4 := filterMap_returnedDir_quiet s.log evs (fun x hx => (hq x hx).1)
  have hp := countP_isMkdir_congr _ _ hp'
  refine ⟨?_, ?_, ?_, ?_, ?_, by rw [hl, c4, hp', hd, hh, hdir]; exact h.dirs⟩
  · rw [he, hd]; exact h.len
  · rw [he, hl, c3]; exact h.completed
  · rw [hl, c2, hp, hd]; exact h.returns
  · intro _; rw [hl, c3, hd]; exact hall
  · rw [hl, hd]
    refine before_append _ s.log evs h.before ?_
    intro pre e post heq _
    rw [countP_append_quiet]
    · exact hall
    · intro x hx
      exact (hq x (by rw [heq]; exact List.mem_append_left _ hx)).2

/-- The invariant survives the answer to a mkdir call. -/
theorem TransferInv.mkdirReturn {s t : Transfer} (h : TransferInv s) (ftpDir : String)
    (err : Option JsError)
    (hd : t.ftpDirs = s.ftpDirs) (hh : t.host = s.host) (hdir : t.directory = s.directory)
    (he : t.dirsEach = (s.dirsEach.done err).1)
    (hp : t.pending.countP FtpOp.isMkdir + 1 = s.pending.countP FtpOp.isMkdir)
    (hp' : List.Perm (ftpDir :: t.pending.filterMap FtpOp.mkdirDir)
      (s.pending.filterMap FtpOp.mkdirDir))
    (hl : t.log = s.log ++ [FtpEvent.mkdirReturn ftpDir err]) :
    TransferInv t := by
  have c1 : t.log.countP FtpEvent.isPutCall = s.log.countP FtpEvent.isPutCall := by
    rw [hl]; exact countP_append_quiet _ _ _ (by simp [FtpEvent.isPutCall])
  have c2 : t.log.countP FtpEvent.isMkdirReturn = s.log.countP FtpEvent.isMkdirReturn + 1 := by
    rw [hl, List.countP_append]; rfl
  have c3 : t.log.countP FtpEvent.isMkdirOk =
      s.log.countP FtpEvent.isMkdirOk + (if err.isNone then 1 else 0) := by
    rw [hl, List.countP_append]; cases err <;> rfl
  have hlen : t.dirsEach.length = s.dirsEach.length := by
    rw [he]; cases err <;> rfl
  have hcompleted : t.dirsEach.completed =
      s.dirsEach.completed + (if err.isNone then 1 else 0) := by
    rw [he]; cases err <;> rfl
  have hret : t.log.countP FtpEvent.isMkdirReturn + t.pending.countP FtpOp.isMkdir =
      t.ftpDirs.length := by
    rw [c2, hd, ← h.returns]; omega
  have hperm : List.Perm (t.log.filterMap FtpEvent.returnedDir ++
      t.pending.filterMap FtpOp.mkdirDir) (t.ftpDirs.map (remoteOf t.host t.directory)) := by
    rw [hl, hd, hh, hdir, List.filterMap_append]
    refine List.Perm.trans ?_ h.dirs
    simp only [FtpEvent.returnedDir, List.filterMap_cons, List.filterMap_nil,
      List.append_assoc, List.singleton_append]
    exact List.Perm.append_left _ hp'
  refine ⟨?_, ?_, hret, ?_, ?_, hperm⟩
  · rw [hlen, hd]; exact h.len
  · rw [hcompleted, c3, h.completed]
  · intro hput
    rw [c1] at hput
    have h1 := h.puts hput
    have h2 := countP_mkdirOk_le t.log
    rw [hd] at hret ⊢
    rw [c3]
    rw [c3] at h2
    omega
  · rw [hl, hd]
    refine before_append _ s.log _ h.before ?_
    intro pre e post heq hput
    have : e ∈ [FtpEvent.mkdirReturn ftpDir err] := by rw [heq]; simp
    simp only [List.mem_singleton] at this
    subst this
    cases hput

/-- Closing the session and reporting keeps the invariant. -/
theorem TransferInv.onResult {s : Transfer} (h : TransferInv s) (err : Option ErrVal) :
    TransferInv (s.onResult err) := by
  refine h.quiet _ rfl rfl rfl rfl rfl rfl ?_
  intro x hx
  simp only [List.mem_cons, List.mem_singleton, List.not_mem_nil, or_false] at hx
  rcases hx with rfl | rfl
  · exact ⟨rfl, rfl, rfl⟩
  · split <;> exact ⟨rfl, rfl, rfl⟩

/-- Starting the uploads keeps the invariant once every directory has been
created. -/
theorem TransferInv.uploadFTPFiles {s : Transfer} (h : TransferInv s)
    (hall : s.log.countP FtpEvent.isMkdirOk = s.ftpDirs.length) :
    TransferInv s._uploadFTPFiles := by
  unfold Transfer._uploadFTPFiles
  split
  · exact h.onResult none
  · refine h.issue _ rfl rfl rfl rfl ?_ rfl hall ?_
    · simp only [List.filterMap_append, List.append_right_eq_self, List.filterMap_eq_nil_iff,
        List.mem_map]
      rintro op ⟨file, _, rfl⟩
      rfl
    · intro x hx
      obtain ⟨file, _, rfl⟩ := List.mem_map.mp hx
      exact ⟨rfl, rfl⟩

/-- Every answer of the session keeps the invariant. -/
theorem TransferInv.answer {s : Transfer} (h : TransferInv s) (i : Nat) (err : Option JsError) :
    TransferInv (s.answer i err) := by
  unfold Transfer.answer
  split
  · exact h
  · rename_i ftpDir hget
    have herase := countP_eraseIdx FtpOp.isMkdir s.pending i _ hget
    simp only [FtpOp.isMkdir, if_true] at herase
    have h1 : TransferInv
        { s with
          pending := s.pending.eraseIdx i
          dirsEach := (s.dirsEach.done err).1
          log := s.log ++ [FtpEvent.mkdirReturn ftpDir err] } :=
      h.mkdirReturn ftpDir err rfl rfl rfl rfl herase
        (by simpa [FtpOp.mkdirDir] using filterMap_eraseIdx s.pending i _ hget) rfl
    dsimp only
    split
    · exact h1
    · exact h1.onResult _
    · rename_i hcall
      refine h1.uploadFTPFiles ?_
      have hle := countP_mkdirOk_le (s.log ++ [FtpEvent.mkdirReturn ftpDir err])
      have hret := h1.returns
      have hcomp := h1.completed
      have hlen := h1.len
      simp only at hle hret hcomp hlen ⊢
      cases err with
      | some e =>
        simp only [Each.done] at hcall
        split at hcall <;> cases hcall
      | none =>
        simp only [Each.done, ge_iff_le, Bool.and_eq_true, decide_eq_true_eq] at hcall hcomp
        split at hcall
        · rename_i hcond
          rw [← hcomp, ← h.len]
          rw [← h.len] at hret
          omega
        · cases hcall
  · rename_i localFile ftpFile hget
    split
    · exact h
    · rename_i each _
      have herase := countP_eraseIdx FtpOp.isMkdir s.pending i _ hget
      simp only [FtpOp.isMkdir, Bool.false_eq_true, if_false, Nat.add_zero] at herase
      have h1 : TransferInv
          { s with
            pending := s.pending.eraseIdx i
            filesEach := some (each.done err).1
            log := s.log ++ [FtpEvent.putReturn localFile ftpFile err] } := by
        refine h.quiet [FtpEvent.putReturn localFile ftpFile err] rfl rfl rfl rfl ?_ rfl ?_
        · exact filterMap_eraseIdx_other s.pending i _ hget rfl
        intro x hx
        simp only [List.mem_singleton] at hx
        subst hx
        exact ⟨rfl, rfl, rfl⟩
      dsimp only
      split
      · exact h1
      · exact h1.onResult _

/-- Every run keeps the invariant. -/
theorem TransferInv.run {s : Transfer} (h : TransferInv s)
    (answers : List (Nat × Option JsError)) : TransferInv (s.run answers) := by
  induction answers generalizing s with
  | nil => exact h
  | cons a rest ih =>
    obtain ⟨i, err⟩ := a
    exact ih (h.answer i err)

/-- The stage starts in a state that satisfies the invariant. -/
theorem TransferInv.start (host : Host) (directory : String) (ftpDirs ftpFiles : List String) :
    TransferInv (_createFTPDirectories host directory ftpDirs ftpFiles) := by
  unfold _createFTPDirectories
  split
  · rename_i hempty
    have hnil : ftpDirs = [] := List.isEmpty_iff.mp hempty
    subst hnil
    refine TransferInv.uploadFTPFiles ?_ rfl
    refine ⟨rfl, rfl, rfl, ?_, ?_, List.Perm.refl _⟩
    · intro h; simp at h
    · intro pre e post heq; simp at heq
  · refine ⟨rfl, ?_, ?_, ?_, ?_, ?_⟩
    · simp only
      symm
      rw [List.countP_eq_zero]
      intro x hx
      obtain ⟨d, _, rfl⟩ := List.mem_map.mp hx
      simp [createDir, FtpOp.issued, FtpEvent.isMkdirOk]
    · simp only
      have h1 : (ftpDirs.map (fun dir =>
          (createDir host directory dir).issued)).countP FtpEvent.isMkdirReturn
          = 0 := by
        rw [List.countP_eq_zero]
        intro x hx
        obtain ⟨d, _, rfl⟩ := List.mem_map.mp hx
        simp [createDir, FtpOp.issued, FtpEvent.isMkdirReturn]
      have h2 : (ftpDirs.map (createDir host directory)).countP FtpOp.isMkdir
          = ftpDirs.length := by
        rw [List.countP_eq_length.mpr]
        · simp
        · intro x hx
          obtain ⟨d, _, rfl⟩ := List.mem_map.mp hx
          rfl
      rw [h1, h2]; simp
    · intro hput
      simp only at hput
      exfalso
      have : (ftpDirs.map (fun dir =>
          (createDir host directory dir).issued)).countP FtpEvent.isPutCall
          = 0 := by
        rw [List.countP_eq_zero]
        intro x hx
        obtain ⟨d, _, rfl⟩ := List.mem_map.mp hx
        simp [createDir, FtpOp.issued, FtpEvent.isPutCall]
      omega
    · intro pre e post heq hput
      simp only at heq
      have : e ∈ ftpDirs.map (fun dir =>
          (createDir host directory dir).issued) := by rw [heq]; simp
      obtain ⟨d, _, rfl⟩ := List.mem_map.mp this
      cases hput
    · simp only
      have h1 : (ftpDirs.map (fun dir =>
          (createDir host directory dir).issued)).filterMap FtpEvent.returnedDir
          = [] := by
        rw [List.filterMap_eq_nil_iff]
        intro x hx
        obtain ⟨d, _, rfl⟩ := List.mem_map.mp hx
        rfl
      rw [h1, List.nil_append, List.filterMap_map]
      have h2 : (FtpOp.mkdirDir ∘ createDir host directory) =
          fun dir => some (remoteOf host directory dir) := rfl
      rw [h2]
      rw [filterMap_some_map]

/-- Starting the uploads changes neither the collected directories nor where
they go. -/
theorem Transfer.uploadFTPFiles_fixed (s : Transfer) :
    s._uploadFTPFiles.ftpDirs = s.ftpDirs ∧ s._uploadFTPFiles.host = s.host ∧
      s._uploadFTPFiles.directory = s.directory := by
  unfold Transfer._uploadFTPFiles
  split <;> exact ⟨rfl, rfl, rfl⟩

/-- Answers change neither the collected directories nor where they go. -/
theorem Transfer.answer_fixed (s : Transfer) (i : Nat) (err : Option JsError) :
    (s.answer i err).ftpDirs = s.ftpDirs ∧ (s.answer i err).host = s.host ∧
      (s.answer i err).directory = s.directory := by
  unfold Transfer.answer
  split
  · exact ⟨rfl, rfl, rfl⟩
  · dsimp only
    split
    · exact ⟨rfl, rfl, rfl⟩
    · exact ⟨rfl, rfl, rfl⟩
    · exact Transfer.uploadFTPFiles_fixed _
  · split
    · exact ⟨rfl, rfl, rfl⟩
    · dsimp only
      split <;> exact ⟨rfl, rfl, rfl⟩

/-- Runs change neither the collected directories nor where they go. -/
theorem Transfer.run_fixed (s : Transfer) (answers : List (Nat × Option JsError)) :
    (s.run answers).ftpDirs = s.ftpDirs ∧ (s.run answers).host = s.host ∧
      (s.run answers).directory = s.directory := by
  induction answers generalizing s with
  | nil => exact ⟨rfl, rfl, rfl⟩
  | cons a rest ih =>
    obtain ⟨i, err⟩ := a
    obtain ⟨h1, h2, h3⟩ := ih (s.answer i err)
    obtain ⟨g1, g2, g3⟩ := s.answer_fixed i err
    exact ⟨h1.trans g1, h2.trans g2, h3.trans g3⟩

/-- The stage starts with the directories and root it was given. -/
theorem createFTPDirectories_fixed (host : Host) (directory : String)
    (ftpDirs ftpFiles : List String) :
    (_createFTPDirectories host directory ftpDirs ftpFiles).ftpDirs = ftpDirs ∧
    (_createFTPDirectories host directory ftpDirs ftpFiles).host = host ∧
    (_createFTPDirectories host directory ftpDirs ftpFiles).directory = directory := by
  unfold _createFTPDirectories
  split
  · exact Transfer.uploadFTPFiles_fixed _
  · exact ⟨rfl, rfl, rfl⟩

/-- The created directories are counted by the successful answers. -/
theorem length_createdDir (log : List FtpEvent) :
    (log.filterMap FtpEvent.createdDir).length = log.countP FtpEvent.isMkdirOk := by
  induction log with
  | nil => rfl
  | cons e rest ih =>
    cases e with
    | mkdirReturn d err =>
      cases err <;> simp [List.filterMap_cons, FtpEvent.createdDir, List.countP_cons,
        FtpEvent.isMkdirOk, ih]
    | _ => simp [List.filterMap_cons, FtpEvent.createdDir, List.countP_cons,
        FtpEvent.isMkdirOk, ih]

/-- The created directories are among the answered ones, in order. -/
theorem createdDir_sublist (log : List FtpEvent) :
    List.Sublist (log.filterMap FtpEvent.createdDir) (log.filterMap FtpEvent.returnedDir) := by
  induction log with
  | nil => exact List.Sublist.slnil
  | cons e rest ih =>
    cases e with
    | mkdirReturn d err =>
      cases err with
      | none =>
        simp only [List.filterMap_cons, FtpEvent.createdDir, FtpEvent.returnedDir]
        exact List.Sublist.cons₂ _ ih
      | some x =>
        simp only [List.filterMap_cons, FtpEvent.createdDir, FtpEvent.returnedDir]
        exact List.Sublist.cons _ ih
    | _ => simpa only [List.filterMap_cons, FtpEvent.createdDir, FtpEvent.returnedDir] using ih

/-- C5: in every run of the transfer stage after a successful walk, whatever
the order and outcome of the answers of the session: (a) before any put call
is issued, every mkdir call for a collected directory has been answered
successfully: the log before the put call holds as many successful mkdir
answers as there are collected directories, and they are answers for exactly
the remote paths of the collected directories; (b) if any mkdir call fails, no
put call is issued at all. -/
theorem transfer_directories_before_files (host : Host) (directory : String)
    (ftpDirs ftpFiles : List String) (answers : List (Nat × Option JsError)) :
    (∀ pre e post,
      ((_createFTPDirectories host directory ftpDirs ftpFiles).run answers).log =
          pre ++ e :: post →
        e.isPutCall = true →
        pre.countP FtpEvent.isMkdirOk = ftpDirs.length ∧
        List.Perm (pre.filterMap FtpEvent.createdDir)
          (ftpDirs.map (remoteOf host directory))) ∧
    ((∃ e ∈ ((_createFTPDirectories host directory ftpDirs ftpFiles).run answers).log,
        e.isMkdirFailure = true) →
      ∀ e ∈ ((_createFTPDirectories host directory ftpDirs ftpFiles).run answers).log,
        e.isPutCall = false) := by
  have hinv := (TransferInv.start host directory ftpDirs ftpFiles).run answers
  obtain ⟨f1, f2, f3⟩ := createFTPDirectories_fixed host directory ftpDirs ftpFiles
  obtain ⟨g1, g2, g3⟩ :=
    (_createFTPDirectories host directory ftpDirs ftpFiles).run_fixed answers
  have hdirs := g1.trans f1
  have hbefore := hinv.before
  have hret := hinv.returns
  have hputs := hinv.puts
  have hperm := hinv.dirs
  rw [hdirs] at hbefore hret hputs
  rw [hdirs, g2.trans f2, g3.trans f3] at hperm
  generalize ((_createFTPDirectories host directory ftpDirs ftpFiles).run answers) = s at *
  constructor
  · intro pre e post heq hput
    have hcount := hbefore pre e post heq hput
    refine ⟨hcount, ?_⟩
    have hlenAll : (s.log.filterMap FtpEvent.returnedDir).length +
        (s.pending.filterMap FtpOp.mkdirDir).length = ftpDirs.length := by
      have := hperm.length_eq
      simpa using this
    have hsub : List.Sublist (pre.filterMap FtpEvent.createdDir)
        (s.log.filterMap FtpEvent.returnedDir) := by
      refine (createdDir_sublist pre).trans ?_
      rw [heq, List.filterMap_append]
      exact List.sublist_append_left _ _
    have hlenPre : (pre.filterMap FtpEvent.createdDir).length = ftpDirs.length := by
      rw [length_createdDir, hcount]
    have heqList : pre.filterMap FtpEvent.createdDir = s.log.filterMap FtpEvent.returnedDir :=
      hsub.eq_of_length_le (by omega)
    have hpend : s.pending.filterMap FtpOp.mkdirDir = [] := by
      apply List.eq_nil_of_length_eq_zero
      have := hsub.length_le
      omega
    rw [heqList]
    rw [hpend, List.append_nil] at hperm
    exact hperm
  · rintro ⟨e, he, hfail⟩ x hx
    by_contra hput
    have hput' : x.isPutCall = true := by simpa using hput
    have hpos : 0 < s.log.countP FtpEvent.isPutCall :=
      List.countP_pos_iff.mpr ⟨x, hx, hput'⟩
    have hok := hputs hpos
    have hfpos : 0 < s.log.countP FtpEvent.isMkdirFailure :=
      List.countP_pos_iff.mpr ⟨e, he, hfail⟩
    have hsplit := countP_mkdirReturn_split s.log
    omega

/-- A run of the stage on two directories and two files in which the session
answers the second mkdir first: both mkdir answers precede the put calls. -/
theorem transfer_example_run :
    ((_createFTPDirectories exampleHost "site" ["site/css", "site/js"]
        ["site/index.html", "site/css/a.css"]).run
        [(1, none), (0, none), (1, none), (0, none)]).log =
      [ FtpEvent.mkdirCall "/site/wwwroot/css",
        FtpEvent.mkdirCall "/site/wwwroot/js",
        FtpEvent.mkdirReturn "/site/wwwroot/js" none,
        FtpEvent.mkdirReturn "/site/wwwroot/css" none,
        FtpEvent.putCall "/srv/build/site/index.html" "/site/wwwroot/index.html",
        FtpEvent.putCall "/srv/build/site/css/a.css" "/site/wwwroot/css/a.css",
        FtpEvent.putReturn "/srv/build/site/css/a.css" "/site/wwwroot/css/a.css" none,
        FtpEvent.putReturn "/srv/build/site/index.html" "/site/wwwroot/index.html" none,
        FtpEvent.endCall,
        FtpEvent.callback none (some "Files uploaded successfully") ] := by
  decide

/-! ## C9: read and stat failures during the walk -/

/-- C9 (the code at the failing inputs).  (a) The root lists `a` and `b` and
the stat of `b` fails: the walk does not abort; `onStat` never looks at its
`err`, pushes `site/b` onto the file sequence and the walk calls back once
without error.  (b) The read of the root fails: `onDirRead` evaluates
`list.length` before it tests `err`, so the callback throws and the walk's
callback never receives the error. -/
theorem ftpWalk_failures_not_reported :
    Walk.run statFailureFs exampleHost (_ftpWalk "site" [] []) [0, 0, 0] =
      { ops := [], frames := [{ pending := 0, done := Done.root }]
        ftpDirs := [], ftpFiles := ["site/a", "site/b"]
        calls := [none], thrown := none } ∧
    statFailureFs.stat "site/b" = { err := some (mkError "ENOENT" 34), result := none } ∧
    Walk.run readFailureFs exampleHost (_ftpWalk "site" [] []) [0] =
      { ops := [], frames := [], ftpDirs := [], ftpFiles := []
        calls := [], thrown := some "TypeError: Cannot read property length of undefined" } ∧
    readFailureFs.readdir "site" = { err := some (mkError "ENOENT" 34), result := none } := by
  refine ⟨?_, ?_, ?_, ?_⟩ <;> decide

/-! ## C7: the walk collects the whole tree, whatever the order of answers -/

/-- Modifying one element changes a count by what that element contributes. -/
theorem countP_modify {α : Type} (p : α → Bool) (g : α → α) (l : List α) (i : Nat) (a : α)
    (h : l[i]? = some a) :
    (l.modify g i).countP p + (if p a then 1 else 0) =
      l.countP p + (if p (g a) then 1 else 0) := by
  induction l generalizing i with
  | nil => simp at h
  | cons b rest ih =>
    cases i with
    | zero =>
      simp only [List.getElem?_cons_zero, Option.some.injEq] at h
      subst h
      simp only [List.modify_zero_cons, List.countP_cons]
      omega
    | succ j =>
      simp only [List.getElem?_cons_succ] at h
      simp only [List.modify_succ_cons, List.countP_cons]
      have := ih j h
      omega

/-- The activations after a decrement: the decremented one has one less
pending, all have their `done`. -/
theorem Walk.decrement_getElem? (s : Walk) (f g : Nat) :
    (s.decrement f).frames[g]? =
      (s.frames[g]?).map (fun fr => if g = f then { fr with pending := fr.pending - 1 } else fr) := by
  unfold Walk.decrement
  simp only
  by_cases hgf : g = f
  · subst hgf
    rw [List.getElem?_modify_eq]
    cases s.frames[g]? <;> simp
  · rw [List.getElem?_modify_ne _ _ (fun h => hgf h.symm)]
    cases s.frames[g]? <;> simp [hgf]

/-- A callback linked in a list of activations stays linked when every
activation keeps its place and its `done`. -/
theorem Linked.mono {frames frames2 : List Frame}
    (h : ∀ (g : Nat) (fr : Frame), frames[g]? = some fr → ∃ fr2, frames2[g]? = some fr2 ∧ fr2.done = fr.done)
    (d : Done) (hd : Linked frames d) : Linked frames2 d := by
  induction d with
  | root => trivial
  | onWalk f d ih =>
    obtain ⟨⟨fr, hfr, hdone⟩, hrest⟩ := hd
    obtain ⟨fr2, hfr2, hdone2⟩ := h f fr hfr
    exact ⟨⟨fr2, hfr2, hdone2.trans hdone⟩, ih hrest⟩

/-- A decrement keeps every activation in place with its `done`. -/
theorem Walk.decrement_keeps (s : Walk) (f : Nat) :
    ∀ (g : Nat) (fr : Frame), s.frames[g]? = some fr →
      ∃ fr2, (s.decrement f).frames[g]? = some fr2 ∧ fr2.done = fr.done := by
  intro g fr hfr
  rw [Walk.decrement_getElem?, hfr]
  refine ⟨_, rfl, ?_⟩
  split <;> rfl

/-- How a decrement changes the waiting activations that report to `x`. -/
theorem Walk.frameTokens_decrement (s : Walk) (f : Nat) (fr : Frame)
    (h : s.frames[f]? = some fr) (x : Option Nat) :
    (s.decrement f).frameTokens x + (if Frame.reportsTo x fr then 1 else 0) =
      s.frameTokens x +
        (if Frame.reportsTo x { fr with pending := fr.pending - 1 } then 1 else 0) :=
  countP_modify _ _ _ _ _ h

/-- Whether an activation reports to `x`, spelled out. -/
theorem Frame.reportsTo_iff (x : Option Nat) (fr : Frame) :
    Frame.reportsTo x fr = true ↔ fr.pending ≠ 0 ∧ fr.done.head = x := by
  simp [Frame.reportsTo]

/-- Invoking a callback touches neither the pending calls nor the collected
sequences. -/
theorem Walk.invoke_fields (s : Walk) (d : Done) (err : Option ErrVal) :
    (s.invoke d err).ops = s.ops ∧ (s.invoke d err).ftpDirs = s.ftpDirs ∧
    (s.invoke d err).ftpFiles = s.ftpFiles ∧ (s.invoke d err).thrown = s.thrown := by
  induction d generalizing s err with
  | root => exact ⟨rfl, rfl, rfl, rfl⟩
  | onWalk f d ih =>
    unfold Walk.invoke
    split
    · exact ih s err
    · dsimp only
      split
      · exact ih (s.decrement f) none
      · exact ⟨rfl, rfl, rfl, rfl⟩

/-- The counting invariant across the statement `--pending` in an activation
that was owed a report: if the counter reaches zero the activation's own
`done` is owed a report, otherwise nothing is owed. -/
theorem CountInv.decrement {s : Walk} {f : Nat} {fr : Frame}
    (h : CountInv s (some (some f))) (hfr : s.frames[f]? = some fr) :
    CountInv (s.decrement f) (if fr.pending - 1 = 0 then some fr.done.head else none) := by
  have hcount := h.frameCount f fr hfr
  have hself : owed (some (some f)) (some f) = 1 := by simp [owed]
  rw [hself] at hcount
  have hpos : fr.pending ≠ 0 := by omega
  have hbelow := h.parentBelow f fr hfr
  have hops : ∀ x, (s.decrement f).opTokens x = s.opTokens x := fun _ => rfl
  -- the change of the waiting activations reporting to `x`
  have hft : ∀ x, (s.decrement f).frameTokens x +
      (if fr.done.head = x then 1 else 0) =
      s.frameTokens x + (if fr.pending - 1 ≠ 0 ∧ fr.done.head = x then 1 else 0) := by
    intro x
    have := s.frameTokens_decrement f fr hfr x
    have e1 : (Frame.reportsTo x fr = true) ↔ fr.done.head = x := by
      rw [Frame.reportsTo_iff]; exact ⟨fun h => h.2, fun h => ⟨hpos, h⟩⟩
    have e2 : (Frame.reportsTo x { fr with pending := fr.pending - 1 } = true) ↔
        (fr.pending - 1 ≠ 0 ∧ fr.done.head = x) := by
      rw [Frame.reportsTo_iff]
    simp only [e1, e2] at this
    exact this
  have hkeep := s.decrement_keeps f
  refine ⟨h.callsOk, ?_, ?_, ?_, ?_, ?_⟩
  · -- rootCount
    have hr := h.rootCount
    have h0 : owed (some (some f)) none = 0 := by simp [owed]
    rw [h0] at hr
    have hx := hft none
    rw [hops]
    show s.opTokens none + (s.decrement f).frameTokens none + s.calls.length + _ = 1
    by_cases hz : fr.pending - 1 = 0
    · simp only [hz, if_true, owed, Option.some.injEq]
      simp only [hz, ne_eq, not_true_eq_false, false_and, if_false] at hx
      by_cases hh : fr.done.head = none
      · simp only [hh, if_true] at hx ⊢; omega
      · simp only [hh, if_false] at hx ⊢; omega
    · simp only [hz, if_false, owed]
      simp only [ne_eq, hz, not_false_eq_true, true_and] at hx
      simp only [reduceCtorEq, if_false]
      omega
  · -- frameCount
    intro g frg' hg'
    rw [Walk.decrement_getElem?] at hg'
    cases hg : s.frames[g]? with
    | none => rw [hg] at hg'; cases hg'
    | some frg =>
      rw [hg] at hg'
      simp only [Option.map_some', Option.some.injEq] at hg'
      have hx := hft (some g)
      rw [hops]
      by_cases hgf : g = f
      · subst hgf
        rw [hfr] at hg
        cases hg
        simp only [if_true] at hg'
        subst hg'
        have hne : fr.done.head ≠ some g := by
          intro hh
          exact Nat.lt_irrefl _ (hbelow g hh)
        simp only [hne, if_false, and_false] at hx
        have hzero : owed (if fr.pending - 1 = 0 then some fr.done.head else none) (some g)
            = 0 := by
          unfold owed
          by_cases hz : fr.pending - 1 = 0
          · simp [hz, hne]
          · simp [hz]
        rw [hzero]
        show fr.pending - 1 = _
        omega
      · simp only [hgf, if_false] at hg'
        subst hg'
        have hc := h.frameCount g frg hg
        have h0 : owed (some (some f)) (some g) = 0 := by
          unfold owed
          rw [if_neg]
          intro hc2
          exact hgf (Option.some.inj (Option.some.inj hc2)).symm
        rw [h0] at hc
        by_cases hz : fr.pending - 1 = 0
        · simp only [hz, if_true, owed, Option.some.injEq]
          simp only [hz, ne_eq, not_true_eq_false, false_and, if_false] at hx
          by_cases hh : fr.done.head = some g
          · simp only [hh, if_true] at hx ⊢; omega
          · simp only [hh, if_false] at hx ⊢; omega
        · simp only [hz, if_false, owed]
          simp only [ne_eq, hz, not_false_eq_true, true_and] at hx
          simp only [reduceCtorEq, if_false]
          omega
  · -- opsLinked
    intro op hop
    have := h.opsLinked op hop
    cases op with
    | readdir dir d => exact Linked.mono hkeep d this
    | stat file g =>
      show g < (s.decrement f).frames.length
      unfold Walk.decrement
      simpa using this
  · -- framesLinked
    intro g frg' hg'
    rw [Walk.decrement_getElem?] at hg'
    cases hg : s.frames[g]? with
    | none => rw [hg] at hg'; cases hg'
    | some frg =>
      rw [hg] at hg'
      simp only [Option.map_some', Option.some.injEq] at hg'
      have hd : frg'.done = frg.done := by
        rw [← hg']; split <;> rfl
      rw [hd]
      exact Linked.mono hkeep _ (h.framesLinked g frg hg)
  · -- parentBelow
    intro g frg' hg' x hx
    rw [Walk.decrement_getElem?] at hg'
    cases hg : s.frames[g]? with
    | none => rw [hg] at hg'; cases hg'
    | some frg =>
      rw [hg] at hg'
      simp only [Option.map_some', Option.some.injEq] at hg'
      have hd : frg'.done = frg.done := by
        rw [← hg']; split <;> rfl
      rw [hd] at hx
      exact h.parentBelow g frg hg x hx

/-- The counter of an activation after its decrement. -/
theorem Walk.pendingOf_decrement (s : Walk) (f : Nat) (fr : Frame) (hfr : s.frames[f]? = some fr) :
    (s.decrement f).pendingOf f = fr.pending - 1 := by
  unfold Walk.pendingOf
  rw [Walk.decrement_getElem?, hfr]
  simp

/-- Invoking without error a callback that is owed a report settles the debt:
the counting invariant holds again with nothing owed. -/
theorem CountInv.invoke {s : Walk} (d : Done) (h : CountInv s (some d.head))
    (hl : Linked s.frames d) : CountInv (s.invoke d none) none := by
  induction d generalizing s with
  | root =>
    have hr := h.rootCount
    have h1 : owed (some (Done.root).head) none = 1 := by simp [owed, Done.head]
    rw [h1] at hr
    refine ⟨?_, ?_, ?_, h.opsLinked, h.framesLinked, h.parentBelow⟩
    · intro c hc
      simp only [Walk.invoke, List.mem_append, List.mem_singleton] at hc
      rcases hc with hc | hc
      · exact h.callsOk c hc
      · exact hc
    · show s.opTokens none + s.frameTokens none + (s.calls ++ [none]).length + owed none none = 1
      simp only [List.length_append, List.length_singleton, owed, reduceCtorEq, if_false]
      omega
    · intro f fr hfr
      have := h.frameCount f fr hfr
      have h0 : owed (some (Done.root).head) (some f) = 0 := by simp [owed, Done.head]
      rw [h0] at this
      simpa [owed] using this
  | onWalk f d ih =>
    obtain ⟨⟨fr, hfr, hdone⟩, hld⟩ := hl
    have hdec := @CountInv.decrement s f fr h hfr
    have hp := s.pendingOf_decrement f fr hfr
    unfold Walk.invoke
    simp only [errTruthy, Bool.false_eq_true, if_false]
    by_cases hz : fr.pending - 1 = 0
    · rw [if_pos (by rw [hp]; exact hz)]
      rw [if_pos hz, hdone] at hdec
      exact ih hdec (Linked.mono (s.decrement_keeps f) d hld)
    · rw [if_neg (by rw [hp]; exact hz)]
      rw [if_neg hz] at hdec
      exact hdec

/-- The counting invariant only reads the pending calls, the activations and
the calls of the outermost callback. -/
theorem CountInv.congr {s t : Walk} {debt : Option (Option Nat)} (h : CountInv s debt)
    (hops : t.ops = s.ops) (hframes : t.frames = s.frames) (hcalls : t.calls = s.calls) :
    CountInv t debt := by
  have e1 : ∀ x, t.opTokens x = s.opTokens x := by
    intro x; unfold Walk.opTokens; rw [hops]
  have e2 : ∀ x, t.frameTokens x = s.frameTokens x := by
    intro x; unfold Walk.frameTokens; rw [hframes]
  refine ⟨?_, ?_, ?_, ?_, ?_, ?_⟩
  · rw [hcalls]; exact h.callsOk
  · rw [e1, e2, hcalls]; exact h.rootCount
  · intro f fr hfr
    rw [e1, e2]
    rw [hframes] at hfr
    exact h.frameCount f fr hfr
  · rw [hops, hframes]; exact h.opsLinked
  · rw [hframes]; exact h.framesLinked
  · rw [hframes]; exact h.parentBelow

/-- Taking a pending call out leaves its report owed. -/
theorem CountInv.erase {s t : Walk} (h : CountInv s none) (i : Nat) (op : FsOp)
    (hi : s.ops[i]? = some op) (hops : t.ops = s.ops.eraseIdx i)
    (hframes : t.frames = s.frames) (hcalls : t.calls = s.calls) :
    CountInv t (some op.target) := by
  have e1 : ∀ x, t.opTokens x + owed (some op.target) x = s.opTokens x := by
    intro x
    unfold Walk.opTokens owed
    rw [hops]
    have := countP_eraseIdx (fun o : FsOp => o.target == x) s.ops i op
      ((List.get?_eq_getElem? _ _).trans hi)
    by_cases hx : op.target = x
    · simp only [hx, beq_self_eq_true, if_true] at this ⊢
      exact this
    · have hb : (op.target == x) = false := by simpa using hx
      simp only [hb, Bool.false_eq_true, if_false, Nat.add_zero] at this
      have hne : ¬ (some op.target = some x) := fun hc => hx (Option.some.inj hc)
      simp only [hne, if_false, Nat.add_zero]
      exact this
  have e2 : ∀ x, t.frameTokens x = s.frameTokens x := by
    intro x; unfold Walk.frameTokens; rw [hframes]
  refine ⟨?_, ?_, ?_, ?_, ?_, ?_⟩
  · rw [hcalls]; exact h.callsOk
  · have := h.rootCount
    have h0 : owed none none = 0 := by simp [owed]
    rw [h0] at this
    rw [e2, hcalls]
    have := e1 none
    omega
  · intro f fr hfr
    rw [hframes] at hfr
    have := h.frameCount f fr hfr
    have h0 : owed none (some f) = 0 := by simp [owed]
    rw [h0] at this
    rw [e2]
    have := e1 (some f)
    omega
  · intro o ho
    rw [hops] at ho
    rw [hframes]
    exact h.opsLinked o (List.mem_of_mem_eraseIdx ho)
  · rw [hframes]; exact h.framesLinked
  · rw [hframes]; exact h.parentBelow

/-- The callback `done` of an existing activation. -/
theorem Walk.doneOf_eq (s : Walk) (f : Nat) (fr : Frame) (hfr : s.frames[f]? = some fr) :
    s.doneOf f = fr.done := by
  unfold Walk.doneOf
  rw [hfr]

/-- The counting invariant across `onStat` for a directory: the entry's
report is now owed by the walk of the directory. -/
theorem CountInv.enterDir {s t : Walk} {f : Nat} (h : CountInv s (some (some f)))
    (hf : f < s.frames.length) (file : String)
    (hops : t.ops = s.ops ++ [FsOp.readdir file (Done.onWalk f (s.doneOf f))])
    (hframes : t.frames = s.frames) (hcalls : t.calls = s.calls) :
    CountInv t none := by
  obtain ⟨fr, hfr⟩ : ∃ fr, s.frames[f]? = some fr := ⟨s.frames[f], List.getElem?_eq_getElem hf⟩
  have e1 : ∀ x, t.opTokens x = s.opTokens x + owed (some (some f)) x := by
    intro x
    unfold Walk.opTokens owed
    rw [hops, List.countP_append]
    by_cases hx : some f = x
    · subst hx
      simp [FsOp.target, Done.head]
    · have hne : ¬ (some (some f) = some x) := fun hc => hx (Option.some.inj hc)
      simp [FsOp.target, Done.head, hx, hne]
  have e2 : ∀ x, t.frameTokens x = s.frameTokens x := by
    intro x; unfold Walk.frameTokens; rw [hframes]
  refine ⟨?_, ?_, ?_, ?_, ?_, ?_⟩
  · rw [hcalls]; exact h.callsOk
  · have := h.rootCount
    rw [e1, e2, hcalls]
    simp only [owed, reduceCtorEq, if_false] at this ⊢
    omega
  · intro g frg hg
    rw [hframes] at hg
    have := h.frameCount g frg hg
    rw [e1, e2]
    have h0 : owed none (some g) = 0 := by simp [owed]
    rw [h0]
    omega
  · intro o ho
    rw [hops] at ho
    rw [hframes]
    rcases List.mem_append.mp ho with ho | ho
    · exact h.opsLinked o ho
    · simp only [List.mem_singleton] at ho
      subst ho
      exact ⟨⟨fr, hfr, (s.doneOf_eq f fr hfr).symm⟩, by
        rw [s.doneOf_eq f fr hfr]; exact h.framesLinked f fr hfr⟩
  · rw [hframes]; exact h.framesLinked
  · rw [hframes]; exact h.parentBelow

/-- The first activation a linked callback names exists. -/
theorem Linked.head_lt {frames : List Frame} {d : Done} (h : Linked frames d) (g : Nat)
    (hg : d.head = some g) : g < frames.length := by
  cases d with
  | root => cases hg
  | onWalk f d2 =>
    simp only [Done.head, Option.some.injEq] at hg
    subst hg
    obtain ⟨⟨fr, hfr, _⟩, _⟩ := h
    exact (List.getElem?_eq_some_iff.mp hfr).1

/-- Appending an activation keeps the others in place. -/
theorem append_keeps (frames : List Frame) (fr0 : Frame) :
    ∀ (g : Nat) (fr : Frame), frames[g]? = some fr →
      ∃ fr2, (frames ++ [fr0])[g]? = some fr2 ∧ fr2.done = fr.done := by
  intro g fr hfr
  refine ⟨fr, ?_, rfl⟩
  rw [List.getElem?_append_left (List.getElem?_eq_some_iff.mp hfr).1]
  exact hfr

/-- The counting invariant across `onDirRead` for a directory with entries: a
new activation waits for one report per entry and owes the report of the
walk. -/
theorem CountInv.newFrame {s t : Walk} {done : Done} (h : CountInv s (some done.head))
    (hl : Linked s.frames done) (n : Nat) (hn : n ≠ 0) (newOps : List FsOp)
    (hnew : ∀ op ∈ newOps, ∃ file, op = FsOp.stat file s.frames.length)
    (hlen : newOps.length = n) (hops : t.ops = s.ops ++ newOps)
    (hframes : t.frames = s.frames ++ [{ pending := (n : Int), done := done }])
    (hcalls : t.calls = s.calls) : CountInv t none := by
  have hkeep := append_keeps s.frames { pending := (n : Int), done := done }
  -- nothing reports to the new activation yet
  have f1 : s.opTokens (some s.frames.length) = 0 := by
    unfold Walk.opTokens
    rw [List.countP_eq_zero]
    intro op hop
    have hlink := h.opsLinked op hop
    cases op with
    | readdir dir d =>
      intro hc
      have hc2 : d.head = some s.frames.length := by simpa [FsOp.target] using hc
      exact Nat.lt_irrefl _ (Linked.head_lt hlink _ hc2)
    | stat file g =>
      intro hc
      have hc2 : g = s.frames.length := by simpa [FsOp.target] using hc
      have : g < s.frames.length := hlink
      omega
  have f2 : s.frameTokens (some s.frames.length) = 0 := by
    unfold Walk.frameTokens
    rw [List.countP_eq_zero]
    intro fr hfr hc
    obtain ⟨g, hg, hget⟩ := List.getElem_of_mem hfr
    have hget2 : s.frames[g]? = some fr := by
      rw [List.getElem?_eq_getElem hg, hget]
    have := h.parentBelow g fr hget2 s.frames.length ((Frame.reportsTo_iff _ _).mp hc).2
    omega
  have f3 : done.head ≠ some s.frames.length := by
    intro hc
    exact Nat.lt_irrefl _ (Linked.head_lt hl _ hc)
  have e1 : ∀ x, t.opTokens x =
      s.opTokens x + (if x = some s.frames.length then n else 0) := by
    intro x
    unfold Walk.opTokens
    rw [hops, List.countP_append]
    congr 1
    by_cases hx : x = some s.frames.length
    · rw [if_pos hx, ← hlen, List.countP_eq_length]
      intro op hop
      obtain ⟨file, rfl⟩ := hnew op hop
      simp [FsOp.target, hx]
    · rw [if_neg hx, List.countP_eq_zero]
      intro op hop
      obtain ⟨file, rfl⟩ := hnew op hop
      intro hc
      have hc2 : some s.frames.length = x := by simpa [FsOp.target] using hc
      exact hx hc2.symm
  have e2 : ∀ x, t.frameTokens x = s.frameTokens x + (if done.head = x then 1 else 0) := by
    intro x
    unfold Walk.frameTokens
    rw [hframes, List.countP_append]
    congr 1
    have hn' : (n : Int) ≠ 0 := by exact_mod_cast hn
    by_cases hx : done.head = x
    · simp [List.countP_cons, Frame.reportsTo, hx, hn']
    · simp [List.countP_cons, Frame.reportsTo, hx, hn']
  refine ⟨?_, ?_, ?_, ?_, ?_, ?_⟩
  · rw [hcalls]; exact h.callsOk
  · have := h.rootCount
    rw [e1, e2, hcalls]
    simp only [owed, Option.some.injEq, reduceCtorEq, if_false] at this ⊢
    omega
  · intro g frg hg
    rw [hframes] at hg
    rw [e1, e2]
    have h0 : owed none (some g) = 0 := by simp [owed]
    rw [h0]
    by_cases hlt : g < s.frames.length
    · rw [List.getElem?_append_left hlt] at hg
      have := h.frameCount g frg hg
      have hne : some g ≠ some s.frames.length := by
        intro hc; have := Option.some.inj hc; omega
      simp only [owed, Option.some.injEq, hne, if_false] at this ⊢
      omega
    · have hle : s.frames.length ≤ g := by omega
      rw [List.getElem?_append_right hle] at hg
      have hg0 : g - s.frames.length = 0 := by
        by_contra hc
        have : (([{ pending := (n : Int), done := done }] : List Frame))[g - s.frames.length]?
            = none := by
          apply List.getElem?_eq_none
          simp only [List.length_singleton]
          omega
        rw [this] at hg
        cases hg
      rw [hg0] at hg
      simp only [List.getElem?_cons_zero, Option.some.injEq] at hg
      subst hg
      have hgeq : g = s.frames.length := by omega
      subst hgeq
      simp only [f1, f2, if_true, f3, if_false]
      simp
  · intro o ho
    rw [hops] at ho
    rw [hframes]
    rcases List.mem_append.mp ho with ho | ho
    · have := h.opsLinked o ho
      cases o with
      | readdir dir d => exact Linked.mono hkeep d this
      | stat file g =>
        show g < (s.frames ++ [_]).length
        have : g < s.frames.length := this
        simp only [List.length_append, List.length_singleton]
        omega
    · obtain ⟨file, rfl⟩ := hnew o ho
      show s.frames.length < (s.frames ++ [_]).length
      simp
  · intro g frg hg
    rw [hframes] at hg ⊢
    by_cases hlt : g < s.frames.length
    · rw [List.getElem?_append_left hlt] at hg
      exact Linked.mono hkeep _ (h.framesLinked g frg hg)
    · have hle : s.frames.length ≤ g := by omega
      rw [List.getElem?_append_right hle] at hg
      have hmem : frg ∈ [({ pending := (n : Int), done := done } : Frame)] :=
        List.getElem?_mem hg
      simp only [List.mem_singleton] at hmem
      subst hmem
      exact Linked.mono hkeep _ hl
  · intro g frg hg x hx
    rw [hframes] at hg
    by_cases hlt : g < s.frames.length
    · rw [List.getElem?_append_left hlt] at hg
      exact h.parentBelow g frg hg x hx
    · have hle : s.frames.length ≤ g := by omega
      rw [List.getElem?_append_right hle] at hg
      have hmem : frg ∈ [({ pending := (n : Int), done := done } : Frame)] :=
        List.getElem?_mem hg
      simp only [List.mem_singleton] at hmem
      subst hmem
      have := Linked.head_lt hl x hx
      omega

/-- A decrement leaves every `done` as it is. -/
theorem Walk.doneOf_decrement (s : Walk) (f g : Nat) : (s.decrement f).doneOf g = s.doneOf g := by
  unfold Walk.doneOf
  rw [Walk.decrement_getElem?]
  cases s.frames[g]? with
  | none => rfl
  | some fr =>
    simp only [Option.map_some']
    split <;> rfl

/-- For an entry that is not a directory `onStat` pushes the path and then
does what `onWalk` does without error: decrement and, at zero, call `done`. -/
theorem Walk.onStat_file (s : Walk) (file : String) (f : Nat) (r : Reply Bool)
    (hr : r.result ≠ some true) :
    s.onStat file f r =
      Walk.invoke { s with ftpFiles := s.ftpFiles ++ [file] }
        (Done.onWalk f (s.doneOf f)) none := by
  unfold Walk.onStat
  rw [if_neg hr]
  unfold Walk.invoke
  simp only [errTruthy, Bool.false_eq_true, if_false]
  rw [Walk.doneOf_decrement]
  rfl

/-- The stat calls issued for the entries of a directory are those of its
todos. -/
theorem Forest.todos_op (host : Host) (dir : String) (f : Nat) (t : Forest) :
    (t.todos host dir f).map Todo.op =
      t.names.map (fun file => FsOp.stat (joinPath host dir file) f) := by
  induction t with
  | nil => rfl
  | file name rest ih => simp [Forest.todos, Forest.names, Todo.op, ih]
  | dir name children rest _ ih => simp [Forest.todos, Forest.names, Todo.op, ih]

/-- The files the todos of a directory will add are the files below it. -/
theorem Forest.todos_files (host : Host) (dir : String) (f : Nat) (t : Forest) :
    (t.todos host dir f).flatMap (Todo.files host) = Forest.files host dir t := by
  induction t with
  | nil => rfl
  | file name rest ih => simp [Forest.todos, Forest.files, Todo.files, ih]
  | dir name children rest _ ih => simp [Forest.todos, Forest.files, Todo.files, ih]

/-- The directories the todos of a directory will add are those below it. -/
theorem Forest.todos_dirs (host : Host) (dir : String) (f : Nat) (t : Forest) :
    (t.todos host dir f).flatMap (Todo.dirs host) = Forest.dirs host dir t := by
  induction t with
  | nil => rfl
  | file name rest ih => simp [Forest.todos, Forest.dirs, Todo.dirs, ih]
  | dir name children rest _ ih => simp [Forest.todos, Forest.dirs, Todo.dirs, ih]

/-- The todos of a directory cost what its content costs. -/
theorem Forest.todos_cost (host : Host) (dir : String) (f : Nat) (t : Forest) :
    totalCost (t.todos host dir f) = t.cost := by
  induction t with
  | nil => rfl
  | file name rest ih =>
    simp only [totalCost] at ih
    simp [Forest.todos, Forest.cost, Todo.cost, totalCost, ih]
  | dir name children rest _ ih =>
    simp only [totalCost] at ih
    simp [Forest.todos, Forest.cost, Todo.cost, totalCost, ih]

/-- The todos of a directory are answered as its content says. -/
theorem Forest.todos_valid (fs : FileSystem) (host : Host) (dir : String) (f : Nat)
    (t : Forest) (h : Forest.Holds fs host dir t) :
    ∀ td ∈ t.todos host dir f, td.Valid fs host := by
  induction t with
  | nil => intro td htd; cases htd
  | file name rest ih =>
    obtain ⟨h1, h2⟩ := h
    intro td htd
    rcases List.mem_cons.mp htd with rfl | htd
    · exact h1
    · exact ih h2 td htd
  | dir name children rest _ ih =>
    obtain ⟨h1, h2, h3, h4⟩ := h
    intro td htd
    rcases List.mem_cons.mp htd with rfl | htd
    · exact ⟨h1, h2, h3⟩
    · exact ih h4 td htd

/-- Taking one element out of a list, up to order. -/
theorem flatMap_eraseIdx {α β : Type} (g : α → List β) (l : List α) (i : Nat) (a : α)
    (h : l[i]? = some a) : List.Perm (l.flatMap g) (g a ++ (l.eraseIdx i).flatMap g) := by
  induction l generalizing i with
  | nil => simp at h
  | cons b rest ih =>
    cases i with
    | zero =>
      simp only [List.getElem?_cons_zero, Option.some.injEq] at h
      subst h
      simp [List.flatMap_cons]
    | succ j =>
      simp only [List.getElem?_cons_succ] at h
      simp only [List.eraseIdx_cons_succ, List.flatMap_cons]
      have := ih j h
      refine List.Perm.trans (List.Perm.append_left _ this) ?_
      rw [← List.append_assoc, ← List.append_assoc]
      exact List.Perm.append_right _ List.perm_append_comm

/-- The cost of a list of todos with one taken out. -/
theorem totalCost_eraseIdx (l : List Todo) (i : Nat) (a : Todo) (h : l[i]? = some a) :
    totalCost l = a.cost + totalCost (l.eraseIdx i) := by
  induction l generalizing i with
  | nil => simp at h
  | cons b rest ih =>
    cases i with
    | zero =>
      simp only [List.getElem?_cons_zero, Option.some.injEq] at h
      subst h
      simp [totalCost]
    | succ j =>
      simp only [List.getElem?_cons_succ] at h
      have := ih j h
      simp only [totalCost, List.eraseIdx_cons_succ, List.map_cons, List.sum_cons] at this ⊢
      omega

/-- Erasing commutes with mapping. -/
theorem map_eraseIdx {α β : Type} (g : α → β) (l : List α) (i : Nat) :
    (l.eraseIdx i).map g = (l.map g).eraseIdx i := by
  induction l generalizing i with
  | nil => rfl
  | cons b rest ih =>
    cases i with
    | zero => rfl
    | succ j => simp [List.eraseIdx_cons_succ, ih]

/-- The cost of two lists of todos. -/
theorem totalCost_append (a b : List Todo) : totalCost (a ++ b) = totalCost a + totalCost b := by
  simp [totalCost]

/-- A directory without names has no content. -/
theorem Forest.names_eq_nil (t : Forest) (h : t.names.length = 0) : t = Forest.nil := by
  cases t with
  | nil => rfl
  | file name rest => simp [Forest.names] at h
  | dir name children rest => simp [Forest.names] at h

/-- The step that answers the `readdir` of a directory keeps both invariants
and uses up one answer. -/
theorem step_listing (fs : FileSystem) (host : Host) (allFiles allDirs : List String)
    {s : Walk} {todos : List Todo} (hc : ContentInv fs host allFiles allDirs s todos)
    (hk : CountInv s none) (i : Nat) (dir : String) (done : Done) (content : Forest)
    (htd : todos[i]? = some (Todo.listing dir done content)) :
    ∃ todos2,
      ContentInv fs host allFiles allDirs
        (Walk.onDirRead host { s with ops := s.ops.eraseIdx i } dir done (fs.readdir dir))
        todos2 ∧
      CountInv
        (Walk.onDirRead host { s with ops := s.ops.eraseIdx i } dir done (fs.readdir dir))
        none ∧
      totalCost todos2 + 1 = totalCost todos := by
  have hop : s.ops[i]? = some (FsOp.readdir dir done) := by
    rw [hc.ops_eq, List.getElem?_map, htd]; rfl
  obtain ⟨hread, hholds⟩ := hc.valid _ (List.getElem?_mem htd)
  have hfilesP := flatMap_eraseIdx (Todo.files host) todos i _ htd
  have hdirsP := flatMap_eraseIdx (Todo.dirs host) todos i _ htd
  have hcost := totalCost_eraseIdx todos i _ htd
  have herase : s.ops.eraseIdx i = (todos.eraseIdx i).map Todo.op := by
    rw [hc.ops_eq, map_eraseIdx]
  have hvalidE : ∀ x ∈ todos.eraseIdx i, x.Valid fs host :=
    fun x hx => hc.valid x (List.mem_of_mem_eraseIdx hx)
  have hl : Linked s.frames done := hk.opsLinked _ (List.getElem?_mem hop)
  have hk1 : CountInv { s with ops := s.ops.eraseIdx i } (some done.head) :=
    hk.erase i _ hop rfl rfl rfl
  unfold Walk.onDirRead
  rw [hread]
  simp only [Option.isSome_none, Bool.false_eq_true, if_false]
  by_cases hn : content.names.length = 0
  · rw [if_pos hn]
    have hnil := content.names_eq_nil hn
    subst hnil
    obtain ⟨f1, f2, f3, f4⟩ :=
      Walk.invoke_fields { s with ops := s.ops.eraseIdx i } done none
    refine ⟨todos.eraseIdx i, ⟨?_, hvalidE, ?_, ?_, ?_⟩, CountInv.invoke done hk1 hl, ?_⟩
    · rw [f1]; exact herase
    · rw [f3]
      refine List.Perm.trans ?_ hc.files
      exact List.Perm.append_left _ (by simpa [Todo.files, Forest.files] using hfilesP.symm)
    · rw [f2]
      refine List.Perm.trans ?_ hc.dirs
      exact List.Perm.append_left _ (by simpa [Todo.dirs, Forest.dirs] using hdirsP.symm)
    · rw [f4]; exact hc.notThrown
    · rw [hcost]; simp [Todo.cost, Forest.cost]; omega
  · rw [if_neg hn]
    refine ⟨todos.eraseIdx i ++ content.todos host dir s.frames.length,
      ⟨?_, ?_, ?_, ?_, hc.notThrown⟩, ?_, ?_⟩
    · show s.ops.eraseIdx i ++ _ = _
      rw [List.map_append, Forest.todos_op, herase]
    · intro td htd2
      rcases List.mem_append.mp htd2 with h1 | h1
      · exact hvalidE td h1
      · exact Forest.todos_valid fs host dir _ content hholds td h1
    · show List.Perm (s.ftpFiles ++ _) allFiles
      rw [List.flatMap_append, Forest.todos_files]
      refine List.Perm.trans ?_ hc.files
      refine List.Perm.append_left _ ?_
      refine List.Perm.trans ?_ hfilesP.symm
      exact List.perm_append_comm
    · show List.Perm (s.ftpDirs ++ _) allDirs
      rw [List.flatMap_append, Forest.todos_dirs]
      refine List.Perm.trans ?_ hc.dirs
      refine List.Perm.append_left _ ?_
      refine List.Perm.trans ?_ hdirsP.symm
      exact List.perm_append_comm
    · refine CountInv.newFrame hk1 hl content.names.length hn
        (content.names.map (fun file => FsOp.stat (joinPath host dir file) s.frames.length))
        ?_ (by simp) rfl rfl rfl
      intro op hop2
      obtain ⟨file, _, rfl⟩ := List.mem_map.mp hop2
      exact ⟨_, rfl⟩
    · rw [totalCost_append, Forest.todos_cost, hcost]
      simp only [Todo.cost]
      omega

/-- The step that answers the `stat` of a file keeps both invariants and uses
up one answer. -/
theorem step_entryFile (fs : FileSystem) (host : Host) (allFiles allDirs : List String)
    {s : Walk} {todos : List Todo} (hc : ContentInv fs host allFiles allDirs s todos)
    (hk : CountInv s none) (i : Nat) (path : String) (f : Nat)
    (htd : todos[i]? = some (Todo.entryFile path f)) :
    ∃ todos2,
      ContentInv fs host allFiles allDirs
        (Walk.onStat { s with ops := s.ops.eraseIdx i } path f (fs.stat path)) todos2 ∧
      CountInv (Walk.onStat { s with ops := s.ops.eraseIdx i } path f (fs.stat path)) none ∧
      totalCost todos2 + 1 = totalCost todos := by
  have hop : s.ops[i]? = some (FsOp.stat path f) := by
    rw [hc.ops_eq, List.getElem?_map, htd]; rfl
  have hstat : fs.stat path = { err := none, result := some false } :=
    hc.valid _ (List.getElem?_mem htd)
  have hfilesP := flatMap_eraseIdx (Todo.files host) todos i _ htd
  have hdirsP := flatMap_eraseIdx (Todo.dirs host) todos i _ htd
  have hcost := totalCost_eraseIdx todos i _ htd
  have herase : s.ops.eraseIdx i = (todos.eraseIdx i).map Todo.op := by
    rw [hc.ops_eq, map_eraseIdx]
  have hvalidE : ∀ x ∈ todos.eraseIdx i, x.Valid fs host :=
    fun x hx => hc.valid x (List.mem_of_mem_eraseIdx hx)
  have hf : f < s.frames.length := hk.opsLinked _ (List.getElem?_mem hop)
  obtain ⟨fr, hfr⟩ : ∃ fr, s.frames[f]? = some fr := ⟨s.frames[f], List.getElem?_eq_getElem hf⟩
  have hk1 : CountInv
      { s with ops := s.ops.eraseIdx i, ftpFiles := s.ftpFiles ++ [path] } (some (some f)) :=
    hk.erase i _ hop rfl rfl rfl
  rw [Walk.onStat_file _ _ _ _ (by rw [hstat]; decide)]
  have hl : Linked s.frames (Done.onWalk f (Walk.doneOf { s with ops := s.ops.eraseIdx i } f)) := by
    have hd : Walk.doneOf { s with ops := s.ops.eraseIdx i } f = fr.done :=
      Walk.doneOf_eq _ f fr hfr
    rw [hd]
    exact ⟨⟨fr, hfr, rfl⟩, hk.framesLinked f fr hfr⟩
  obtain ⟨f1, f2, f3, f4⟩ :=
    Walk.invoke_fields { s with ops := s.ops.eraseIdx i, ftpFiles := s.ftpFiles ++ [path] }
      (Done.onWalk f (Walk.doneOf { s with ops := s.ops.eraseIdx i } f)) none
  refine ⟨todos.eraseIdx i, ⟨?_, hvalidE, ?_, ?_, ?_⟩, CountInv.invoke _ hk1 hl, ?_⟩
  · rw [f1]; exact herase
  · rw [f3]
    refine List.Perm.trans ?_ hc.files
    show List.Perm ((s.ftpFiles ++ [path]) ++ _) _
    rw [List.append_assoc]
    exact List.Perm.append_left _ (by simpa [Todo.files] using hfilesP.symm)
  · rw [f2]
    refine List.Perm.trans ?_ hc.dirs
    exact List.Perm.append_left _ (by simpa [Todo.dirs] using hdirsP.symm)
  · rw [f4]; exact hc.notThrown
  · rw [hcost]; simp only [Todo.cost]; omega

/-- The step that answers the `stat` of a directory keeps both invariants and
uses up one answer. -/
theorem step_entryDir (fs : FileSystem) (host : Host) (allFiles allDirs : List String)
    {s : Walk} {todos : List Todo} (hc : ContentInv fs host allFiles allDirs s todos)
    (hk : CountInv s none) (i : Nat) (path : String) (f : Nat) (children : Forest)
    (htd : todos[i]? = some (Todo.entryDir path f children)) :
    ∃ todos2,
      ContentInv fs host allFiles allDirs
        (Walk.onStat { s with ops := s.ops.eraseIdx i } path f (fs.stat path)) todos2 ∧
      CountInv (Walk.onStat { s with ops := s.ops.eraseIdx i } path f (fs.stat path)) none ∧
      totalCost todos2 + 1 = totalCost todos := by
  have hop : s.ops[i]? = some (FsOp.stat path f) := by
    rw [hc.ops_eq, List.getElem?_map, htd]; rfl
  obtain ⟨hstat, htree⟩ := hc.valid _ (List.getElem?_mem htd)
  have hfilesP := flatMap_eraseIdx (Todo.files host) todos i _ htd
  have hdirsP := flatMap_eraseIdx (Todo.dirs host) todos i _ htd
  have hcost := totalCost_eraseIdx todos i _ htd
  have herase : s.ops.eraseIdx i = (todos.eraseIdx i).map Todo.op := by
    rw [hc.ops_eq, map_eraseIdx]
  have hvalidE : ∀ x ∈ todos.eraseIdx i, x.Valid fs host :=
    fun x hx => hc.valid x (List.mem_of_mem_eraseIdx hx)
  have hf : f < s.frames.length := hk.opsLinked _ (List.getElem?_mem hop)
  have hk1 : CountInv { s with ops := s.ops.eraseIdx i } (some (some f)) :=
    hk.erase i _ hop rfl rfl rfl
  unfold Walk.onStat
  rw [hstat]
  simp only [if_true]
  refine ⟨todos.eraseIdx i ++
      [Todo.listing path (Done.onWalk f (Walk.doneOf { s with ops := s.ops.eraseIdx i } f))
        children],
    ⟨?_, ?_, ?_, ?_, hc.notThrown⟩, ?_, ?_⟩
  · show s.ops.eraseIdx i ++ _ = _
    rw [List.map_append, herase]
    rfl
  · intro td htd2
    rcases List.mem_append.mp htd2 with h1 | h1
    · exact hvalidE td h1
    · simp only [List.mem_singleton] at h1
      subst h1
      exact htree
  · show List.Perm (s.ftpFiles ++ _) allFiles
    refine List.Perm.trans ?_ hc.files
    refine List.Perm.append_left _ ?_
    refine List.Perm.trans ?_ hfilesP.symm
    simp only [List.flatMap_append, List.flatMap_cons, List.flatMap_nil, List.append_nil,
      Todo.files]
    exact List.perm_append_comm
  · show List.Perm ((s.ftpDirs ++ [path]) ++ _) allDirs
    refine List.Perm.trans ?_ hc.dirs
    rw [List.append_assoc]
    refine List.Perm.append_left _ ?_
    refine List.Perm.trans ?_ hdirsP.symm
    simp only [List.flatMap_append, List.flatMap_cons, List.flatMap_nil, List.append_nil,
      Todo.dirs, List.singleton_append]
    exact List.Perm.cons _ List.perm_append_comm
  · exact CountInv.enterDir hk1 hf path rfl rfl rfl
  · rw [totalCost_append, hcost]
    simp only [totalCost, Todo.cost, List.map_cons, List.map_nil, List.sum_cons, List.sum_nil]
    omega

/-- Every step on a state with pending calls keeps both invariants and uses up
one answer. -/
theorem Walk.step_inv (fs : FileSystem) (host : Host) (allFiles allDirs : List String)
    {s : Walk} {todos : List Todo} (hc : ContentInv fs host allFiles allDirs s todos)
    (hk : CountInv s none) (choice : Nat) (hne : todos ≠ []) :
    ∃ todos2, ContentInv fs host allFiles allDirs (s.step fs host choice) todos2 ∧
      CountInv (s.step fs host choice) none ∧ totalCost todos2 + 1 = totalCost todos := by
  have hlen : 0 < s.ops.length := by
    rw [hc.ops_eq, List.length_map]; exact List.length_pos.mpr hne
  have hilt : choice % s.ops.length < todos.length := by
    have := Nat.mod_lt choice hlen
    rw [hc.ops_eq, List.length_map] at this
    rw [hc.ops_eq, List.length_map]
    exact this
  have key : ∀ i, i < todos.length → ∃ td, todos[i]? = some td ∧ s.ops[i]? = some td.op := by
    intro i hi
    refine ⟨todos[i], List.getElem?_eq_getElem hi, ?_⟩
    rw [hc.ops_eq, List.getElem?_map, List.getElem?_eq_getElem hi]
    rfl
  obtain ⟨td, htd, hop⟩ := key _ hilt
  unfold Walk.step
  rw [if_neg (by rw [hc.notThrown]; simp), hop]
  cases td with
  | listing dir done content =>
    exact step_listing fs host allFiles allDirs hc hk _ dir done content htd
  | entryFile path f =>
    exact step_entryFile fs host allFiles allDirs hc hk _ path f htd
  | entryDir path f children =>
    exact step_entryDir fs host allFiles allDirs hc hk _ path f children htd

/-- Without pending calls a step changes nothing. -/
theorem Walk.step_idle (fs : FileSystem) (host : Host) (s : Walk) (choice : Nat)
    (h : s.ops = []) : s.step fs host choice = s := by
  unfold Walk.step
  split
  · rfl
  · rw [h]
    simp

/-- Every todo costs at least one answer. -/
theorem totalCost_eq_zero (todos : List Todo) (h : totalCost todos = 0) : todos = [] := by
  cases todos with
  | nil => rfl
  | cons td rest =>
    exfalso
    have : 1 ≤ td.cost := by cases td <;> simp only [Todo.cost] <;> omega
    simp only [totalCost, List.map_cons, List.sum_cons] at h
    omega

/-- Every run keeps both invariants, and each choice uses up one answer for
as long as any is to come. -/
theorem Walk.run_inv (fs : FileSystem) (host : Host) (allFiles allDirs : List String)
    (choices : List Nat) {s : Walk} {todos : List Todo}
    (hc : ContentInv fs host allFiles allDirs s todos) (hk : CountInv s none) :
    ∃ todos2, ContentInv fs host allFiles allDirs (Walk.run fs host s choices) todos2 ∧
      CountInv (Walk.run fs host s choices) none ∧
      totalCost todos2 = totalCost todos - choices.length := by
  induction choices generalizing s todos with
  | nil => exact ⟨todos, hc, hk, by simp⟩
  | cons choice rest ih =>
    unfold Walk.run
    by_cases hne : todos = []
    · have hidle : s.step fs host choice = s := by
        apply Walk.step_idle
        rw [hc.ops_eq, hne]
        rfl
      rw [hidle]
      obtain ⟨todos2, h1, h2, h3⟩ := ih hc hk
      refine ⟨todos2, h1, h2, ?_⟩
      rw [h3, hne]
      simp [totalCost]
    · obtain ⟨todos1, h1, h2, h3⟩ := Walk.step_inv fs host allFiles allDirs hc hk choice hne
      obtain ⟨todos2, g1, g2, g3⟩ := ih h1 h2
      refine ⟨todos2, g1, g2, ?_⟩
      rw [g3]
      simp only [List.length_cons]
      omega

/-- Without pending calls no activation waits. -/
theorem CountInv.idle_frames {s : Walk} (h : CountInv s none) (hops : s.ops = []) :
    ∀ (k g : Nat) (fr : Frame), s.frames.length - g ≤ k → s.frames[g]? = some fr →
      fr.pending = 0 := by
  intro k
  induction k with
  | zero =>
    intro g fr hk hg
    have := (List.getElem?_eq_some_iff.mp hg).1
    omega
  | succ k ih =>
    intro g fr hk hg
    have hcount := h.frameCount g fr hg
    have h0 : owed none (some g) = 0 := by simp [owed]
    have hop : s.opTokens (some g) = 0 := by
      unfold Walk.opTokens; rw [hops]; rfl
    rw [h0, hop] at hcount
    have hft : s.frameTokens (some g) = 0 := by
      unfold Walk.frameTokens
      rw [List.countP_eq_zero]
      intro fr2 hfr2 hrep
      obtain ⟨hpend, hhead⟩ := (Frame.reportsTo_iff _ _).mp hrep
      obtain ⟨j, hj, hget⟩ := List.getElem_of_mem hfr2
      have hget2 : s.frames[j]? = some fr2 := by
        rw [List.getElem?_eq_getElem hj, hget]
      have hlt := h.parentBelow j fr2 hget2 g hhead
      exact hpend (ih j fr2 (by omega) hget2)
    rw [hft] at hcount
    simpa using hcount

/-- When no call is pending the outermost callback has been called exactly
once, without error. -/
theorem CountInv.idle_calls {s : Walk} (h : CountInv s none) (hops : s.ops = []) :
    s.calls = [none] := by
  have hop : s.opTokens none = 0 := by
    unfold Walk.opTokens; rw [hops]; rfl
  have hft : s.frameTokens none = 0 := by
    unfold Walk.frameTokens
    rw [List.countP_eq_zero]
    intro fr hfr hrep
    obtain ⟨hpend, _⟩ := (Frame.reportsTo_iff _ _).mp hrep
    obtain ⟨j, hj, hget⟩ := List.getElem_of_mem hfr
    have hget2 : s.frames[j]? = some fr := by
      rw [List.getElem?_eq_getElem hj, hget]
    exact hpend (h.idle_frames hops _ j fr (Nat.le_refl _) hget2)
  have hr := h.rootCount
  have h0 : owed none none = 0 := by simp [owed]
  rw [hop, hft, h0] at hr
  have hlen : s.calls.length = 1 := by omega
  match hcalls : s.calls, hlen with
  | [c], _ =>
    have := h.callsOk c (by rw [hcalls]; exact List.mem_singleton_self _)
    rw [this]

/-- While anything waits, something waits for the outermost callback. -/
theorem CountInv.waiting_root {s : Walk} (h : CountInv s none) :
    ∀ (k g : Nat) (fr : Frame), g ≤ k → s.frames[g]? = some fr → fr.pending ≠ 0 →
      0 < s.frameTokens none := by
  intro k
  induction k using Nat.strong_induction_on with
  | _ k ih =>
    intro g fr hgk hg hpend
    cases hhead : fr.done.head with
    | none =>
      unfold Walk.frameTokens
      exact List.countP_pos_iff.mpr
        ⟨fr, List.getElem?_mem hg, (Frame.reportsTo_iff _ _).mpr ⟨hpend, hhead⟩⟩
    | some p =>
      have hlt := h.parentBelow g fr hg p hhead
      have hlink := h.framesLinked g fr hg
      have hp : p < s.frames.length := Linked.head_lt hlink p hhead
      have hgetp : s.frames[p]? = some s.frames[p] := List.getElem?_eq_getElem hp
      have hcount := h.frameCount p _ hgetp
      have hpos : 0 < s.frameTokens (some p) := by
        unfold Walk.frameTokens
        exact List.countP_pos_iff.mpr
          ⟨fr, List.getElem?_mem hg, (Frame.reportsTo_iff _ _).mpr ⟨hpend, hhead⟩⟩
      have hpp : s.frames[p].pending ≠ 0 := by omega
      exact ih p (by omega) p _ (Nat.le_refl _) hgetp hpp

/-- Once the outermost callback has been called no call is pending. -/
theorem CountInv.called_idle {s : Walk} (h : CountInv s none) (hcalls : s.calls ≠ []) :
    s.ops = [] := by
  have hlen : 0 < s.calls.length := List.length_pos.mpr hcalls
  have hr := h.rootCount
  have hop : s.opTokens none = 0 := by omega
  have hft : s.frameTokens none = 0 := by omega
  cases hops : s.ops with
  | nil => rfl
  | cons op rest =>
    exfalso
    have hmem : op ∈ s.ops := by rw [hops]; exact List.mem_cons_self _ _
    have hlink := h.opsLinked op hmem
    cases htarget : op.target with
    | none =>
      have : 0 < s.opTokens none := by
        unfold Walk.opTokens
        exact List.countP_pos_iff.mpr ⟨op, hmem, by simp [htarget]⟩
      omega
    | some f =>
      have hf : f < s.frames.length := by
        cases op with
        | readdir dir d => exact Linked.head_lt hlink f htarget
        | stat file g =>
          simp only [FsOp.target, Option.some.injEq] at htarget
          subst htarget
          exact hlink
      have hget : s.frames[f]? = some s.frames[f] := List.getElem?_eq_getElem hf
      have hcount := h.frameCount f _ hget
      have hpos : 0 < s.opTokens (some f) := by
        unfold Walk.opTokens
        exact List.countP_pos_iff.mpr ⟨op, hmem, by simp [htarget]⟩
      have hpend : s.frames[f].pending ≠ 0 := by omega
      have := h.waiting_root f f _ (Nat.le_refl _) hget hpend
      omega

/-- The file paths of a tree are as many as its files. -/
theorem Forest.length_files (host : Host) (d : String) (t : Forest) :
    (Forest.files host d t).length = t.fileCount := by
  induction t generalizing d with
  | nil => rfl
  | file name rest ih => simp [Forest.files, Forest.fileCount, ih]; omega
  | dir name children rest ihc ihr =>
    simp [Forest.files, Forest.fileCount, ihc, ihr]

/-- The directory paths of a tree are as many as its directories. -/
theorem Forest.length_dirs (host : Host) (d : String) (t : Forest) :
    (Forest.dirs host d t).length = t.dirCount := by
  induction t generalizing d with
  | nil => rfl
  | file name rest ih => simp [Forest.dirs, Forest.dirCount, ih]
  | dir name children rest ihc ihr =>
    simp [Forest.dirs, Forest.dirCount, ihc, ihr]; omega

/-- Every proper ancestor listed for an entry is one of the directories. -/
theorem Forest.lineage_dirs (host : Host) (all : List String) (d : String)
    (above : List String) (t : Forest) (habove : ∀ a ∈ above, a ∈ all)
    (hdirs : ∀ a ∈ Forest.dirs host d t, a ∈ all) :
    ∀ entry ∈ Forest.lineage host d above t, ∀ a ∈ entry.2, a ∈ all := by
  induction t generalizing d above with
  | nil => intro entry he; cases he
  | file name rest ih =>
    intro entry he
    rcases List.mem_cons.mp he with rfl | he
    · exact habove
    · exact ih d above habove hdirs entry he
  | dir name children rest ihc ihr =>
    intro entry he
    have hself : joinPath host d name ∈ all := hdirs _ (List.mem_cons_self _ _)
    rcases List.mem_cons.mp he with rfl | he
    · exact habove
    · rcases List.mem_append.mp he with he | he
      · refine ihc (joinPath host d name) (joinPath host d name :: above) ?_ ?_ entry he
        · intro a ha
          rcases List.mem_cons.mp ha with rfl | ha
          · exact hself
          · exact habove a ha
        · intro a ha
          exact hdirs a (List.mem_cons_of_mem _ (List.mem_append_left _ ha))
      · refine ihr d above habove ?_ entry he
        intro a ha
        exact hdirs a (List.mem_cons_of_mem _ (List.mem_append_right _ ha))

/-- The walk starts in a state that satisfies both invariants. -/
theorem ftpWalk_start (fs : FileSystem) (host : Host) (root : String) (t : Forest)
    (htree : IsTree fs host root t) :
    ContentInv fs host (Forest.files host root t) (Forest.dirs host root t)
      (_ftpWalk root [] []) [Todo.listing root Done.root t] ∧
    CountInv (_ftpWalk root [] []) none := by
  constructor
  · refine ⟨rfl, ?_, ?_, ?_, rfl⟩
    · intro td htd
      simp only [List.mem_singleton] at htd
      subst htd
      exact htree
    · simp [_ftpWalk, Todo.files]
    · simp [_ftpWalk, Todo.dirs]
  · refine ⟨?_, ?_, ?_, ?_, ?_, ?_⟩
    · intro c hc; cases hc
    · simp [_ftpWalk, Walk.opTokens, Walk.frameTokens, FsOp.target, Done.head, owed]
    · intro f fr hfr
      simp [_ftpWalk] at hfr
    · intro op hop
      simp only [_ftpWalk, List.mem_singleton] at hop
      subst hop
      trivial
    · intro f fr hfr
      simp [_ftpWalk] at hfr
    · intro f fr hfr
      simp [_ftpWalk] at hfr

/-- C7: let the directory `root` hold a finite tree `t` on a file system on
which every read and stat succeeds, and let `_ftpWalk(root)` start on empty
sequences.  Whatever the order in which the file system answers: (a) at any
time the walk's callback has not been called, or it has been called exactly
once, without error, and then the file sequence holds exactly the file paths of
the tree and the directory sequence exactly its directory paths, each once;
no exception is thrown; (b) once the file system has answered all calls (one
`readdir` per directory, the root included, and one `stat` per entry), the
callback has been called, the sequences hold the N file paths and the M
directory paths, and every proper ancestor below the root of every entry is in
the directory sequence. -/
theorem ftpWalk_collects_tree (fs : FileSystem) (host : Host) (root : String) (t : Forest)
    (htree : IsTree fs host root t) (choices : List Nat) :
    ((Walk.run fs host (_ftpWalk root [] []) choices).calls = [] ∨
      ((Walk.run fs host (_ftpWalk root [] []) choices).calls = [none] ∧
        List.Perm (Walk.run fs host (_ftpWalk root [] []) choices).ftpFiles
          (Forest.files host root t) ∧
        List.Perm (Walk.run fs host (_ftpWalk root [] []) choices).ftpDirs
          (Forest.dirs host root t))) ∧
    (Walk.run fs host (_ftpWalk root [] []) choices).thrown = none ∧
    (t.cost + 1 ≤ choices.length →
      (Walk.run fs host (_ftpWalk root [] []) choices).calls = [none] ∧
      List.Perm (Walk.run fs host (_ftpWalk root [] []) choices).ftpFiles
        (Forest.files host root t) ∧
      List.Perm (Walk.run fs host (_ftpWalk root [] []) choices).ftpDirs
        (Forest.dirs host root t) ∧
      (Walk.run fs host (_ftpWalk root [] []) choices).ftpFiles.length = t.fileCount ∧
      (Walk.run fs host (_ftpWalk root [] []) choices).ftpDirs.length = t.dirCount ∧
      ∀ entry ∈ Forest.lineage host root [] t, ∀ a ∈ entry.2,
        a ∈ (Walk.run fs host (_ftpWalk root [] []) choices).ftpDirs) := by
  obtain ⟨hc0, hk0⟩ := ftpWalk_start fs host root t htree
  obtain ⟨todos, hc, hk, hcost⟩ := Walk.run_inv fs host _ _ choices hc0 hk0
  generalize Walk.run fs host (_ftpWalk root [] []) choices = s at hc hk ⊢
  have hdone : todos = [] → s.calls = [none] ∧
      List.Perm s.ftpFiles (Forest.files host root t) ∧
      List.Perm s.ftpDirs (Forest.dirs host root t) := by
    intro hnil
    have hops : s.ops = [] := by rw [hc.ops_eq, hnil]; rfl
    have hf := hc.files
    have hd := hc.dirs
    rw [hnil] at hf hd
    simp only [List.flatMap_nil, List.append_nil] at hf hd
    exact ⟨hk.idle_calls hops, hf, hd⟩
  refine ⟨?_, hc.notThrown, ?_⟩
  · by_cases hcalls : s.calls = []
    · exact Or.inl hcalls
    · right
      have hops := hk.called_idle hcalls
      apply hdone
      rw [hc.ops_eq] at hops
      exact List.map_eq_nil_iff.mp hops
  · intro hlen
    have hzero : totalCost todos = 0 := by
      rw [hcost]
      simp only [totalCost, Todo.cost, List.map_cons, List.map_nil, List.sum_cons, List.sum_nil]
      omega
    obtain ⟨h1, h2, h3⟩ := hdone (totalCost_eq_zero todos hzero)
    refine ⟨h1, h2, h3, ?_, ?_, ?_⟩
    · rw [h2.length_eq, Forest.length_files]
    · rw [h3.length_eq, Forest.length_dirs]
    · intro entry he a ha
      have := Forest.lineage_dirs host (Forest.dirs host root t) root [] t
        (by intro a ha; cases ha) (fun a ha => ha) entry he a ha
      exact h3.symm.subset this

/-- C7 witness: the example site (three files, three directories, one of them
empty and nested), with the answers arriving in a mixed order. -/
theorem ftpWalk_collects_tree_witness :
    (Walk.run exampleFs exampleHost (_ftpWalk "site" [] []) [0, 2, 1, 5, 3, 7, 1, 0, 0, 4]).calls
      = [none] ∧
    List.Perm
      (Walk.run exampleFs exampleHost (_ftpWalk "site" [] []) [0, 2, 1, 5, 3, 7, 1, 0, 0, 4]).ftpFiles
      (Forest.files exampleHost "site" exampleTree) ∧
    List.Perm
      (Walk.run exampleFs exampleHost (_ftpWalk "site" [] []) [0, 2, 1, 5, 3, 7, 1, 0, 0, 4]).ftpDirs
      (Forest.dirs exampleHost "site" exampleTree) ∧
    (Walk.run exampleFs exampleHost (_ftpWalk "site" [] [])
      [0, 2, 1, 5, 3, 7, 1, 0, 0, 4]).ftpFiles.length = exampleTree.fileCount ∧
    (Walk.run exampleFs exampleHost (_ftpWalk "site" [] [])
      [0, 2, 1, 5, 3, 7, 1, 0, 0, 4]).ftpDirs.length = exampleTree.dirCount ∧
    ∀ entry ∈ Forest.lineage exampleHost "site" [] exampleTree, ∀ a ∈ entry.2,
      a ∈ (Walk.run exampleFs exampleHost (_ftpWalk "site" [] [])
        [0, 2, 1, 5, 3, 7, 1, 0, 0, 4]).ftpDirs :=
  (ftpWalk_collects_tree exampleFs exampleHost "site" exampleTree
    (by simp only [IsTree, exampleTree, Forest.Holds, Forest.names]; decide)
    [0, 2, 1, 5, 3, 7, 1, 0, 0, 4]).2.2 (by decide)

/-- The example walk, evaluated: the sequences in the order this run fills
them. -/
theorem ftpWalk_example_run :
    Walk.run exampleFs exampleHost (_ftpWalk "site" [] []) [0, 2, 1, 5, 3, 7, 1, 0, 0, 4] =
      { ops := []
        frames := [ { pending := 0, done := Done.root },
                    { pending := 0, done := Done.onWalk 0 Done.root },
                    { pending := 0, done := Done.onWalk 0 Done.root } ]
        ftpDirs := ["site/js", "site/css", "site/css/empty"]
        ftpFiles := ["site/index.html", "site/js/x.js", "site/css/a.css"]
        calls := [none], thrown := none } := by
  decide

end Azure
